import Mathlib

/-!
# Lu–Milios graph registration (`pcl::registration::LUM`)

A shallow embedding of `registration/include/pcl/registration/impl/lum.hpp`.

* Scalars (`float` in the source) are read in exact arithmetic as elements of an
  arbitrary field `K`.
* The numeric primitives that the source takes from libm and Eigen (`cosf`, `sinf`,
  `Matrix6f::inverse`, the float quotient `1 / ss`, `colPivHouseholderQr ().solve`) are
  the fields of a record `Numerics K`, so that no statement depends on what they return
  on a singular matrix or on a zero divisor.
* The boost graph is a vertex list (dense ids `0, 1, …`) and an edge list in insertion
  order; `edge (s, t, g)` is the first stored edge from `s` to `t`.
-/

namespace LUM

set_option linter.unusedSectionVars false

/-! ## Scalars, vectors and numeric primitives -/

/-- The type `Eigen::Matrix<float, 6, 1>`. -/
abbrev Vector6f (K : Type) := Fin 6 → K

/-- The type `Eigen::Matrix<float, 6, 6>`. -/
abbrev Matrix6f (K : Type) := Matrix (Fin 6) (Fin 6) K

/-- The type `Eigen::Vector3f`. -/
abbrev Vector3f (K : Type) := Fin 3 → K

/-- The type `Eigen::Affine3f`, kept as its 4×4 matrix. -/
abbrev Affine3f (K : Type) := Matrix (Fin 4) (Fin 4) K

/-- The dense system matrix `G` of `compute`, of size `6 m` with `m = n - 1`: the scalar
index `6 * a + r` of the source is the pair `(a, r)`. -/
abbrev SystemMatrix (K : Type) (m : Nat) := Matrix (Fin m × Fin 6) (Fin m × Fin 6) K

/-- The dense right-hand side `B` (and the solution `X`) of `compute`. -/
abbrev SystemVector (K : Type) (m : Nat) := Fin m × Fin 6 → K

/-- The numeric primitives the source calls but does not define. -/
structure Numerics (K : Type) where
  /-- The libm cosine (`cos`, `cosf`). -/
  cos : K → K
  /-- The libm sine (`sin`, `sinf`). -/
  sin : K → K
  /-- The call `Matrix6f::inverse ()` of Eigen. -/
  inverse : Matrix6f K → Matrix6f K
  /-- The float quotient `1 / ss`. -/
  recip : K → K
  /-- The call `G.colPivHouseholderQr ().solve (B)` of Eigen. -/
  solve : (m : Nat) → SystemMatrix K m → SystemVector K m → SystemVector K m

/-- The exact-arithmetic primitives over a field, for given `cos` and `sin`: inverses by
the adjugate formula, the solve by the inverse. -/
def exactNumerics {K : Type} [Field K] (cos sin : K → K) : Numerics K where
  cos := cos
  sin := sin
  inverse := fun A => A.det⁻¹ • A.adjugate
  recip := fun x => x⁻¹
  solve := fun _ G B => (G.det⁻¹ • G.adjugate).mulVec B

/-- The primitives agree with exact field arithmetic wherever that is defined: `inverse`
on invertible matrices, `recip` on nonzero scalars, `solve` on invertible systems. -/
structure Numerics.Exact {K : Type} [Field K] (N : Numerics K) : Prop where
  inverse_eq : ∀ A : Matrix6f K, IsUnit A.det → N.inverse A = A⁻¹
  recip_eq : ∀ x : K, x ≠ 0 → N.recip x = x⁻¹
  solve_eq : ∀ (m : Nat) (G : SystemMatrix K m) (B : SystemVector K m),
    IsUnit G.det → N.solve m G B = G⁻¹.mulVec B

variable {K : Type} [Field K]

/-- Element write `M (i, j) = v` on a 6×6 matrix. -/
def setCoeff (M : Matrix6f K) (i j : Fin 6) (v : K) : Matrix6f K :=
  fun r c => if r = i ∧ c = j then v else M r c

/-- Element write `V (i) = v` on a 6-vector. -/
def setElem (V : Vector6f K) (i : Fin 6) (v : K) : Vector6f K :=
  fun r => if r = i then v else V r

/-! ## PoseMath: `poseToTransform`, `linearizedCompound`, `incidenceCorrection` -/

/-- The function `LUM::poseToTransform` (lum.hpp 378-401). -/
def poseToTransform (N : Numerics K) (pose : Vector6f K) : Affine3f K :=
  let A := N.cos (pose 5)
  let B := N.sin (pose 5)
  let C := N.cos (pose 4)
  let D := N.sin (pose 4)
  let E := N.cos (pose 3)
  let F := N.sin (pose 3)
  let DE := D * E
  let DF := D * F
  !![A * C, A * DF - B * E, B * F + A * DE, pose 0;
     B * C, A * E + B * DF, B * DE - A * F, pose 1;
     -D, C * F, C * E, pose 2;
     0, 0, 0, 1]

/-- The function `LUM::linearizedCompound` (lum.hpp 341-352). -/
def linearizedCompound (N : Numerics K) (pose : Vector6f K) (point : Vector3f K) :
    Vector3f K :=
  ![pose 0 - point 2 * N.sin (pose 4)
      + N.cos (pose 4) * (point 0 * N.cos (pose 5) - point 1 * N.sin (pose 5)),
    pose 1 + point 2 * N.cos (pose 4) * N.sin (pose 3)
      + N.cos (pose 3) * (point 1 * N.cos (pose 5) + point 0 * N.sin (pose 5))
      + N.sin (pose 3) * N.sin (pose 4)
        * (point 0 * N.cos (pose 5) - point 1 * N.sin (pose 5)),
    pose 2 - N.sin (pose 3) * (point 1 * N.cos (pose 5) + point 0 * N.sin (pose 5))
      + N.cos (pose 3) * (point 2 * N.cos (pose 4)
        + N.sin (pose 4) * (point 0 * N.cos (pose 5) - point 1 * N.sin (pose 5)))]

/-- The function `LUM::incidenceCorrection` (lum.hpp 354-375). -/
def incidenceCorrection (N : Numerics K) (pose : Vector6f K) : Matrix6f K :=
  let out : Matrix6f K := 1
  let cx := N.cos (pose 3)
  let sx := N.sin (pose 3)
  let cy := N.cos (pose 4)
  let sy := N.sin (pose 4)
  let out := setCoeff out 0 4 (pose 1 * sx - pose 2 * cx)
  let out := setCoeff out 0 5 (pose 1 * cx * cy + pose 2 * sx * cy)
  let out := setCoeff out 1 3 (pose 2)
  let out := setCoeff out 1 4 (-pose 0 * sx)
  let out := setCoeff out 1 5 (-pose 0 * cx * cy + pose 2 * sy)
  let out := setCoeff out 2 3 (-pose 1)
  let out := setCoeff out 2 4 (pose 0 * cx)
  let out := setCoeff out 2 5 (-pose 0 * sx * cy - pose 1 * sy)
  let out := setCoeff out 3 5 sy
  let out := setCoeff out 4 4 sx
  let out := setCoeff out 4 5 (cx * cy)
  let out := setCoeff out 5 4 cx
  let out := setCoeff out 5 5 (-sx * cy)
  out

/-- The first three components of the affine map `t` applied to the homogeneous point
`(v, 1)`. -/
def applyAffine (t : Affine3f K) (v : Vector3f K) : Vector3f K :=
  fun r => t r.castSucc 0 * v 0 + t r.castSucc 1 * v 1 + t r.castSucc 2 * v 2
    + t r.castSucc 3

/-! ## Point clouds -/

/-- A point `PointT`, of which the engine reads `x`, `y`, `z`. -/
structure PointT (K : Type) where
  x : K
  y : K
  z : K

/-- The `points` vector of a `pcl::PointCloud<PointT>`. -/
abbrev PointCloud (K : Type) := List (PointT K)

/-- Modelled from the spec: `pcl::transformPointCloud` lives in `pcl/common/transforms.h`,
outside this file; by §4.3 and §4.5 it maps every point `v` of the cloud, in order, to
the first three components of `t · (v, 1)`. -/
def transformPointCloud (cloud : PointCloud K) (t : Affine3f K) : PointCloud K :=
  cloud.map fun p =>
    { x := t 0 0 * p.x + t 0 1 * p.y + t 0 2 * p.z + t 0 3
      y := t 1 0 * p.x + t 1 1 * p.y + t 1 2 * p.z + t 1 3
      z := t 2 0 * p.x + t 2 1 * p.y + t 2 2 * p.z + t 2 3 }

/-- The read `cloud.points[i]`. An index past the end is undefined behaviour in the
source; the model reads the origin there. -/
def pointAt (cloud : PointCloud K) (i : Nat) : PointT K :=
  cloud.getD i { x := 0, y := 0, z := 0 }

/-- A `pcl::Correspondence`: an index into the source cloud and one into the target
cloud. -/
structure Correspondence where
  index_query : Nat
  index_match : Nat
deriving DecidableEq, Repr

/-- The type `pcl::Correspondences`. -/
abbrev Correspondences := List Correspondence

/-! ## EdgeLinearizer: the body of `computeEdge` -/

/-- The six temporaries `x, y, z, dx, dy, dz` of one correspondence (lum.hpp 266-274 and
319-327). -/
structure PairTerms (K : Type) where
  x : K
  y : K
  z : K
  dx : K
  dy : K
  dz : K

/-- The step "Get average of point pair k and difference of point pair k". -/
def pairTerms (source_cloud target_cloud : PointCloud K) (c : Correspondence) :
    PairTerms K :=
  let q := pointAt source_cloud c.index_query
  let r := pointAt target_cloud c.index_match
  { x := (q.x + r.x) / 2
    y := (q.y + r.y) / 2
    z := (q.z + r.z) / 2
    dx := q.x - r.x
    dy := q.y - r.y
    dz := q.z - r.z }

/-- One turn of the first loop of `computeEdge` (lum.hpp 276-296) on `(MM, MZ)`, with the
sums and products read exactly in the field `K`; `accumulate32` reads the `MM` part in
binary32. -/
def accumulate (acc : Matrix6f K × Vector6f K) (t : PairTerms K) :
    Matrix6f K × Vector6f K :=
  let MM := acc.1
  let MZ := acc.2
  let MM := setCoeff MM 0 4 (MM 0 4 - t.y)
  let MM := setCoeff MM 0 5 (MM 0 5 + t.z)
  let MM := setCoeff MM 1 3 (MM 1 3 - t.z)
  let MM := setCoeff MM 1 4 (MM 1 4 + t.x)
  let MM := setCoeff MM 2 3 (MM 2 3 + t.y)
  let MM := setCoeff MM 2 5 (MM 2 5 - t.x)
  let MM := setCoeff MM 3 4 (MM 3 4 - t.x * t.z)
  let MM := setCoeff MM 3 5 (MM 3 5 - t.x * t.y)
  let MM := setCoeff MM 4 5 (MM 4 5 - t.y * t.z)
  let MM := setCoeff MM 3 3 (MM 3 3 + (t.y * t.y + t.z * t.z))
  let MM := setCoeff MM 4 4 (MM 4 4 + (t.x * t.x + t.y * t.y))
  let MM := setCoeff MM 5 5 (MM 5 5 + (t.x * t.x + t.z * t.z))
  let MZ := setElem MZ 0 (MZ 0 + t.dx)
  let MZ := setElem MZ 1 (MZ 1 + t.dy)
  let MZ := setElem MZ 2 (MZ 2 + t.dz)
  let MZ := setElem MZ 3 (MZ 3 + (t.y * t.dz - t.z * t.dy))
  let MZ := setElem MZ 4 (MZ 4 + (t.x * t.dy - t.y * t.dx))
  let MZ := setElem MZ 5 (MZ 5 + (t.z * t.dx - t.x * t.dz))
  (MM, MZ)

/-- The step "Remaining elements of M'M" (lum.hpp 299-309). -/
def remaining (m : Nat) (MM : Matrix6f K) : Matrix6f K :=
  let MM := setCoeff MM 2 2 (m : K)
  let MM := setCoeff MM 1 1 (MM 2 2)
  let MM := setCoeff MM 0 0 (MM 1 1)
  let MM := setCoeff MM 4 0 (MM 0 4)
  let MM := setCoeff MM 5 0 (MM 0 5)
  let MM := setCoeff MM 3 1 (MM 1 3)
  let MM := setCoeff MM 4 1 (MM 1 4)
  let MM := setCoeff MM 3 2 (MM 2 3)
  let MM := setCoeff MM 5 2 (MM 2 5)
  let MM := setCoeff MM 4 3 (MM 3 4)
  let MM := setCoeff MM 5 3 (MM 3 5)
  let MM := setCoeff MM 5 4 (MM 4 5)
  MM

/-- The matrix `MM` of `computeEdge` after lum.hpp 259-309, from the temporaries of the
correspondences in order. -/
def edgeMM (terms : List (PairTerms K)) : Matrix6f K :=
  remaining terms.length (terms.foldl accumulate (1, 0)).1

/-- The vector `MZ` of `computeEdge` after the first loop. -/
def edgeMZ (terms : List (PairTerms K)) : Vector6f K :=
  (terms.foldl accumulate (1, 0)).2

/-- One summand of `ss` (lum.hpp 331). -/
def residual (D : Vector6f K) (t : PairTerms K) : K :=
  (t.dx - (D 0 + t.z * D 5 - t.y * D 4)) ^ 2
    + (t.dy - (D 1 + t.x * D 4 - t.z * D 3)) ^ 2
    + (t.dz - (D 2 + t.y * D 3 - t.x * D 5)) ^ 2

/-- The value of `ss` after the second loop of `computeEdge` (lum.hpp 315-332). -/
def edgeSS (D : Vector6f K) (terms : List (PairTerms K)) : K :=
  terms.foldl (fun ss t => ss + residual D t) 0

/-! ## SlamGraph -/

/-- The vertex bundle of the graph: `cloud_` and `pose_`. -/
structure VertexProperties (K : Type) where
  cloud_ : PointCloud K
  pose_ : Vector6f K

/-- A stored edge: its endpoints `source (e)`, `target (e)` and the edge bundle `corrs_`,
`cinv_`, `cinvd_`, `computed_`. -/
structure Edge (K : Type) where
  source : Nat
  target : Nat
  corrs_ : Correspondences
  cinv_ : Matrix6f K
  cinvd_ : Vector6f K
  computed_ : Bool

/-- The graph `*slam_graph_`: vertices by dense id, edges in insertion order. -/
structure SLAMGraph (K : Type) where
  vertices : List (VertexProperties K)
  edges : List (Edge K)

/-- The graph of a freshly constructed `LUM` object. -/
def SLAMGraph.empty : SLAMGraph K :=
  { vertices := [], edges := [] }

/-- The count `num_vertices (*slam_graph_)`. -/
def num_vertices (g : SLAMGraph K) : Nat :=
  g.vertices.length

/-- The read `(*slam_graph_)[v]` of a vertex bundle; the source only reads existing
vertices, the model reads an empty cloud at the zero pose elsewhere. -/
def vertexAt (vertices : List (VertexProperties K)) (v : Nat) : VertexProperties K :=
  vertices.getD v { cloud_ := [], pose_ := 0 }

/-- The lookup `edge (s, t, *slam_graph_)`: the first stored edge from `s` to `t`, if any. -/
def edge (s t : Nat) (edges : List (Edge K)) : Option (Edge K) :=
  edges.find? fun e => decide (e.source = s ∧ e.target = t)

/-- A write through the edge descriptor returned by `edge (s, t, g)`: `f` is applied to
the first stored edge from `s` to `t`. -/
def modifyEdge (s t : Nat) (f : Edge K → Edge K) : List (Edge K) → List (Edge K)
  | [] => []
  | e :: es =>
    if e.source = s ∧ e.target = t then f e :: es else e :: modifyEdge s t f es

/-- The function `LUM::addPointCloud (cloud)` (lum.hpp 57-65): the new graph and the
returned id. -/
def addPointCloud (g : SLAMGraph K) (cloud : PointCloud K) : SLAMGraph K × Nat :=
  let v := num_vertices g
  ({ g with vertices := g.vertices ++ [{ cloud_ := cloud, pose_ := 0 }] }, v)

/-- The function `LUM::addPointCloud (cloud, pose)` (lum.hpp 68-82). -/
def addPointCloudPose (g : SLAMGraph K) (cloud : PointCloud K) (pose : Vector6f K) :
    SLAMGraph K × Nat :=
  let v := num_vertices g
  if v = 0 then
    ({ g with vertices := g.vertices ++ [{ cloud_ := cloud, pose_ := 0 }] }, 0)
  else
    ({ g with vertices := g.vertices ++ [{ cloud_ := cloud, pose_ := pose }] }, v)

/-- The function `LUM::setPose` (lum.hpp 85-106). Vertex ids are unsigned, so
`vertex < 0` never holds. -/
def setPose (g : SLAMGraph K) (vertex : Nat) (pose : Vector6f K) : SLAMGraph K :=
  if vertex = 0 then g
  else if vertex ≥ num_vertices g then g
  else
    let vertices :=
      g.vertices.set vertex { cloud_ := (vertexAt g.vertices vertex).cloud_, pose_ := pose }
    let edges := g.edges.map fun e =>
      if e.source = vertex then { e with computed_ := false } else e
    let edges := edges.map fun e =>
      if e.target = vertex then { e with computed_ := false } else e
    { vertices := vertices, edges := edges }

/-- The function `LUM::getPose` (lum.hpp 109-119). -/
def getPose (g : SLAMGraph K) (vertex : Nat) : Vector6f K :=
  if vertex ≥ num_vertices g then 0 else (vertexAt g.vertices vertex).pose_

/-- The function `LUM::setCorrespondences` (lum.hpp 122-143). The bundle of an edge made
by `add_edge` is default-constructed; its `cinv_`, `cinvd_` and `computed_` are
unspecified storage, read here as zero and `false`. -/
def setCorrespondences (g : SLAMGraph K) (source_vertex target_vertex : Nat)
    (corrs : Correspondences) : SLAMGraph K :=
  if corrs.length < 3 then g
  else if source_vertex ≥ num_vertices g ∨ target_vertex ≥ num_vertices g
      ∨ source_vertex = target_vertex then g
  else
    let edges :=
      if (edge source_vertex target_vertex g.edges).isSome then g.edges
      else g.edges ++ [{ source := source_vertex, target := target_vertex, corrs_ := [],
                         cinv_ := 0, cinvd_ := 0, computed_ := false }]
    let edges := modifyEdge source_vertex target_vertex
      (fun e => { e with corrs_ := corrs, computed_ := false }) edges
    { g with edges := edges }

/-- The function `LUM::getCorrespondences` (lum.hpp 146-164); `none` is the null pointer. -/
def getCorrespondences (g : SLAMGraph K) (source_vertex target_vertex : Nat) :
    Option Correspondences :=
  if source_vertex ≥ num_vertices g ∨ target_vertex ≥ num_vertices g then none
  else (edge source_vertex target_vertex g.edges).map fun e => e.corrs_

/-! ## EdgeLinearizer on the graph -/

/-- The temporaries of all correspondences of an edge, from the two compounded clouds
(lum.hpp 250-257 and the loop heads). -/
def edgeTerms (N : Numerics K) (vertices : List (VertexProperties K)) (e : Edge K) :
    List (PairTerms K) :=
  let source_cloud := transformPointCloud (vertexAt vertices e.source).cloud_
    (poseToTransform N (vertexAt vertices e.source).pose_)
  let target_cloud := transformPointCloud (vertexAt vertices e.target).cloud_
    (poseToTransform N (vertexAt vertices e.target).pose_)
  e.corrs_.map (pairTerms source_cloud target_cloud)

/-- The step "Pose difference estimation": `D = MM.inverse () * MZ` (lum.hpp 312). -/
def edgeD (N : Numerics K) (terms : List (PairTerms K)) : Vector6f K :=
  (N.inverse (edgeMM terms)).mulVec (edgeMZ terms)

/-- The value written to `cinv_` by a linearization: `MM * (1 / ss)`. -/
def freshCinv (N : Numerics K) (terms : List (PairTerms K)) : Matrix6f K :=
  N.recip (edgeSS (edgeD N terms) terms) • edgeMM terms

/-- The value written to `cinvd_` by a linearization: `MZ * (1 / ss)`. -/
def freshCinvd (N : Numerics K) (terms : List (PairTerms K)) : Vector6f K :=
  N.recip (edgeSS (edgeD N terms) terms) • edgeMZ terms

/-- The function `LUM::computeEdge` (lum.hpp 242-338), as the new value of the edge it is given. -/
def computeEdge (N : Numerics K) (vertices : List (VertexProperties K)) (e : Edge K) :
    Edge K :=
  if e.computed_ then e
  else
    let terms := edgeTerms N vertices e
    { e with cinv_ := freshCinv N terms, cinvd_ := freshCinvd N terms, computed_ := true }

/-- The loop `for (e : edges) computeEdge (*e)` (lum.hpp 182-184). -/
def computeEdges (N : Numerics K) (g : SLAMGraph K) : SLAMGraph K :=
  { g with edges := g.edges.map (computeEdge N g.vertices) }

/-! ## GlobalSolver -/

/-- The write `G.block (6 a, 6 b, 6, 6) = M`. -/
def setBlock {m : Nat} (G : SystemMatrix K m) (a b : Fin m) (M : Matrix6f K) :
    SystemMatrix K m :=
  fun i j => if i.1 = a ∧ j.1 = b then M i.2 j.2 else G i j

/-- The update `G.block (6 a, 6 b, 6, 6) += M`. -/
def addBlock {m : Nat} (G : SystemMatrix K m) (a b : Fin m) (M : Matrix6f K) :
    SystemMatrix K m :=
  fun i j => if i.1 = a ∧ j.1 = b then G i j + M i.2 j.2 else G i j

/-- The update `B.segment (6 a, 6) += V`. -/
def addSegment {m : Nat} (B : SystemVector K m) (a : Fin m) (V : Vector6f K) :
    SystemVector K m :=
  fun i => if i.1 = a then B i + V i.2 else B i

/-- The step "Fill in elements of G and B" (lum.hpp 206-211) for `vi = a + 1`, the vertex `vj`,
the edge `e` found and `present1`. -/
def fill {m : Nat} (acc : SystemMatrix K m × SystemVector K m) (a : Fin m)
    (vj : Fin (m + 1)) (e : Edge K) (present1 : Bool) :
    SystemMatrix K m × SystemVector K m :=
  let G := acc.1
  let B := acc.2
  let G := if h : 0 < vj.val then setBlock G a ⟨vj.val - 1, by omega⟩ (-e.cinv_) else G
  let G := addBlock G a a e.cinv_
  let B := addSegment B a ((if present1 then (1 : K) else -1) • e.cinvd_)
  (G, B)

/-- The body of the inner loop (lum.hpp 195-211) for `vi = a + 1` and `vj`. -/
def visit {m : Nat} (edges : List (Edge K)) (a : Fin m)
    (acc : SystemMatrix K m × SystemVector K m) (vj : Fin (m + 1)) :
    SystemMatrix K m × SystemVector K m :=
  match edge (a.val + 1) vj.val edges with
  | some e => fill acc a vj e true
  | none =>
    match edge vj.val (a.val + 1) edges with
    | some e => fill acc a vj e false
    | none => acc

/-- The assembly of `G` and `B` (lum.hpp 186-213) for a graph of `m + 1` vertices. -/
def assemble (m : Nat) (edges : List (Edge K)) : SystemMatrix K m × SystemVector K m :=
  (List.finRange m).foldl
    (fun acc a => (List.finRange (m + 1)).foldl (visit edges a) acc) (0, 0)

/-- One turn of "Update the poses" (lum.hpp 221) for `vi = a + 1`. -/
def updatePose {m : Nat} (N : Numerics K) (X : SystemVector K m) (g : SLAMGraph K)
    (a : Fin m) : SLAMGraph K :=
  let vi := a.val + 1
  setPose g vi (getPose g vi
    - (N.inverse (incidenceCorrection N (getPose g vi))).mulVec fun r => X (a, r))

/-- The part of one pass after the linearization loop: assembly, solve and pose update
(lum.hpp 186-221), for the vertex count `n` read at the head of `compute`. -/
def solveAndUpdate (N : Numerics K) (n : Nat) (g : SLAMGraph K) : SLAMGraph K :=
  let GB := assemble (n - 1) g.edges
  let X := N.solve (n - 1) GB.1 GB.2
  (List.finRange (n - 1)).foldl (updatePose N X) g

/-- One turn of the outer loop of `compute` (lum.hpp 179-222). -/
def computePass (N : Numerics K) (n : Nat) (g : SLAMGraph K) : SLAMGraph K :=
  solveAndUpdate N n (computeEdges N g)

/-- The outer loop of `compute`, `max_iterations` turns. -/
def iteratePasses (N : Numerics K) (n : Nat) : Nat → SLAMGraph K → SLAMGraph K
  | 0, g => g
  | k + 1, g => iteratePasses N n k (computePass N n g)

/-- The function `LUM::compute` (lum.hpp 166-223) with `max_iterations_ = max_iterations`. -/
def compute (N : Numerics K) (max_iterations : Nat) (g : SLAMGraph K) : SLAMGraph K :=
  let n := num_vertices g
  if n < 2 then g else iteratePasses N n max_iterations g

/-- The function `LUM::getConcatenatedCloud` (lum.hpp 225-239). -/
def getConcatenatedCloud (N : Numerics K) (g : SLAMGraph K) : PointCloud K :=
  g.vertices.foldl
    (fun out v => out ++ transformPointCloud v.cloud_ (poseToTransform N v.pose_)) []

/-! ## Reachable states -/

/-- The graphs a client can bring about from a fresh object through the public
operations, together with the states inside `compute` between its linearization loop and
its assembly. -/
inductive Reachable (N : Numerics K) : SLAMGraph K → Prop
  | empty : Reachable N SLAMGraph.empty
  | addPointCloud {g : SLAMGraph K} (cloud : PointCloud K) :
      Reachable N g → Reachable N (addPointCloud g cloud).1
  | addPointCloudPose {g : SLAMGraph K} (cloud : PointCloud K) (pose : Vector6f K) :
      Reachable N g → Reachable N (addPointCloudPose g cloud pose).1
  | setPose {g : SLAMGraph K} (vertex : Nat) (pose : Vector6f K) :
      Reachable N g → Reachable N (setPose g vertex pose)
  | setCorrespondences {g : SLAMGraph K} (s t : Nat) (corrs : Correspondences) :
      Reachable N g → Reachable N (setCorrespondences g s t corrs)
  | compute {g : SLAMGraph K} (max_iterations : Nat) :
      Reachable N g → Reachable N (compute N max_iterations g)
  | computeEdges {g : SLAMGraph K} :
      Reachable N g → Reachable N (computeEdges N g)

/-- The graphs a client can observe: those the public operations return, starting from a
fresh object. -/
inductive ClientReachable (N : Numerics K) : SLAMGraph K → Prop
  | empty : ClientReachable N SLAMGraph.empty
  | addPointCloud {g : SLAMGraph K} (cloud : PointCloud K) :
      ClientReachable N g → ClientReachable N (addPointCloud g cloud).1
  | addPointCloudPose {g : SLAMGraph K} (cloud : PointCloud K) (pose : Vector6f K) :
      ClientReachable N g → ClientReachable N (addPointCloudPose g cloud pose).1
  | setPose {g : SLAMGraph K} (vertex : Nat) (pose : Vector6f K) :
      ClientReachable N g → ClientReachable N (setPose g vertex pose)
  | setCorrespondences {g : SLAMGraph K} (s t : Nat) (corrs : Correspondences) :
      ClientReachable N g → ClientReachable N (setCorrespondences g s t corrs)
  | compute {g : SLAMGraph K} (max_iterations : Nat) :
      ClientReachable N g → ClientReachable N (compute N max_iterations g)

/-! ## Predicates used in the statements -/

/-- The effect of `setPose (v, …)` on one stored edge, as the spec words it: an edge
leaving or entering `v` has `computed_` cleared, every other edge is untouched. -/
def invalidate (v : Nat) (e : Edge K) : Edge K :=
  if e.source = v ∨ e.target = v then { e with computed_ := false } else e

/-- A from-scratch linearization of `e`: `computeEdge` on the edge with its flag
cleared. -/
def relinearize (N : Numerics K) (vertices : List (VertexProperties K)) (e : Edge K) :
    Edge K :=
  computeEdge N vertices { e with computed_ := false }

/-- The cache of every edge flagged `computed_` is what a from-scratch linearization
gives on the current vertex data and correspondences. -/
def CacheValid (N : Numerics K) (g : SLAMGraph K) : Prop :=
  ∀ e ∈ g.edges, e.computed_ = true →
    e.cinv_ = (relinearize N g.vertices e).cinv_
      ∧ e.cinvd_ = (relinearize N g.vertices e).cinvd_

/-- The structural invariants of the edge table: endpoints exist and differ, and the
correspondence list has at least three entries. -/
def EdgesWellFormed (g : SLAMGraph K) : Prop :=
  ∀ e ∈ g.edges, e.source < num_vertices g ∧ e.target < num_vertices g
    ∧ e.source ≠ e.target ∧ 3 ≤ e.corrs_.length

/-- A correspondence with its two indices exchanged: `(q, r)` becomes `(r, q)`. -/
def swapCorrespondence (c : Correspondence) : Correspondence :=
  { index_query := c.index_match, index_match := c.index_query }

/-- The mirror of a stored edge for the pair `(i, j)`: an edge from `i` to `j` is stored
from `j` to `i` with every correspondence exchanged, the rest of its bundle copied; any
other edge is kept. -/
def mirrorEdge (i j : Nat) (e : Edge K) : Edge K :=
  if e.source = i ∧ e.target = j then
    { e with source := j, target := i, corrs_ := e.corrs_.map swapCorrespondence }
  else e

/-- The mirror graph for the pair `(i, j)`: identical except for the direction in which
the edge between `i` and `j` is stored. -/
def mirrorGraph (i j : Nat) (g : SLAMGraph K) : SLAMGraph K :=
  { g with edges := g.edges.map (mirrorEdge i j) }

/-- The temporaries of a correspondence read in the other direction: same midpoint,
negated difference. -/
def negateTerms (t : PairTerms K) : PairTerms K :=
  { t with dx := -t.dx, dy := -t.dy, dz := -t.dz }

/-- How a stored edge `e` and its counterpart `e'` in the mirror graph stay related while
`compute` runs: `e` does not run from `j` to `i`; either `e` does not run from `i` to `j`
and `e' = e`, or `e'` is `e` stored from `j` to `i` with exchanged correspondences, the
same flag and, once computed, the same `cinv_` and the negated `cinvd_`. -/
def MirrorRel (i j : Nat) (e e' : Edge K) : Prop :=
  ¬ (e.source = j ∧ e.target = i)
  ∧ ((¬ (e.source = i ∧ e.target = j) ∧ e' = e)
    ∨ (e.source = i ∧ e.target = j ∧ e'.source = j ∧ e'.target = i
      ∧ e'.corrs_ = e.corrs_.map swapCorrespondence ∧ e'.computed_ = e.computed_
      ∧ (e.computed_ = true → e'.cinv_ = e.cinv_ ∧ e'.cinvd_ = -e.cinvd_)))

/-- The increment of `MM` in one turn of the accumulation loop (lum.hpp 277-288), as a
matrix. -/
def stepMM (t : PairTerms K) : Matrix6f K :=
  fun r c =>
    match r.val, c.val with
    | 0, 4 => -t.y
    | 0, 5 => t.z
    | 1, 3 => -t.z
    | 1, 4 => t.x
    | 2, 3 => t.y
    | 2, 5 => -t.x
    | 3, 4 => -(t.x * t.z)
    | 3, 5 => -(t.x * t.y)
    | 4, 5 => -(t.y * t.z)
    | 3, 3 => t.y * t.y + t.z * t.z
    | 4, 4 => t.x * t.x + t.y * t.y
    | 5, 5 => t.x * t.x + t.z * t.z
    | _, _ => 0

/-- The increment of `MZ` in one turn of the accumulation loop (lum.hpp 291-296). -/
def stepMZ (t : PairTerms K) : Vector6f K :=
  fun r =>
    match r.val with
    | 0 => t.dx
    | 1 => t.dy
    | 2 => t.dz
    | 3 => t.y * t.dz - t.z * t.dy
    | 4 => t.x * t.dy - t.y * t.dx
    | _ => t.z * t.dx - t.x * t.dz

/-! ## Two concrete client sessions -/

/-- The three correspondences pairing identical indices `0, 1, 2`. -/
def identityCorrespondences3 : Correspondences :=
  [{ index_query := 0, index_match := 0 }, { index_query := 1, index_match := 1 },
   { index_query := 2, index_match := 2 }]

/-- A session in which every correspondence is exactly satisfied: the same three-point
cloud is added twice (both poses zero) and the edge `(0, 1)` pairs identical indices. -/
def satisfiedSession : SLAMGraph K :=
  let cloud : PointCloud K :=
    [{ x := 0, y := 0, z := 0 }, { x := 1, y := 0, z := 0 }, { x := 0, y := 1, z := 0 }]
  let g := (addPointCloud SLAMGraph.empty cloud).1
  let g := (addPointCloud g cloud).1
  setCorrespondences g 0 1 identityCorrespondences3

/-- Cloud A of the two-cloud pure translation scenario of the spec (§8). -/
def cloudA : PointCloud K :=
  [{ x := 0, y := 0, z := 0 }, { x := 1, y := 0, z := 0 }, { x := 0, y := 1, z := 0 },
   { x := 0, y := 0, z := 1 }]

/-- Cloud B of that scenario: A shifted by `(1, 0, 0)`. -/
def cloudB : PointCloud K :=
  [{ x := 1, y := 0, z := 0 }, { x := 2, y := 0, z := 0 }, { x := 1, y := 1, z := 0 },
   { x := 1, y := 0, z := 1 }]

/-- The four correspondences pairing identical indices `0, 1, 2, 3`. -/
def identityCorrespondences4 : Correspondences :=
  [{ index_query := 0, index_match := 0 }, { index_query := 1, index_match := 1 },
   { index_query := 2, index_match := 2 }, { index_query := 3, index_match := 3 }]

/-- The two-cloud pure translation scenario: A at vertex 0, B at vertex 1, both poses
zero, the single edge stored as `(0, 1)` when `forward` and as `(1, 0)` otherwise. -/
def translationSession (forward : Bool) : SLAMGraph K :=
  let g := (addPointCloud SLAMGraph.empty cloudA).1
  let g := (addPointCloud g cloudB).1
  if forward then setCorrespondences g 0 1 identityCorrespondences4
  else setCorrespondences g 1 0 identityCorrespondences4

/-- The temporaries `x, y, z, dx, dy, dz` of the four correspondences of the translation
scenario stored as `(0, 1)`: midpoints of a point of A and its shifted copy, difference
`(-1, 0, 0)`. -/
def translationTerms : List (PairTerms K) :=
  [{ x := 1 / 2, y := 0, z := 0, dx := -1, dy := 0, dz := 0 },
   { x := 3 / 2, y := 0, z := 0, dx := -1, dy := 0, dz := 0 },
   { x := 1 / 2, y := 1, z := 0, dx := -1, dy := 0, dz := 0 },
   { x := 1 / 2, y := 0, z := 1, dx := -1, dy := 0, dz := 0 }]

/-- The elementary right-handed rotation about the z axis by `yaw`, as the spec names it
(`Rz`), with the cosine and sine of the primitives `N`. -/
def rotZ (N : Numerics K) (yaw : K) : Matrix (Fin 3) (Fin 3) K :=
  !![N.cos yaw, -N.sin yaw, 0;
     N.sin yaw, N.cos yaw, 0;
     0, 0, 1]

/-- The elementary right-handed rotation about the y axis by `pitch` (`Ry`). -/
def rotY (N : Numerics K) (pitch : K) : Matrix (Fin 3) (Fin 3) K :=
  !![N.cos pitch, 0, N.sin pitch;
     0, 1, 0;
     -N.sin pitch, 0, N.cos pitch]

/-- The elementary right-handed rotation about the x axis by `roll` (`Rx`). -/
def rotX (N : Numerics K) (roll : K) : Matrix (Fin 3) (Fin 3) K :=
  !![1, 0, 0;
     0, N.cos roll, -N.sin roll;
     0, N.sin roll, N.cos roll]

/-- The image of one point under the affine map `t`: the first three components of
`t · (p, 1)`. -/
def transformPoint (t : Affine3f K) (p : PointT K) : PointT K :=
  { x := applyAffine t ![p.x, p.y, p.z] 0
    y := applyAffine t ![p.x, p.y, p.z] 1
    z := applyAffine t ![p.x, p.y, p.z] 2 }

/-- The 3×6 matrix `M_k` of the residual model of one correspondence, as the spec words
it: rows `(1, 0, 0, 0, -y, z)`, `(0, 1, 0, -z, x, 0)`, `(0, 0, 1, y, 0, -x)`. -/
def modelMatrix (t : PairTerms K) : Matrix (Fin 3) (Fin 6) K :=
  Matrix.of ![![1, 0, 0, 0, -t.y, t.z],
              ![0, 1, 0, -t.z, t.x, 0],
              ![0, 0, 1, t.y, 0, -t.x]]

/-- The normal-equation matrix the spec names: the sum over the correspondences of
`M_kᵀ · M_k`. -/
def normalMM (terms : List (PairTerms K)) : Matrix6f K :=
  (terms.map fun t => (modelMatrix t).transpose * modelMatrix t).sum

/-- The normal-equation vector the spec names: the sum over the correspondences of
`M_kᵀ · d_k` with `d_k = (dx, dy, dz)`. -/
def normalMZ (terms : List (PairTerms K)) : Vector6f K :=
  (terms.map fun t => (modelMatrix t).transpose.mulVec ![t.dx, t.dy, t.dz]).sum

/-- The diagonal matrix `diag (0, 0, 0, 1, 1, 1)`: what is left of the initial value
`Matrix6f::Identity ()` of `MM` once its three leading diagonal entries are overwritten. -/
def identityRest : Matrix6f K :=
  fun r c => if r = c ∧ 3 ≤ r.val then 1 else 0

/-- Symmetric positive definite, over an ordered field: `M (r, c) = M (c, r)` for all
`r`, `c`, and `xᵀ · M · x > 0` for every nonzero `x`. -/
def SymPosDef {F : Type} [LinearOrderedField F] (M : Matrix6f F) : Prop :=
  (∀ r c, M r c = M c r) ∧ ∀ x : Vector6f F, x ≠ 0 → 0 < Matrix.dotProduct x (M.mulVec x)

/-- The inversion `M.inverse ()` does not meet a singular matrix: the determinant of `M`
is invertible. -/
def NonSingular (M : Matrix6f K) : Prop :=
  IsUnit M.det

/-- The 6×6 permutation matrix exchanging components 4 and 5. -/
def swapLastTwo : Matrix6f K :=
  fun r c => if (r.val = 4 ∧ c.val = 5) ∨ (r.val = 5 ∧ c.val = 4) ∨ (r = c ∧ r.val < 4)
    then 1 else 0

/-- The information matrix that relates vertex `s` to vertex `t` in the assembly: `cinv_`
of the edge `(s, t)` if present, else of the edge `(t, s)` if present, else zero
(lum.hpp 195-204). -/
def relatedCinv (edges : List (Edge K)) (s t : Nat) : Matrix6f K :=
  match edge s t edges with
  | some e => e.cinv_
  | none =>
    match edge t s edges with
    | some e => e.cinv_
    | none => 0

/-- The signed information vector that vertex `t` contributes to the row of vertex `s`:
`+cinvd_` of the edge `(s, t)` if present, else `-cinvd_` of the edge `(t, s)` if
present, else zero (lum.hpp 195-204 and 211). -/
def signedCinvd (edges : List (Edge K)) (s t : Nat) : Vector6f K :=
  match edge s t edges with
  | some e => e.cinvd_
  | none =>
    match edge t s edges with
    | some e => -e.cinvd_
    | none => 0

/-- The right-hand side segment of a vertex `i` as the specification words it: the sum
of `cinvd_` over all stored out-edges `(i, j)` minus the sum of `cinvd_` over all stored
in-edges `(j, i)`. -/
def specSignedSum (edges : List (Edge K)) (i : Nat) : Vector6f K :=
  ((edges.filter fun e => decide (e.source = i)).map fun e => e.cinvd_).sum
    - ((edges.filter fun e => decide (e.target = i)).map fun e => e.cinvd_).sum

/-- A three-point cloud with one point off the origin on the positive x axis. -/
def cloudP : PointCloud K :=
  [{ x := 1, y := 0, z := 0 }, { x := 0, y := 0, z := 0 }, { x := 0, y := 0, z := 0 }]

/-- The cloud `cloudP` with its first point reflected to the negative x axis. -/
def cloudR : PointCloud K :=
  [{ x := -1, y := 0, z := 0 }, { x := 0, y := 0, z := 0 }, { x := 0, y := 0, z := 0 }]

/-- A session with a residual that no rigid motion removes: `cloudP` at vertex 0,
`cloudR` at vertex 1, both poses zero, the edge `(0, 1)` pairing identical indices. -/
def offsetSession : SLAMGraph K :=
  let g := (addPointCloud SLAMGraph.empty cloudP).1
  let g := (addPointCloud g cloudR).1
  setCorrespondences g 0 1 identityCorrespondences3

/-- The session `offsetSession` with the reverse edge `(1, 0)` stored as well, pairing
the same indices. -/
def opposedSession : SLAMGraph K :=
  setCorrespondences offsetSession 1 0 identityCorrespondences3

/-- The temporaries `x, y, z, dx, dy, dz` of the three correspondences of the edge
`(0, 1)` of `offsetSession`: all midpoints at the origin, one difference `(2, 0, 0)`. -/
def offsetTerms : List (PairTerms K) :=
  [{ x := 0, y := 0, z := 0, dx := 2, dy := 0, dz := 0 },
   { x := 0, y := 0, z := 0, dx := 0, dy := 0, dz := 0 },
   { x := 0, y := 0, z := 0, dx := 0, dy := 0, dz := 0 }]

/-- The solution `X` of the system `G X = B` assembled from an edge table for `m`
non-reference vertices (lum.hpp 186-216). -/
def solveSystem (N : Numerics K) (m : Nat) (edges : List (Edge K)) : SystemVector K m :=
  N.solve m (assemble m edges).1 (assemble m edges).2

/-- The pose written back for a vertex with pose `pose` and solution segment `X`:
`pose - incidenceCorrection (pose).inverse () * X` (lum.hpp 219-220). -/
def correctedPose (N : Numerics K) (pose X : Vector6f K) : Vector6f K :=
  pose - (N.inverse (incidenceCorrection N pose)).mulVec X

/-! ## The accumulation of `MM` in binary32

The scalars of the source are `float`. On integer-valued operands the exact result of
`+`, `-` and `*` is an integer, and the binary32 result is that integer rounded to 24
significant bits, ties to even (values below `2 ^ 128` in magnitude). -/

/-- The number of low bits a natural number `a` loses when it is written with 24
significant bits: the least `e` with `a / 2 ^ e < 2 ^ 24`. The first argument bounds the
number of halvings; `a` itself always suffices. -/
def excessBits : Nat → Nat → Nat
  | 0, _ => 0
  | fuel + 1, a => if a < 2 ^ 24 then 0 else excessBits fuel (a / 2) + 1

/-- The binary32 value nearest to the natural number `a`, ties to even. -/
def roundBinary32Nat (a : Nat) : Nat :=
  let e := excessBits a a
  let q := a / 2 ^ e
  let r := a % 2 ^ e
  if 2 * r < 2 ^ e then q * 2 ^ e
  else if 2 ^ e < 2 * r then (q + 1) * 2 ^ e
  else if q % 2 = 0 then q * 2 ^ e
  else (q + 1) * 2 ^ e

/-- The binary32 value nearest to the integer `n`, ties to even. -/
def roundBinary32 (n : Int) : Int :=
  if 0 ≤ n then (roundBinary32Nat n.natAbs : Int) else -(roundBinary32Nat n.natAbs : Int)

/-- Element write `M (i, j) = v` on a 6×6 matrix of integer-valued floats. -/
def setCoeff32 (M : Matrix (Fin 6) (Fin 6) Int) (i j : Fin 6) (v : Int) :
    Matrix (Fin 6) (Fin 6) Int :=
  fun r c => if r = i ∧ c = j then v else M r c

/-- The `MM` part of one turn of the first loop of `computeEdge` (lum.hpp 276-288) in
binary32, for integer-valued temporaries: every product, sum and difference is rounded. -/
def accumulate32 (MM : Matrix (Fin 6) (Fin 6) Int) (t : PairTerms Int) :
    Matrix (Fin 6) (Fin 6) Int :=
  let MM := setCoeff32 MM 0 4 (roundBinary32 (MM 0 4 - t.y))
  let MM := setCoeff32 MM 0 5 (roundBinary32 (MM 0 5 + t.z))
  let MM := setCoeff32 MM 1 3 (roundBinary32 (MM 1 3 - t.z))
  let MM := setCoeff32 MM 1 4 (roundBinary32 (MM 1 4 + t.x))
  let MM := setCoeff32 MM 2 3 (roundBinary32 (MM 2 3 + t.y))
  let MM := setCoeff32 MM 2 5 (roundBinary32 (MM 2 5 - t.x))
  let MM := setCoeff32 MM 3 4 (roundBinary32 (MM 3 4 - roundBinary32 (t.x * t.z)))
  let MM := setCoeff32 MM 3 5 (roundBinary32 (MM 3 5 - roundBinary32 (t.x * t.y)))
  let MM := setCoeff32 MM 4 5 (roundBinary32 (MM 4 5 - roundBinary32 (t.y * t.z)))
  let MM := setCoeff32 MM 3 3 (roundBinary32 (MM 3 3
    + roundBinary32 (roundBinary32 (t.y * t.y) + roundBinary32 (t.z * t.z))))
  let MM := setCoeff32 MM 4 4 (roundBinary32 (MM 4 4
    + roundBinary32 (roundBinary32 (t.x * t.x) + roundBinary32 (t.y * t.y))))
  let MM := setCoeff32 MM 5 5 (roundBinary32 (MM 5 5
    + roundBinary32 (roundBinary32 (t.x * t.x) + roundBinary32 (t.z * t.z))))
  MM

/-- The step "Remaining elements of M'M" (lum.hpp 299-309) in binary32: the count `m` is
converted to `float`, the rest are copies. -/
def remaining32 (m : Nat) (MM : Matrix (Fin 6) (Fin 6) Int) : Matrix (Fin 6) (Fin 6) Int :=
  let MM := setCoeff32 MM 2 2 (roundBinary32 (m : Int))
  let MM := setCoeff32 MM 1 1 (MM 2 2)
  let MM := setCoeff32 MM 0 0 (MM 1 1)
  let MM := setCoeff32 MM 4 0 (MM 0 4)
  let MM := setCoeff32 MM 5 0 (MM 0 5)
  let MM := setCoeff32 MM 3 1 (MM 1 3)
  let MM := setCoeff32 MM 4 1 (MM 1 4)
  let MM := setCoeff32 MM 3 2 (MM 2 3)
  let MM := setCoeff32 MM 5 2 (MM 2 5)
  let MM := setCoeff32 MM 4 3 (MM 3 4)
  let MM := setCoeff32 MM 5 3 (MM 3 5)
  let MM := setCoeff32 MM 5 4 (MM 4 5)
  MM

/-- The matrix `MM` of `computeEdge` after lum.hpp 259-309 in binary32, from
integer-valued temporaries in order, starting at `Matrix6f::Identity ()`. -/
def edgeMM32 (terms : List (PairTerms Int)) : Matrix (Fin 6) (Fin 6) Int :=
  remaining32 terms.length (terms.foldl accumulate32 1)

/-- The temporaries of three correspondences whose midpoints all coincide at
`(0, 4096, 4096)` and whose differences are zero: both clouds hold that point three
times, both poses are zero. -/
def coincidentTerms : List (PairTerms Int) :=
  [{ x := 0, y := 4096, z := 4096, dx := 0, dy := 0, dz := 0 },
   { x := 0, y := 4096, z := 4096, dx := 0, dy := 0, dz := 0 },
   { x := 0, y := 4096, z := 4096, dx := 0, dy := 0, dz := 0 }]

theorem vector6_apply_three {α : Type} (a b c d e f : α) :
    (![a, b, c, d, e, f] : Fin 6 → α) 3 = d := rfl

theorem vector6_apply_four {α : Type} (a b c d e f : α) :
    (![a, b, c, d, e, f] : Fin 6 → α) 4 = e := rfl

theorem vector6_apply_five {α : Type} (a b c d e f : α) :
    (![a, b, c, d, e, f] : Fin 6 → α) 5 = f := rfl

/-- The entries of `MM` that one turn of the accumulation loop writes. -/
theorem accumulate_fst_untouched (acc : Matrix6f K × Vector6f K) (t : PairTerms K)
    (r c : Fin 6)
    (h : (r, c) ∉ [((0 : Fin 6), (4 : Fin 6)), (0, 5), (1, 3), (1, 4), (2, 3), (2, 5),
      (3, 4), (3, 5), (4, 5), (3, 3), (4, 4), (5, 5)]) :
    (accumulate acc t).1 r c = acc.1 r c := by
  revert h
  fin_cases r <;> fin_cases c <;> simp [accumulate, setCoeff]

theorem foldl_accumulate_fst_untouched (terms : List (PairTerms K))
    (acc : Matrix6f K × Vector6f K) (r c : Fin 6)
    (h : (r, c) ∉ [((0 : Fin 6), (4 : Fin 6)), (0, 5), (1, 3), (1, 4), (2, 3), (2, 5),
      (3, 4), (3, 5), (4, 5), (3, 3), (4, 4), (5, 5)]) :
    (terms.foldl accumulate acc).1 r c = acc.1 r c := by
  induction terms generalizing acc with
  | nil => rfl
  | cons t ts ih =>
    rw [List.foldl_cons, ih, accumulate_fst_untouched acc t r c h]

theorem accumulate_eq_add (acc : Matrix6f K × Vector6f K) (t : PairTerms K) :
    accumulate acc t = (acc.1 + stepMM t, acc.2 + stepMZ t) := by
  refine Prod.ext ?_ ?_
  · ext r c
    fin_cases r <;> fin_cases c <;>
      simp [accumulate, setCoeff, stepMM, sub_eq_add_neg]
  · funext r
    fin_cases r <;> simp [accumulate, setElem, stepMZ]

theorem foldl_accumulate_eq_add (terms : List (PairTerms K))
    (acc : Matrix6f K × Vector6f K) :
    terms.foldl accumulate acc
      = (acc.1 + (terms.map stepMM).sum, acc.2 + (terms.map stepMZ).sum) := by
  induction terms generalizing acc with
  | nil => simp
  | cons t ts ih =>
    rw [List.foldl_cons, ih, accumulate_eq_add]
    simp [add_assoc]

/-- The entries of `remaining m MM`: the three leading diagonal entries are `m`, the nine
mirrored entries below the diagonal are copies from above it, every other entry is
kept. -/
theorem remaining_apply (m : Nat) (MM : Matrix6f K) (r c : Fin 6) :
    remaining m MM r c =
      if r = c ∧ r.val < 3 then (m : K)
      else if (r, c) ∈ [((4 : Fin 6), (0 : Fin 6)), (5, 0), (3, 1), (4, 1), (3, 2), (5, 2),
          (4, 3), (5, 3), (5, 4)] then MM c r
      else MM r c := by
  fin_cases r <;> fin_cases c <;> simp [remaining, setCoeff]

/-- C5. Symmetry of `M`: for every edge, all vertex data (so all endpoint poses) and
every correspondence list, the matrix `MM` that `computeEdge` builds satisfies
`MM (r, c) = MM (c, r)` for all `r`, `c`, the six pairs the mirroring step does not copy
included. -/
theorem edgeMM_symmetric (N : Numerics K) (vertices : List (VertexProperties K))
    (e : Edge K) (r c : Fin 6) :
    edgeMM (edgeTerms N vertices e) r c = edgeMM (edgeTerms N vertices e) c r := by
  have key : ∀ (a b : Fin 6),
      (a, b) ∉ [((0 : Fin 6), (4 : Fin 6)), (0, 5), (1, 3), (1, 4), (2, 3), (2, 5),
        (3, 4), (3, 5), (4, 5), (3, 3), (4, 4), (5, 5)] →
      ((edgeTerms N vertices e).foldl accumulate (1, 0)).1 a b = (1 : Matrix6f K) a b :=
    fun a b h => foldl_accumulate_fst_untouched _ _ a b h
  have h01 := key 0 1 (by decide)
  have h10 := key 1 0 (by decide)
  have h02 := key 0 2 (by decide)
  have h20 := key 2 0 (by decide)
  have h12 := key 1 2 (by decide)
  have h21 := key 2 1 (by decide)
  have h03 := key 0 3 (by decide)
  have h30 := key 3 0 (by decide)
  have h15 := key 1 5 (by decide)
  have h51 := key 5 1 (by decide)
  have h24 := key 2 4 (by decide)
  have h42 := key 4 2 (by decide)
  simp only [Matrix.one_apply] at h01 h10 h02 h20 h12 h21 h03 h30 h15 h51 h24 h42
  unfold edgeMM remaining
  fin_cases r <;> fin_cases c <;>
    simp [setCoeff, h01, h10, h02, h20, h12, h21, h03, h30, h15, h51, h24, h42]

/-- C4, evaluated at pitch `π / 2` on the point `(0, 0, 1)`: `linearizedCompound` returns
`x = -1` where `poseToTransform` applied to the point gives `x = 1`, so the two
disagree. -/
theorem linearizedCompound_ne_poseToTransform :
    linearizedCompound (exactNumerics Real.cos Real.sin) ![0, 0, 0, 0, Real.pi / 2, 0]
        ![0, 0, 1] 0 = -1
      ∧ applyAffine (poseToTransform (exactNumerics Real.cos Real.sin)
          ![0, 0, 0, 0, Real.pi / 2, 0]) ![0, 0, 1] 0 = 1
      ∧ linearizedCompound (exactNumerics Real.cos Real.sin)
          ![0, 0, 0, 0, Real.pi / 2, 0] ![0, 0, 1]
        ≠ applyAffine (poseToTransform (exactNumerics Real.cos Real.sin)
          ![0, 0, 0, 0, Real.pi / 2, 0]) ![0, 0, 1] := by
  have h1 : linearizedCompound (exactNumerics Real.cos Real.sin)
      ![0, 0, 0, 0, Real.pi / 2, 0] ![0, 0, 1] 0 = -1 := by
    simp [linearizedCompound, exactNumerics, vector6_apply_three, vector6_apply_four,
      vector6_apply_five]
  have h2 : applyAffine (poseToTransform (exactNumerics Real.cos Real.sin)
      ![0, 0, 0, 0, Real.pi / 2, 0]) ![0, 0, 1] 0 = 1 := by
    simp [applyAffine, poseToTransform, exactNumerics, vector6_apply_three,
      vector6_apply_four, vector6_apply_five]
  refine ⟨h1, h2, fun h => ?_⟩
  rw [h] at h1
  rw [h1] at h2
  norm_num at h2

theorem applyAffine_apply (t : Affine3f K) (v : Vector3f K) :
    applyAffine t v 0 = t 0 0 * v 0 + t 0 1 * v 1 + t 0 2 * v 2 + t 0 3
    ∧ applyAffine t v 1 = t 1 0 * v 0 + t 1 1 * v 1 + t 1 2 * v 2 + t 1 3
    ∧ applyAffine t v 2 = t 2 0 * v 0 + t 2 1 * v 1 + t 2 2 * v 2 + t 2 3 :=
  ⟨rfl, rfl, rfl⟩

/-- With roll and pitch zero the two conventions coincide: `linearizedCompound` is then
`poseToTransform` applied to the point. -/
theorem linearizedCompound_eq_of_yaw_only (N : Numerics K) (hc : N.cos 0 = 1)
    (hs : N.sin 0 = 0) (pose : Vector6f K) (h3 : pose 3 = 0) (h4 : pose 4 = 0)
    (point : Vector3f K) :
    linearizedCompound N pose point = applyAffine (poseToTransform N pose) point := by
  obtain ⟨a0, a1, a2⟩ := applyAffine_apply (poseToTransform N pose) point
  funext r
  fin_cases r
  · rw [show ((⟨0, by decide⟩ : Fin 3)) = 0 from rfl, a0]
    simp [linearizedCompound, poseToTransform, h3, h4, hc, hs]
    ring
  · rw [show ((⟨1, by decide⟩ : Fin 3)) = 1 from rfl, a1]
    simp [linearizedCompound, poseToTransform, h3, h4, hc, hs]
    ring
  · rw [show ((⟨2, by decide⟩ : Fin 3)) = 2 from rfl, a2]
    simp [linearizedCompound, poseToTransform, h3, h4, hc, hs]
    ring

/-! ## SlamGraph: basic facts -/

theorem vertexAt_set (vs : List (VertexProperties K)) (v w : Nat)
    (x : VertexProperties K) (hw : w ≠ v) : vertexAt (vs.set v x) w = vertexAt vs w := by
  simp [vertexAt, List.getD_eq_getElem?_getD, List.getElem?_set_ne (Ne.symm hw)]

theorem vertexAt_set_self (vs : List (VertexProperties K)) (v : Nat)
    (x : VertexProperties K) (hv : v < vs.length) : vertexAt (vs.set v x) v = x := by
  simp [vertexAt, List.getD_eq_getElem?_getD, hv]

theorem vertexAt_append (vs : List (VertexProperties K)) (w : Nat)
    (x : VertexProperties K) (hw : w < vs.length) :
    vertexAt (vs ++ [x]) w = vertexAt vs w := by
  simp [vertexAt, List.getD_eq_getElem?_getD, List.getElem?_append_left hw]

theorem setPose_of_invalid (g : SLAMGraph K) (v : Nat) (p : Vector6f K)
    (h : v = 0 ∨ v ≥ num_vertices g) : setPose g v p = g := by
  unfold setPose
  rcases h with h | h
  · simp [h]
  · by_cases h0 : v = 0
    · simp [h0]
    · simp [h0, h]

theorem setPose_of_valid (g : SLAMGraph K) (v : Nat) (p : Vector6f K)
    (h0 : v ≠ 0) (hn : v < num_vertices g) :
    setPose g v p =
      { vertices :=
          g.vertices.set v { cloud_ := (vertexAt g.vertices v).cloud_, pose_ := p }
        edges := g.edges.map (invalidate v) } := by
  unfold setPose
  have hn' : ¬ v ≥ num_vertices g := by omega
  simp only [h0, hn', if_false]
  congr 1
  rw [List.map_map]
  apply List.map_congr_left
  intro e _
  simp only [Function.comp, invalidate]
  by_cases hs : e.source = v <;> by_cases ht : e.target = v <;> simp [hs, ht]

theorem num_vertices_setPose (g : SLAMGraph K) (v : Nat) (p : Vector6f K) :
    num_vertices (setPose g v p) = num_vertices g := by
  by_cases h : v = 0 ∨ v ≥ num_vertices g
  · rw [setPose_of_invalid g v p h]
  · push_neg at h
    rw [setPose_of_valid g v p h.1 h.2]
    simp [num_vertices]

theorem vertexAt_setPose (g : SLAMGraph K) (v w : Nat) (p : Vector6f K) (hw : w ≠ v) :
    vertexAt (setPose g v p).vertices w = vertexAt g.vertices w := by
  by_cases h : v = 0 ∨ v ≥ num_vertices g
  · rw [setPose_of_invalid g v p h]
  · push_neg at h
    rw [setPose_of_valid g v p h.1 h.2]
    exact vertexAt_set _ _ _ _ hw

theorem cloud_setPose (g : SLAMGraph K) (v w : Nat) (p : Vector6f K) :
    (vertexAt (setPose g v p).vertices w).cloud_ = (vertexAt g.vertices w).cloud_ := by
  by_cases hw : w = v
  · by_cases h : v = 0 ∨ v ≥ num_vertices g
    · rw [setPose_of_invalid g v p h]
    · push_neg at h
      rw [setPose_of_valid g v p h.1 h.2, hw]
      simp only
      rw [vertexAt_set_self _ _ _ h.2]
  · rw [vertexAt_setPose g v w p hw]

theorem getPose_setPose_ne (g : SLAMGraph K) (v w : Nat) (p : Vector6f K) (hw : w ≠ v) :
    getPose (setPose g v p) w = getPose g w := by
  unfold getPose
  rw [num_vertices_setPose, vertexAt_setPose g v w p hw]

theorem getPose_setPose_self (g : SLAMGraph K) (v : Nat) (p : Vector6f K)
    (h0 : v ≠ 0) (hn : v < num_vertices g) : getPose (setPose g v p) v = p := by
  unfold getPose
  rw [num_vertices_setPose]
  have hn' : ¬ v ≥ num_vertices g := by omega
  rw [if_neg hn', setPose_of_valid g v p h0 hn]
  simp only
  rw [vertexAt_set_self _ _ _ hn]

theorem edges_setPose_of_valid (g : SLAMGraph K) (v : Nat) (p : Vector6f K)
    (h0 : v ≠ 0) (hn : v < num_vertices g) :
    (setPose g v p).edges = g.edges.map (invalidate v) := by
  rw [setPose_of_valid g v p h0 hn]

theorem getPose_of_invalid (g : SLAMGraph K) (v : Nat) (h : v ≥ num_vertices g) :
    getPose g v = 0 := by
  simp [getPose, h]

theorem forall₂_map_invalidate (v : Nat) (es : List (Edge K)) :
    List.Forall₂ (fun e e' : Edge K =>
      e'.source = e.source ∧ e'.target = e.target ∧ e'.corrs_ = e.corrs_
        ∧ e'.cinv_ = e.cinv_ ∧ e'.cinvd_ = e.cinvd_
        ∧ (e.source = v ∨ e.target = v → e'.computed_ = false)
        ∧ (e.source ≠ v → e.target ≠ v → e'.computed_ = e.computed_))
      es (es.map (invalidate v)) := by
  induction es with
  | nil => exact List.Forall₂.nil
  | cons e es ih =>
    refine List.Forall₂.cons ?_ ih
    unfold invalidate
    by_cases h : e.source = v ∨ e.target = v
    · rw [if_pos h]
      refine ⟨rfl, rfl, rfl, rfl, rfl, fun _ => rfl, fun h1 h2 => ?_⟩
      rcases h with h | h
      · exact absurd h h1
      · exact absurd h h2
    · rw [if_neg h]
      exact ⟨rfl, rfl, rfl, rfl, rfl, fun h' => absurd h' h, fun _ _ => rfl⟩

/-- C8. `setPose` postcondition and frame. For `1 ≤ v < n`: `getPose (v)` then returns the
pose written; the poses of all other vertices, every cloud and the vertex count are
unchanged; the edge table keeps its length and order, and each stored edge keeps its
endpoints, correspondences, `cinv_` and `cinvd_`, has `computed_ = false` when it leaves
or enters `v`, and keeps its `computed_` flag otherwise. For `v = 0` or `v ≥ n` the whole
graph is unchanged, and `getPose (v)` for `v ≥ n` is the zero vector. -/
theorem setPose_postcondition_and_frame (g : SLAMGraph K) (v : Nat) (p : Vector6f K) :
    (1 ≤ v ∧ v < num_vertices g →
      getPose (setPose g v p) v = p
      ∧ (∀ w, w ≠ v → getPose (setPose g v p) w = getPose g w)
      ∧ num_vertices (setPose g v p) = num_vertices g
      ∧ (∀ w, (vertexAt (setPose g v p).vertices w).cloud_ = (vertexAt g.vertices w).cloud_)
      ∧ (∀ e ∈ (setPose g v p).edges, e.source = v ∨ e.target = v → e.computed_ = false)
      ∧ List.Forall₂ (fun e e' : Edge K =>
          e'.source = e.source ∧ e'.target = e.target ∧ e'.corrs_ = e.corrs_
            ∧ e'.cinv_ = e.cinv_ ∧ e'.cinvd_ = e.cinvd_
            ∧ (e.source = v ∨ e.target = v → e'.computed_ = false)
            ∧ (e.source ≠ v → e.target ≠ v → e'.computed_ = e.computed_))
          g.edges (setPose g v p).edges)
    ∧ (v = 0 ∨ v ≥ num_vertices g → setPose g v p = g)
    ∧ (v ≥ num_vertices g → getPose g v = 0) := by
  refine ⟨fun hv => ?_, setPose_of_invalid g v p, getPose_of_invalid g v⟩
  have h0 : v ≠ 0 := by omega
  refine ⟨getPose_setPose_self g v p h0 hv.2, fun w hw => getPose_setPose_ne g v w p hw,
    num_vertices_setPose g v p, fun w => cloud_setPose g v w p, ?_, ?_⟩
  · intro e he hinc
    rw [edges_setPose_of_valid g v p h0 hv.2, List.mem_map] at he
    obtain ⟨e0, _, rfl⟩ := he
    unfold invalidate at hinc ⊢
    by_cases h : e0.source = v ∨ e0.target = v
    · simp [h]
    · rw [if_neg h] at hinc
      exact absurd hinc h
  · rw [edges_setPose_of_valid g v p h0 hv.2]
    exact forall₂_map_invalidate v g.edges

/-- Witness for C8 on the translation scenario (two vertices, edge `(0, 1)`): writing the
pose of vertex 1. -/
theorem setPose_postcondition_and_frame_witness :
    getPose (setPose (translationSession true : SLAMGraph ℚ) 1 ![1, 2, 3, 0, 0, 0]) 1
      = ![1, 2, 3, 0, 0, 0] :=
  ((setPose_postcondition_and_frame (translationSession true : SLAMGraph ℚ) 1
    ![1, 2, 3, 0, 0, 0]).1 ⟨le_refl 1, Nat.lt.base 1⟩).1

/-! ## `edge`, `modifyEdge` and `setCorrespondences` -/

theorem edge_eq_some_fields {s t : Nat} {es : List (Edge K)} {e : Edge K}
    (h : edge s t es = some e) : e.source = s ∧ e.target = t ∧ e ∈ es := by
  unfold edge at h
  have h1 := List.find?_some h
  have h2 := List.mem_of_find?_eq_some h
  simp only [decide_eq_true_eq] at h1
  exact ⟨h1.1, h1.2, h2⟩

theorem edge_eq_none_iff {s t : Nat} {es : List (Edge K)} :
    edge s t es = none ↔ ∀ e ∈ es, ¬ (e.source = s ∧ e.target = t) := by
  unfold edge
  simp [List.find?_eq_none]

theorem edge_cons (s t : Nat) (e : Edge K) (es : List (Edge K)) :
    edge s t (e :: es) = if e.source = s ∧ e.target = t then some e else edge s t es := by
  unfold edge
  by_cases h : e.source = s ∧ e.target = t
  · simp [List.find?_cons, h]
  · rw [if_neg h, List.find?_cons]
    simp [h]

theorem length_modifyEdge (s t : Nat) (f : Edge K → Edge K) (es : List (Edge K)) :
    (modifyEdge s t f es).length = es.length := by
  induction es with
  | nil => rfl
  | cons e es ih =>
    unfold modifyEdge
    by_cases h : e.source = s ∧ e.target = t
    · simp [h]
    · simp [h, ih]

theorem modifyEdge_of_absent (s t : Nat) (f : Edge K → Edge K) (es : List (Edge K))
    (h : edge s t es = none) : modifyEdge s t f es = es := by
  induction es with
  | nil => rfl
  | cons e es ih =>
    rw [edge_cons] at h
    by_cases he : e.source = s ∧ e.target = t
    · rw [if_pos he] at h
      exact absurd h (by simp)
    · rw [if_neg he] at h
      unfold modifyEdge
      rw [if_neg he, ih h]

theorem modifyEdge_append_of_absent (s t : Nat) (f : Edge K → Edge K)
    (es : List (Edge K)) (x : Edge K) (h : edge s t es = none)
    (hx : x.source = s ∧ x.target = t) :
    modifyEdge s t f (es ++ [x]) = es ++ [f x] := by
  induction es with
  | nil =>
    show modifyEdge s t f [x] = [f x]
    unfold modifyEdge
    rw [if_pos hx]
  | cons e es ih =>
    rw [edge_cons] at h
    by_cases he : e.source = s ∧ e.target = t
    · rw [if_pos he] at h
      exact absurd h (by simp)
    · rw [if_neg he] at h
      show modifyEdge s t f (e :: (es ++ [x])) = e :: (es ++ [f x])
      unfold modifyEdge
      rw [if_neg he, ih h]

theorem edge_modifyEdge_self (s t : Nat) (f : Edge K → Edge K) (es : List (Edge K))
    (hf : ∀ e, (f e).source = e.source ∧ (f e).target = e.target) :
    edge s t (modifyEdge s t f es) = (edge s t es).map f := by
  induction es with
  | nil => rfl
  | cons e es ih =>
    unfold modifyEdge
    by_cases he : e.source = s ∧ e.target = t
    · have he' : (f e).source = s ∧ (f e).target = t := by
        rw [(hf e).1, (hf e).2]
        exact he
      rw [if_pos he, edge_cons, edge_cons, if_pos he, if_pos he']
      rfl
    · rw [if_neg he, edge_cons, edge_cons, if_neg he, if_neg he, ih]

theorem edge_modifyEdge_ne (s t s' t' : Nat) (f : Edge K → Edge K) (es : List (Edge K))
    (hf : ∀ e, (f e).source = e.source ∧ (f e).target = e.target)
    (hne : (s', t') ≠ (s, t)) :
    edge s' t' (modifyEdge s t f es) = edge s' t' es := by
  induction es with
  | nil => rfl
  | cons e es ih =>
    unfold modifyEdge
    by_cases he : e.source = s ∧ e.target = t
    · have h1 : ¬ (e.source = s' ∧ e.target = t') := by
        rintro ⟨h1, h2⟩
        apply hne
        rw [← h1, ← h2, he.1, he.2]
      have h2 : ¬ ((f e).source = s' ∧ (f e).target = t') := by
        rw [(hf e).1, (hf e).2]
        exact h1
      rw [if_pos he, edge_cons, edge_cons, if_neg h1, if_neg h2]
    · rw [if_neg he, edge_cons, edge_cons, ih]

theorem edge_append_ne (s t s' t' : Nat) (es : List (Edge K)) (x : Edge K)
    (hx : x.source = s ∧ x.target = t) (hne : (s', t') ≠ (s, t)) :
    edge s' t' (es ++ [x]) = edge s' t' es := by
  induction es with
  | nil =>
    show edge s' t' [x] = edge s' t' []
    rw [edge_cons, if_neg]
    rintro ⟨h1, h2⟩
    apply hne
    rw [← h1, ← h2, hx.1, hx.2]
  | cons e es ih =>
    show edge s' t' (e :: (es ++ [x])) = edge s' t' (e :: es)
    rw [edge_cons, edge_cons, ih]

theorem mem_modifyEdge {s t : Nat} {f : Edge K → Edge K} {es : List (Edge K)}
    {e' : Edge K} (h : e' ∈ modifyEdge s t f es) :
    e' ∈ es ∨ ∃ e ∈ es, e.source = s ∧ e.target = t ∧ e' = f e := by
  induction es with
  | nil => simp [modifyEdge] at h
  | cons e es ih =>
    unfold modifyEdge at h
    by_cases he : e.source = s ∧ e.target = t
    · rw [if_pos he, List.mem_cons] at h
      rcases h with h | h
      · exact Or.inr ⟨e, List.mem_cons_self _ _, he.1, he.2, h⟩
      · exact Or.inl (List.mem_cons_of_mem _ h)
    · rw [if_neg he, List.mem_cons] at h
      rcases h with h | h
      · exact Or.inl (h ▸ List.mem_cons_self _ _)
      · rcases ih h with h' | ⟨e0, h0, h1, h2, h3⟩
        · exact Or.inl (List.mem_cons_of_mem _ h')
        · exact Or.inr ⟨e0, List.mem_cons_of_mem _ h0, h1, h2, h3⟩

theorem setCorrespondences_of_invalid (g : SLAMGraph K) (s t : Nat)
    (corrs : Correspondences)
    (h : corrs.length < 3 ∨ s ≥ num_vertices g ∨ t ≥ num_vertices g ∨ s = t) :
    setCorrespondences g s t corrs = g := by
  unfold setCorrespondences
  by_cases hc : corrs.length < 3
  · rw [if_pos hc]
  · rw [if_neg hc]
    rcases h with h | h
    · exact absurd h hc
    · rw [if_pos h]

theorem setCorrespondences_of_valid (g : SLAMGraph K) (s t : Nat)
    (corrs : Correspondences) (hc : 3 ≤ corrs.length) (hs : s < num_vertices g)
    (ht : t < num_vertices g) (hst : s ≠ t) :
    setCorrespondences g s t corrs =
      { vertices := g.vertices
        edges := modifyEdge s t (fun e => { e with corrs_ := corrs, computed_ := false })
          (if (edge s t g.edges).isSome then g.edges
           else g.edges ++ [{ source := s, target := t, corrs_ := [], cinv_ := 0,
                              cinvd_ := 0, computed_ := false }]) } := by
  unfold setCorrespondences
  have hc' : ¬ corrs.length < 3 := by omega
  have h2 : ¬ (s ≥ num_vertices g ∨ t ≥ num_vertices g ∨ s = t) := by
    push_neg
    exact ⟨hs, ht, hst⟩
  rw [if_neg hc', if_neg h2]

theorem num_vertices_setCorrespondences (g : SLAMGraph K) (s t : Nat)
    (corrs : Correspondences) :
    (setCorrespondences g s t corrs).vertices = g.vertices := by
  unfold setCorrespondences
  split
  · rfl
  · split <;> rfl

theorem edge_append_self (s t : Nat) (es : List (Edge K)) (x : Edge K)
    (h : edge s t es = none) (hx : x.source = s ∧ x.target = t) :
    edge s t (es ++ [x]) = some x := by
  induction es with
  | nil =>
    show edge s t [x] = some x
    rw [edge_cons, if_pos hx]
  | cons e es ih =>
    rw [edge_cons] at h
    by_cases he : e.source = s ∧ e.target = t
    · rw [if_pos he] at h
      exact absurd h (by simp)
    · rw [if_neg he] at h
      show edge s t (e :: (es ++ [x])) = some x
      rw [edge_cons, if_neg he, ih h]

theorem edge_setCorrespondences_self (g : SLAMGraph K) (s t : Nat)
    (corrs : Correspondences) (hc : 3 ≤ corrs.length) (hs : s < num_vertices g)
    (ht : t < num_vertices g) (hst : s ≠ t) :
    ∃ e, edge s t (setCorrespondences g s t corrs).edges = some e
      ∧ e.corrs_ = corrs ∧ e.computed_ = false := by
  rw [setCorrespondences_of_valid g s t corrs hc hs ht hst]
  simp only
  rw [edge_modifyEdge_self s t (fun e => { e with corrs_ := corrs, computed_ := false }) _
    (fun e => ⟨rfl, rfl⟩)]
  cases h : edge s t g.edges with
  | some e0 =>
    simp only [Option.isSome_some, if_true, h, Option.map_some']
    exact ⟨_, rfl, rfl, rfl⟩
  | none =>
    simp only [Option.isSome_none, Bool.false_eq_true, if_false]
    rw [edge_append_self s t g.edges _ h ⟨rfl, rfl⟩]
    exact ⟨_, rfl, rfl, rfl⟩

theorem edge_setCorrespondences_ne (g : SLAMGraph K) (s t s' t' : Nat)
    (corrs : Correspondences) (hne : (s', t') ≠ (s, t)) :
    edge s' t' (setCorrespondences g s t corrs).edges = edge s' t' g.edges := by
  by_cases h : corrs.length < 3 ∨ s ≥ num_vertices g ∨ t ≥ num_vertices g ∨ s = t
  · rw [setCorrespondences_of_invalid g s t corrs h]
  · push_neg at h
    rw [setCorrespondences_of_valid g s t corrs h.1 h.2.1 h.2.2.1 h.2.2.2]
    simp only
    rw [edge_modifyEdge_ne s t s' t'
      (fun e => { e with corrs_ := corrs, computed_ := false }) _ (fun e => ⟨rfl, rfl⟩) hne]
    split
    · rfl
    · exact edge_append_ne s t s' t' g.edges _ ⟨rfl, rfl⟩ hne

theorem length_edges_setCorrespondences (g : SLAMGraph K) (s t : Nat)
    (corrs : Correspondences) (hc : 3 ≤ corrs.length) (hs : s < num_vertices g)
    (ht : t < num_vertices g) (hst : s ≠ t) :
    (setCorrespondences g s t corrs).edges.length
      = if (edge s t g.edges).isSome then g.edges.length else g.edges.length + 1 := by
  rw [setCorrespondences_of_valid g s t corrs hc hs ht hst]
  simp only
  rw [length_modifyEdge]
  split <;> simp

theorem getCorrespondences_setCorrespondences_self (g : SLAMGraph K) (s t : Nat)
    (corrs : Correspondences) (hc : 3 ≤ corrs.length) (hs : s < num_vertices g)
    (ht : t < num_vertices g) (hst : s ≠ t) :
    getCorrespondences (setCorrespondences g s t corrs) s t = some corrs := by
  obtain ⟨e, he, hcorr, _⟩ := edge_setCorrespondences_self g s t corrs hc hs ht hst
  unfold getCorrespondences num_vertices
  rw [num_vertices_setCorrespondences]
  have h2 : ¬ (s ≥ g.vertices.length ∨ t ≥ g.vertices.length) := by
    unfold num_vertices at hs ht
    omega
  rw [if_neg h2, he]
  simp [hcorr]

/-- C9. Correspondence round trip, per directed pair. After a successful
`setCorrespondences (s, t, c)`: `getCorrespondences (s, t)` returns `c`; the edge found
for `(s, t)` has `computed_ = false`; `getCorrespondences` of every other ordered pair,
the reverse pair `(t, s)` included, returns what it returned before; the edge table grows
by one entry if no edge `(s, t)` was stored and keeps its length otherwise; and a second
call for the same `(s, t)` replaces the list and adds no edge. -/
theorem setCorrespondences_round_trip (g : SLAMGraph K) (s t : Nat) (c : Correspondences)
    (hc : 3 ≤ c.length) (hs : s < num_vertices g) (ht : t < num_vertices g)
    (hst : s ≠ t) :
    getCorrespondences (setCorrespondences g s t c) s t = some c
    ∧ (edge s t (setCorrespondences g s t c).edges).map (fun e => e.computed_) = some false
    ∧ (∀ s' t', (s', t') ≠ (s, t) →
        getCorrespondences (setCorrespondences g s t c) s' t' = getCorrespondences g s' t')
    ∧ getCorrespondences (setCorrespondences g s t c) t s = getCorrespondences g t s
    ∧ (setCorrespondences g s t c).edges.length
        = (if (edge s t g.edges).isSome then g.edges.length else g.edges.length + 1)
    ∧ (∀ c2 : Correspondences, 3 ≤ c2.length →
        getCorrespondences (setCorrespondences (setCorrespondences g s t c) s t c2) s t
            = some c2
          ∧ (setCorrespondences (setCorrespondences g s t c) s t c2).edges.length
            = (setCorrespondences g s t c).edges.length) := by
  have hother : ∀ s' t', (s', t') ≠ (s, t) →
      getCorrespondences (setCorrespondences g s t c) s' t' = getCorrespondences g s' t' := by
    intro s' t' hne
    unfold getCorrespondences num_vertices
    rw [num_vertices_setCorrespondences, edge_setCorrespondences_ne g s t s' t' c hne]
  have hn : num_vertices (setCorrespondences g s t c) = num_vertices g := by
    unfold num_vertices
    rw [num_vertices_setCorrespondences]
  obtain ⟨e, he, _, hcomp⟩ := edge_setCorrespondences_self g s t c hc hs ht hst
  refine ⟨getCorrespondences_setCorrespondences_self g s t c hc hs ht hst, ?_, hother, ?_,
    length_edges_setCorrespondences g s t c hc hs ht hst, fun c2 hc2 => ⟨?_, ?_⟩⟩
  · rw [he]
    simp [hcomp]
  · apply hother
    intro h
    exact hst (congrArg Prod.fst h).symm
  · exact getCorrespondences_setCorrespondences_self _ s t c2 hc2 (hn ▸ hs) (hn ▸ ht) hst
  · rw [length_edges_setCorrespondences _ s t c2 hc2 (hn ▸ hs) (hn ▸ ht) hst, he]
    simp

/-- Witness for C9: on the two clouds of the translation scenario without edges,
setting four correspondences on `(0, 1)`. -/
theorem setCorrespondences_round_trip_witness :
    getCorrespondences (setCorrespondences
      (addPointCloud (addPointCloud (SLAMGraph.empty : SLAMGraph ℚ) cloudA).1 cloudB).1
      0 1 identityCorrespondences4) 0 1 = some identityCorrespondences4 :=
  (setCorrespondences_round_trip
    (addPointCloud (addPointCloud (SLAMGraph.empty : SLAMGraph ℚ) cloudA).1 cloudB).1
    0 1 identityCorrespondences4 (by decide) (Nat.lt.step (Nat.lt.base 0)) (Nat.lt.base 1)
    (by decide)).1

/-! ## Induction over `compute` and over the reachable states -/

theorem foldl_updatePose_induction (N : Numerics K) (P : SLAMGraph K → Prop)
    (hset : ∀ g v p, P g → P (setPose g v p)) {m : Nat} (X : SystemVector K m)
    (l : List (Fin m)) (g : SLAMGraph K) (h : P g) : P (l.foldl (updatePose N X) g) := by
  induction l generalizing g with
  | nil => exact h
  | cons a l ih =>
    rw [List.foldl_cons]
    exact ih _ (hset _ _ _ h)

theorem iteratePasses_induction (N : Numerics K) (P : SLAMGraph K → Prop)
    (hset : ∀ g v p, P g → P (setPose g v p)) (hlin : ∀ g, P g → P (computeEdges N g))
    (n k : Nat) (g : SLAMGraph K) (h : P g) : P (iteratePasses N n k g) := by
  induction k generalizing g with
  | zero => exact h
  | succ k ih =>
    unfold iteratePasses
    apply ih
    unfold computePass solveAndUpdate
    exact foldl_updatePose_induction N P hset _ _ _ (hlin g h)

theorem compute_induction (N : Numerics K) (P : SLAMGraph K → Prop)
    (hset : ∀ g v p, P g → P (setPose g v p)) (hlin : ∀ g, P g → P (computeEdges N g))
    (k : Nat) (g : SLAMGraph K) (h : P g) : P (compute N k g) := by
  unfold compute
  simp only
  split
  · exact h
  · exact iteratePasses_induction N P hset hlin _ k g h

theorem reachable_induction (N : Numerics K) (P : SLAMGraph K → Prop)
    (h0 : P SLAMGraph.empty)
    (hadd : ∀ g cloud pose, num_vertices g ≠ 0 → P g →
      P { g with vertices := g.vertices ++ [{ cloud_ := cloud, pose_ := pose }] })
    (haddzero : ∀ g cloud, P g →
      P { g with vertices := g.vertices ++ [{ cloud_ := cloud, pose_ := 0 }] })
    (hset : ∀ g v p, P g → P (setPose g v p))
    (hcorr : ∀ g s t c, P g → P (setCorrespondences g s t c))
    (hlin : ∀ g, P g → P (computeEdges N g))
    (g : SLAMGraph K) (h : Reachable N g) : P g := by
  induction h with
  | empty => exact h0
  | addPointCloud cloud _ ih => exact haddzero _ cloud ih
  | @addPointCloudPose g cloud pose _ ih =>
    unfold addPointCloudPose
    by_cases hv : num_vertices g = 0
    · simp only [hv, if_true]
      exact haddzero _ cloud ih
    · simp only [hv, if_false]
      exact hadd _ cloud pose hv ih
  | setPose v p _ ih => exact hset _ v p ih
  | setCorrespondences s t c _ ih => exact hcorr _ s t c ih
  | compute k _ ih => exact compute_induction N P hset hlin k _ ih
  | computeEdges _ ih => exact hlin _ ih

/-! ## Invariants of the reachable states -/

theorem referencePose_reachable (N : Numerics K) (g : SLAMGraph K) (h : Reachable N g) :
    (vertexAt g.vertices 0).pose_ = 0 := by
  refine reachable_induction N (fun g => (vertexAt g.vertices 0).pose_ = 0) rfl ?_ ?_ ?_ ?_
    ?_ g h
  · intro g cloud pose hv ih
    have hlen : 0 < g.vertices.length := Nat.pos_of_ne_zero hv
    show (vertexAt (g.vertices ++ [_]) 0).pose_ = 0
    rw [vertexAt_append _ _ _ hlen]
    exact ih
  · intro g cloud ih
    show (vertexAt (g.vertices ++ [_]) 0).pose_ = 0
    by_cases hlen : 0 < g.vertices.length
    · rw [vertexAt_append _ _ _ hlen]
      exact ih
    · have hnil : g.vertices = [] := List.eq_nil_of_length_eq_zero (by omega)
      rw [hnil]
      rfl
  · intro g v p ih
    by_cases hv : v = 0
    · rw [setPose_of_invalid g v p (Or.inl hv)]
      exact ih
    · rw [vertexAt_setPose g v 0 p (Ne.symm hv)]
      exact ih
  · intro g s t c ih
    show (vertexAt (setCorrespondences g s t c).vertices 0).pose_ = 0
    rw [num_vertices_setCorrespondences]
    exact ih
  · intro g ih
    exact ih

theorem getPose_zero_of_referencePose (g : SLAMGraph K)
    (h : (vertexAt g.vertices 0).pose_ = 0) : getPose g 0 = 0 := by
  unfold getPose
  split
  · rfl
  · exact h

/-- C1. Reference immobility as a reachable-state invariant: in every reachable state,
if vertex 0 exists its pose is the zero 6-vector and `getPose (0)` returns zero; in
particular `getPose (0)` is zero after `setPose (0, p)` for any `p`, after `compute ()`
for any `max_iterations`, and after `addPointCloud (cloud, p)` as the first call. -/
theorem reference_immobility (N : Numerics K) (g : SLAMGraph K) (h : Reachable N g) :
    (∀ v0, g.vertices.head? = some v0 → v0.pose_ = 0)
    ∧ getPose g 0 = 0
    ∧ (∀ p, getPose (setPose g 0 p) 0 = 0)
    ∧ (∀ max_iterations, getPose (compute N max_iterations g) 0 = 0)
    ∧ (∀ cloud p, getPose (addPointCloudPose (SLAMGraph.empty : SLAMGraph K) cloud p).1 0
        = 0) := by
  refine ⟨?_, ?_, ?_, ?_, ?_⟩
  · intro v0 hv0
    have h0 := referencePose_reachable N g h
    cases hvs : g.vertices with
    | nil => rw [hvs] at hv0; simp at hv0
    | cons a as =>
      rw [hvs] at hv0 h0
      simp only [List.head?_cons, Option.some.injEq] at hv0
      rw [← hv0]
      exact h0
  · exact getPose_zero_of_referencePose g (referencePose_reachable N g h)
  · intro p
    exact getPose_zero_of_referencePose _
      (referencePose_reachable N _ (Reachable.setPose 0 p h))
  · intro k
    exact getPose_zero_of_referencePose _
      (referencePose_reachable N _ (Reachable.compute k h))
  · intro cloud p
    exact getPose_zero_of_referencePose _
      (referencePose_reachable N _ (Reachable.addPointCloudPose cloud p Reachable.empty))

/-- Witness for C1: the state after `addPointCloud (cloud, (1, 2, 3, 0, 0, 0))` as the
first call, over the reals. -/
theorem reference_immobility_witness :
    getPose (addPointCloudPose (SLAMGraph.empty : SLAMGraph ℝ) cloudA
      ![1, 2, 3, 0, 0, 0]).1 0 = 0 :=
  (reference_immobility (exactNumerics Real.cos Real.sin) _
    (Reachable.addPointCloudPose cloudA ![1, 2, 3, 0, 0, 0] Reachable.empty)).2.1

theorem computeEdge_fields (N : Numerics K) (vs : List (VertexProperties K))
    (e : Edge K) :
    (computeEdge N vs e).source = e.source ∧ (computeEdge N vs e).target = e.target
      ∧ (computeEdge N vs e).corrs_ = e.corrs_ := by
  unfold computeEdge
  split <;> exact ⟨rfl, rfl, rfl⟩

theorem invalidate_fields (v : Nat) (e : Edge K) :
    (invalidate v e).source = e.source ∧ (invalidate v e).target = e.target
      ∧ (invalidate v e).corrs_ = e.corrs_ ∧ (invalidate v e).cinv_ = e.cinv_
      ∧ (invalidate v e).cinvd_ = e.cinvd_ := by
  unfold invalidate
  split <;> exact ⟨rfl, rfl, rfl, rfl, rfl⟩

theorem edgesWellFormed_setPose (g : SLAMGraph K) (v : Nat) (p : Vector6f K)
    (ih : EdgesWellFormed g) : EdgesWellFormed (setPose g v p) := by
  by_cases hv : v = 0 ∨ v ≥ num_vertices g
  · rw [setPose_of_invalid g v p hv]
    exact ih
  · push_neg at hv
    intro e' he'
    rw [num_vertices_setPose]
    rw [edges_setPose_of_valid g v p hv.1 hv.2, List.mem_map] at he'
    obtain ⟨e, he, rfl⟩ := he'
    obtain ⟨h1, h2, h3, _, _⟩ := invalidate_fields v e
    rw [h1, h2, h3]
    exact ih e he

theorem edgesWellFormed_setCorrespondences (g : SLAMGraph K) (s t : Nat)
    (c : Correspondences) (ih : EdgesWellFormed g) :
    EdgesWellFormed (setCorrespondences g s t c) := by
  by_cases h : c.length < 3 ∨ s ≥ num_vertices g ∨ t ≥ num_vertices g ∨ s = t
  · rw [setCorrespondences_of_invalid g s t c h]
    exact ih
  · push_neg at h
    obtain ⟨hc, hs, ht, hst⟩ := h
    intro e' he'
    have hn : num_vertices (setCorrespondences g s t c) = num_vertices g := by
      unfold num_vertices
      rw [num_vertices_setCorrespondences]
    rw [hn]
    rw [setCorrespondences_of_valid g s t c hc hs ht hst] at he'
    simp only at he'
    cases hp : edge s t g.edges with
    | some e0 =>
      rw [hp] at he'
      simp only [Option.isSome_some, if_true] at he'
      rcases mem_modifyEdge he' with h1 | ⟨e, _, h1, h2, rfl⟩
      · exact ih e' h1
      · exact ⟨h1 ▸ hs, h2 ▸ ht, by rw [h1, h2]; exact hst, hc⟩
    | none =>
      rw [hp] at he'
      simp only [Option.isSome_none, Bool.false_eq_true, if_false] at he'
      rw [modifyEdge_append_of_absent s t _ g.edges _ hp ⟨rfl, rfl⟩, List.mem_append] at he'
      rcases he' with h1 | h1
      · exact ih e' h1
      · rw [List.mem_singleton] at h1
        rw [h1]
        exact ⟨hs, ht, hst, hc⟩

theorem edgesWellFormed_computeEdges (N : Numerics K) (g : SLAMGraph K)
    (ih : EdgesWellFormed g) : EdgesWellFormed (computeEdges N g) := by
  intro e' he'
  have he'' : e' ∈ g.edges.map (computeEdge N g.vertices) := he'
  rw [List.mem_map] at he''
  obtain ⟨e, he, rfl⟩ := he''
  obtain ⟨h1, h2, h3⟩ := computeEdge_fields N g.vertices e
  rw [h1, h2, h3]
  exact ih e he

theorem edgesWellFormed_append (g : SLAMGraph K) (x : VertexProperties K)
    (ih : EdgesWellFormed g) :
    EdgesWellFormed { g with vertices := g.vertices ++ [x] } := by
  intro e he
  obtain ⟨h1, h2, h3, h4⟩ := ih e he
  refine ⟨?_, ?_, h3, h4⟩
  · show e.source < (g.vertices ++ [x]).length
    rw [List.length_append]
    exact Nat.lt_add_right _ h1
  · show e.target < (g.vertices ++ [x]).length
    rw [List.length_append]
    exact Nat.lt_add_right _ h2

theorem edgesWellFormed_reachable (N : Numerics K) (g : SLAMGraph K)
    (h : Reachable N g) : EdgesWellFormed g := by
  refine reachable_induction N EdgesWellFormed ?_ ?_ ?_ ?_ ?_ ?_ g h
  · intro e he
    simp [SLAMGraph.empty] at he
  · intro g cloud pose _ ih
    exact edgesWellFormed_append g _ ih
  · intro g cloud ih
    exact edgesWellFormed_append g _ ih
  · exact edgesWellFormed_setPose
  · exact edgesWellFormed_setCorrespondences
  · exact edgesWellFormed_computeEdges N

/-- C7. `setCorrespondences` rejection is atomic: with fewer than 3 correspondences, with
`s` or `t` not an existing vertex, or with `s = t`, the call returns the graph unchanged
(vertices, poses, edges, correspondences, caches and flags); consequently every
reachable graph has no self-loop edge and every stored correspondence list has at least
3 entries. -/
theorem setCorrespondences_rejection_atomic (N : Numerics K) (g : SLAMGraph K) :
    (∀ (s t : Nat) (corrs : Correspondences),
        corrs.length < 3 ∨ s ≥ num_vertices g ∨ t ≥ num_vertices g ∨ s = t →
        setCorrespondences g s t corrs = g)
    ∧ (Reachable N g → ∀ e ∈ g.edges, e.source ≠ e.target ∧ 3 ≤ e.corrs_.length) := by
  refine ⟨fun s t corrs h => setCorrespondences_of_invalid g s t corrs h, ?_⟩
  intro h e he
  obtain ⟨_, _, h3, h4⟩ := edgesWellFormed_reachable N g h e he
  exact ⟨h3, h4⟩

/-- Witness for C7: a self-loop request `(1, 1)` with four correspondences on the
translation scenario, a reachable graph with the edge `(0, 1)`. -/
theorem setCorrespondences_rejection_atomic_witness :
    setCorrespondences (translationSession true : SLAMGraph ℝ) 1 1 identityCorrespondences4
      = (translationSession true : SLAMGraph ℝ)
    ∧ ∀ e ∈ (translationSession true : SLAMGraph ℝ).edges,
        e.source ≠ e.target ∧ 3 ≤ e.corrs_.length :=
  ⟨(setCorrespondences_rejection_atomic (exactNumerics Real.cos Real.sin)
      (translationSession true : SLAMGraph ℝ)).1 1 1 identityCorrespondences4
      (Or.inr (Or.inr (Or.inr rfl))),
    (setCorrespondences_rejection_atomic (exactNumerics Real.cos Real.sin)
      (translationSession true : SLAMGraph ℝ)).2
      (Reachable.setCorrespondences 0 1 identityCorrespondences4
        (Reachable.addPointCloud cloudB
          (Reachable.addPointCloud cloudA Reachable.empty)))⟩

/-! ## The edge cache -/

theorem edgeTerms_congr (N : Numerics K) (vs vs' : List (VertexProperties K))
    (e e' : Edge K) (h1 : vertexAt vs e.source = vertexAt vs' e'.source)
    (h2 : vertexAt vs e.target = vertexAt vs' e'.target) (h3 : e.corrs_ = e'.corrs_) :
    edgeTerms N vs e = edgeTerms N vs' e' := by
  unfold edgeTerms
  rw [h1, h2, h3]

theorem relinearize_cache (N : Numerics K) (vs : List (VertexProperties K)) (e : Edge K) :
    (relinearize N vs e).cinv_ = freshCinv N (edgeTerms N vs e)
      ∧ (relinearize N vs e).cinvd_ = freshCinvd N (edgeTerms N vs e) :=
  ⟨rfl, rfl⟩

theorem relinearize_congr (N : Numerics K) (vs vs' : List (VertexProperties K))
    (e e' : Edge K) (h1 : vertexAt vs e.source = vertexAt vs' e'.source)
    (h2 : vertexAt vs e.target = vertexAt vs' e'.target) (h3 : e.corrs_ = e'.corrs_) :
    (relinearize N vs e).cinv_ = (relinearize N vs' e').cinv_
      ∧ (relinearize N vs e).cinvd_ = (relinearize N vs' e').cinvd_ := by
  rw [(relinearize_cache N vs e).1, (relinearize_cache N vs e).2,
    (relinearize_cache N vs' e').1, (relinearize_cache N vs' e').2,
    edgeTerms_congr N vs vs' e e' h1 h2 h3]
  exact ⟨rfl, rfl⟩

theorem cacheValid_append (N : Numerics K) (g : SLAMGraph K) (x : VertexProperties K)
    (hwf : EdgesWellFormed g) (ih : CacheValid N g) :
    CacheValid N { g with vertices := g.vertices ++ [x] } := by
  intro e he hc
  obtain ⟨h1, h2, _, _⟩ := hwf e he
  obtain ⟨k1, k2⟩ := relinearize_congr N (g.vertices ++ [x]) g.vertices e e
    (vertexAt_append _ _ _ h1) (vertexAt_append _ _ _ h2) rfl
  show e.cinv_ = (relinearize N (g.vertices ++ [x]) e).cinv_
    ∧ e.cinvd_ = (relinearize N (g.vertices ++ [x]) e).cinvd_
  rw [k1, k2]
  exact ih e he hc

theorem cacheValid_setPose (N : Numerics K) (g : SLAMGraph K) (v : Nat)
    (p : Vector6f K) (ih : CacheValid N g) : CacheValid N (setPose g v p) := by
  by_cases hv : v = 0 ∨ v ≥ num_vertices g
  · rw [setPose_of_invalid g v p hv]
    exact ih
  · push_neg at hv
    intro e' he' hc
    rw [edges_setPose_of_valid g v p hv.1 hv.2, List.mem_map] at he'
    obtain ⟨e, he, rfl⟩ := he'
    unfold invalidate at hc ⊢
    by_cases hinc : e.source = v ∨ e.target = v
    · rw [if_pos hinc] at hc
      exact absurd hc (by simp)
    · rw [if_neg hinc] at hc ⊢
      push_neg at hinc
      obtain ⟨k1, k2⟩ := relinearize_congr N (setPose g v p).vertices g.vertices e e
        (vertexAt_setPose g v _ p hinc.1) (vertexAt_setPose g v _ p hinc.2) rfl
      rw [k1, k2]
      exact ih e he hc

theorem cacheValid_setCorrespondences (N : Numerics K) (g : SLAMGraph K) (s t : Nat)
    (c : Correspondences) (ih : CacheValid N g) :
    CacheValid N (setCorrespondences g s t c) := by
  by_cases h : c.length < 3 ∨ s ≥ num_vertices g ∨ t ≥ num_vertices g ∨ s = t
  · rw [setCorrespondences_of_invalid g s t c h]
    exact ih
  · push_neg at h
    obtain ⟨hc, hs, ht, hst⟩ := h
    intro e' he' hcomp
    rw [num_vertices_setCorrespondences]
    rw [setCorrespondences_of_valid g s t c hc hs ht hst] at he'
    simp only at he'
    cases hp : edge s t g.edges with
    | some e0 =>
      rw [hp] at he'
      simp only [Option.isSome_some, if_true] at he'
      rcases mem_modifyEdge he' with h1 | ⟨e, _, _, _, rfl⟩
      · exact ih e' h1 hcomp
      · exact absurd hcomp (by simp)
    | none =>
      rw [hp] at he'
      simp only [Option.isSome_none, Bool.false_eq_true, if_false] at he'
      rw [modifyEdge_append_of_absent s t _ g.edges _ hp ⟨rfl, rfl⟩, List.mem_append] at he'
      rcases he' with h1 | h1
      · exact ih e' h1 hcomp
      · rw [List.mem_singleton] at h1
        rw [h1] at hcomp
        exact absurd hcomp (by simp)

theorem computeEdge_eq_relinearize (N : Numerics K) (vs : List (VertexProperties K))
    (e : Edge K) (h : e.computed_ = false) : computeEdge N vs e = relinearize N vs e := by
  unfold relinearize computeEdge
  simp [h]
  exact ⟨rfl, rfl⟩

theorem cacheValid_computeEdges (N : Numerics K) (g : SLAMGraph K)
    (ih : CacheValid N g) : CacheValid N (computeEdges N g) := by
  intro e' he' hcomp
  have he'' : e' ∈ g.edges.map (computeEdge N g.vertices) := he'
  rw [List.mem_map] at he''
  obtain ⟨e, he, rfl⟩ := he''
  show (computeEdge N g.vertices e).cinv_
      = (relinearize N g.vertices (computeEdge N g.vertices e)).cinv_
    ∧ (computeEdge N g.vertices e).cinvd_
      = (relinearize N g.vertices (computeEdge N g.vertices e)).cinvd_
  obtain ⟨f1, f2, f3⟩ := computeEdge_fields N g.vertices e
  obtain ⟨k1, k2⟩ := relinearize_congr N g.vertices g.vertices
    (computeEdge N g.vertices e) e (by rw [f1]) (by rw [f2]) f3
  rw [k1, k2]
  cases hc : e.computed_ with
  | true =>
    have : computeEdge N g.vertices e = e := by
      unfold computeEdge
      simp [hc]
    rw [this]
    exact ih e he hc
  | false =>
    rw [computeEdge_eq_relinearize N g.vertices e hc]
    exact ⟨rfl, rfl⟩

theorem cacheValid_reachable (N : Numerics K) (g : SLAMGraph K) (h : Reachable N g) :
    EdgesWellFormed g ∧ CacheValid N g := by
  refine reachable_induction N (fun g => EdgesWellFormed g ∧ CacheValid N g) ?_ ?_ ?_ ?_
    ?_ ?_ g h
  · constructor
    · intro e he
      simp [SLAMGraph.empty] at he
    · intro e he
      simp [SLAMGraph.empty] at he
  · intro g cloud pose _ ih
    exact ⟨edgesWellFormed_append g _ ih.1, cacheValid_append N g _ ih.1 ih.2⟩
  · intro g cloud ih
    exact ⟨edgesWellFormed_append g _ ih.1, cacheValid_append N g _ ih.1 ih.2⟩
  · intro g v p ih
    exact ⟨edgesWellFormed_setPose g v p ih.1, cacheValid_setPose N g v p ih.2⟩
  · intro g s t c ih
    exact ⟨edgesWellFormed_setCorrespondences g s t c ih.1,
      cacheValid_setCorrespondences N g s t c ih.2⟩
  · intro g ih
    exact ⟨edgesWellFormed_computeEdges N g ih.1, cacheValid_computeEdges N g ih.2⟩

/-- C6. Edge-cache validity invariant: in every reachable state (the states inside
`compute` after its linearization loop included), every edge whose `computed_` flag is
true stores the `cinv_` and `cinvd_` that a from-scratch linearization of that edge
computes from the current vertex data of its endpoints and its current correspondence
list; hence what `computeEdge` leaves in any edge is the from-scratch result. -/
theorem edge_cache_valid (N : Numerics K) (g : SLAMGraph K) (h : Reachable N g) :
    (∀ e ∈ g.edges, e.computed_ = true →
      e.cinv_ = (relinearize N g.vertices e).cinv_
        ∧ e.cinvd_ = (relinearize N g.vertices e).cinvd_)
    ∧ (∀ e ∈ g.edges,
      (computeEdge N g.vertices e).cinv_ = (relinearize N g.vertices e).cinv_
        ∧ (computeEdge N g.vertices e).cinvd_ = (relinearize N g.vertices e).cinvd_) := by
  have hv := (cacheValid_reachable N g h).2
  refine ⟨hv, fun e he => ?_⟩
  cases hc : e.computed_ with
  | true =>
    have : computeEdge N g.vertices e = e := by
      unfold computeEdge
      simp [hc]
    rw [this]
    exact hv e he hc
  | false =>
    rw [computeEdge_eq_relinearize N g.vertices e hc]
    exact ⟨rfl, rfl⟩

/-- Witness for C6: the state inside `compute` after the linearization loop on the
translation scenario; its edge `(0, 1)` is then flagged `computed_` and its cache equals
its from-scratch linearization. -/
theorem edge_cache_valid_witness :
    (computeEdge (exactNumerics Real.cos Real.sin)
        [{ cloud_ := cloudA, pose_ := 0 }, { cloud_ := cloudB, pose_ := 0 }]
        { source := 0, target := 1, corrs_ := identityCorrespondences4, cinv_ := 0,
          cinvd_ := 0, computed_ := false }).cinv_
      = (relinearize (exactNumerics Real.cos Real.sin)
          [{ cloud_ := cloudA, pose_ := 0 }, { cloud_ := cloudB, pose_ := 0 }]
          (computeEdge (exactNumerics Real.cos Real.sin)
            [{ cloud_ := cloudA, pose_ := 0 }, { cloud_ := cloudB, pose_ := 0 }]
            { source := 0, target := 1, corrs_ := identityCorrespondences4, cinv_ := 0,
              cinvd_ := 0, computed_ := false })).cinv_
    ∧ (computeEdge (exactNumerics Real.cos Real.sin)
        [{ cloud_ := cloudA, pose_ := 0 }, { cloud_ := cloudB, pose_ := 0 }]
        { source := 0, target := 1, corrs_ := identityCorrespondences4, cinv_ := 0,
          cinvd_ := 0, computed_ := false }).cinvd_
      = (relinearize (exactNumerics Real.cos Real.sin)
          [{ cloud_ := cloudA, pose_ := 0 }, { cloud_ := cloudB, pose_ := 0 }]
          (computeEdge (exactNumerics Real.cos Real.sin)
            [{ cloud_ := cloudA, pose_ := 0 }, { cloud_ := cloudB, pose_ := 0 }]
            { source := 0, target := 1, corrs_ := identityCorrespondences4, cinv_ := 0,
              cinvd_ := 0, computed_ := false })).cinvd_ :=
  (edge_cache_valid (exactNumerics Real.cos Real.sin)
    (computeEdges (exactNumerics Real.cos Real.sin) (translationSession true : SLAMGraph ℝ))
    (Reachable.computeEdges (Reachable.setCorrespondences 0 1 identityCorrespondences4
      (Reachable.addPointCloud cloudB
        (Reachable.addPointCloud cloudA Reachable.empty))))).1
    _ (List.mem_singleton.mpr rfl) rfl

/-! ## The flags after the pose update -/

theorem clientReachable_reachable (N : Numerics K) (g : SLAMGraph K)
    (h : ClientReachable N g) : Reachable N g := by
  induction h with
  | empty => exact Reachable.empty
  | addPointCloud cloud _ ih => exact Reachable.addPointCloud cloud ih
  | addPointCloudPose cloud pose _ ih => exact Reachable.addPointCloudPose cloud pose ih
  | setPose v p _ ih => exact Reachable.setPose v p ih
  | setCorrespondences s t c _ ih => exact Reachable.setCorrespondences s t c ih
  | compute k _ ih => exact Reachable.compute k ih

theorem invalidate_computed (v : Nat) (e : Edge K)
    (h : e.computed_ = false ∨ e.source = v ∨ e.target = v) :
    (invalidate v e).computed_ = false := by
  unfold invalidate
  by_cases hinc : e.source = v ∨ e.target = v
  · rw [if_pos hinc]
  · rw [if_neg hinc]
    rcases h with h | h
    · exact h
    · exact absurd h hinc

theorem num_vertices_updatePose {m : Nat} (N : Numerics K) (X : SystemVector K m)
    (g : SLAMGraph K) (a : Fin m) : num_vertices (updatePose N X g a) = num_vertices g := by
  unfold updatePose
  exact num_vertices_setPose _ _ _

theorem foldl_updatePose_flags {m : Nat} (N : Numerics K) (X : SystemVector K m)
    (l : List (Fin m)) (g : SLAMGraph K) (hn : m < num_vertices g) :
    ∀ e' ∈ (l.foldl (updatePose N X) g).edges, ∃ e ∈ g.edges,
      e'.source = e.source ∧ e'.target = e.target
      ∧ ((e.computed_ = false ∨ ∃ a ∈ l, e.source = a.val + 1 ∨ e.target = a.val + 1) →
        e'.computed_ = false) := by
  induction l generalizing g with
  | nil =>
    intro e' he'
    refine ⟨e', he', rfl, rfl, fun h => ?_⟩
    rcases h with h | ⟨a, ha, _⟩
    · exact h
    · simp at ha
  | cons a l ih =>
    intro e' he'
    rw [List.foldl_cons] at he'
    have hn' : m < num_vertices (updatePose N X g a) := by
      rw [num_vertices_updatePose]
      exact hn
    obtain ⟨e1, he1, hs, ht, hc⟩ := ih (updatePose N X g a) hn' e' he'
    have hedges : (updatePose N X g a).edges = g.edges.map (invalidate (a.val + 1)) := by
      unfold updatePose
      exact edges_setPose_of_valid g _ _ (Nat.succ_ne_zero _) (by have := a.isLt; omega)
    rw [hedges, List.mem_map] at he1
    obtain ⟨e, he, rfl⟩ := he1
    obtain ⟨f1, f2, _⟩ := invalidate_fields (a.val + 1) e
    refine ⟨e, he, by rw [hs, f1], by rw [ht, f2], fun h => hc ?_⟩
    rcases h with h | ⟨b, hb, hinc⟩
    · exact Or.inl (invalidate_computed _ e (Or.inl h))
    · rw [List.mem_cons] at hb
      rcases hb with rfl | hb
      · exact Or.inl (invalidate_computed _ e (Or.inr hinc))
      · exact Or.inr ⟨b, hb, by rw [f1, f2]; exact hinc⟩

theorem computePass_flags (N : Numerics K) (g : SLAMGraph K) (hwf : EdgesWellFormed g)
    (hn : 2 ≤ num_vertices g) :
    ∀ e ∈ (computePass N (num_vertices g) g).edges, e.computed_ = false := by
  intro e' he'
  unfold computePass solveAndUpdate at he'
  have hwf1 := edgesWellFormed_computeEdges N g hwf
  have hn1 : num_vertices (computeEdges N g) = num_vertices g := rfl
  obtain ⟨e, he, _, _, hc⟩ := foldl_updatePose_flags N _ (List.finRange (num_vertices g - 1))
    (computeEdges N g) (by rw [hn1]; omega) e' he'
  apply hc
  obtain ⟨h1, h2, h3, _⟩ := hwf1 e he
  rw [hn1] at h1 h2
  right
  by_cases hs : e.source = 0
  · have ht : e.target ≠ 0 := fun h => h3 (by rw [hs, h])
    exact ⟨⟨e.target - 1, by omega⟩, List.mem_finRange _, Or.inr (by simp; omega)⟩
  · exact ⟨⟨e.source - 1, by omega⟩, List.mem_finRange _, Or.inl (by simp; omega)⟩

theorem edgesWellFormed_computePass (N : Numerics K) (n : Nat) (g : SLAMGraph K)
    (hwf : EdgesWellFormed g) : EdgesWellFormed (computePass N n g) := by
  unfold computePass solveAndUpdate
  exact foldl_updatePose_induction N EdgesWellFormed edgesWellFormed_setPose _ _ _
    (edgesWellFormed_computeEdges N g hwf)

theorem num_vertices_computePass (N : Numerics K) (n : Nat) (g : SLAMGraph K) :
    num_vertices (computePass N n g) = num_vertices g := by
  unfold computePass solveAndUpdate
  exact foldl_updatePose_induction N (fun g' => num_vertices g' = num_vertices g)
    (fun g' v p h => (num_vertices_setPose g' v p).trans h) _ _ _ rfl

theorem iteratePasses_flags (N : Numerics K) (k : Nat) (g : SLAMGraph K)
    (hwf : EdgesWellFormed g) (hn : 2 ≤ num_vertices g) :
    ∀ e ∈ (iteratePasses N (num_vertices g) (k + 1) g).edges, e.computed_ = false := by
  induction k generalizing g with
  | zero => exact computePass_flags N g hwf hn
  | succ k ih =>
    unfold iteratePasses
    have h1 := ih (computePass N (num_vertices g) g)
      (edgesWellFormed_computePass N _ g hwf) (by rw [num_vertices_computePass]; exact hn)
    rw [num_vertices_computePass] at h1
    exact h1

/-- Every edge of a graph returned by a public operation has `computed_ = false`: the
flag is set only inside `compute`, whose pose update clears it again on every edge. -/
theorem clientReachable_flags (N : Numerics K) (g : SLAMGraph K)
    (h : ClientReachable N g) : ∀ e ∈ g.edges, e.computed_ = false := by
  induction h with
  | empty =>
    intro e he
    simp [SLAMGraph.empty] at he
  | addPointCloud cloud _ ih => exact ih
  | @addPointCloudPose g cloud pose _ ih =>
    unfold addPointCloudPose
    simp only
    by_cases hv : num_vertices g = 0
    · rw [if_pos hv]
      exact ih
    · rw [if_neg hv]
      exact ih
  | @setPose g v p _ ih =>
    by_cases hv : v = 0 ∨ v ≥ num_vertices g
    · rw [setPose_of_invalid g v p hv]
      exact ih
    · push_neg at hv
      intro e' he'
      rw [edges_setPose_of_valid g v p hv.1 hv.2, List.mem_map] at he'
      obtain ⟨e, he, rfl⟩ := he'
      exact invalidate_computed v e (Or.inl (ih e he))
  | @setCorrespondences g s t c _ ih =>
    by_cases hbad : c.length < 3 ∨ s ≥ num_vertices g ∨ t ≥ num_vertices g ∨ s = t
    · rw [setCorrespondences_of_invalid g s t c hbad]
      exact ih
    · push_neg at hbad
      obtain ⟨hc, hs, ht, hst⟩ := hbad
      intro e' he'
      rw [setCorrespondences_of_valid g s t c hc hs ht hst] at he'
      simp only at he'
      cases hp : edge s t g.edges with
      | some e0 =>
        rw [hp] at he'
        simp only [Option.isSome_some, if_true] at he'
        rcases mem_modifyEdge he' with h1 | ⟨e, _, _, _, rfl⟩
        · exact ih e' h1
        · rfl
      | none =>
        rw [hp] at he'
        simp only [Option.isSome_none, Bool.false_eq_true, if_false] at he'
        rw [modifyEdge_append_of_absent s t _ g.edges _ hp ⟨rfl, rfl⟩, List.mem_append]
          at he'
        rcases he' with h1 | h1
        · exact ih e' h1
        · rw [List.mem_singleton] at h1
          rw [h1]
  | @compute g k hg ih =>
    unfold compute
    simp only
    split
    · exact ih
    · cases k with
      | zero => exact ih
      | succ k =>
        exact iteratePasses_flags N k g
          (edgesWellFormed_reachable N g (clientReachable_reachable N g hg)) (by omega)

/-! ## Forward and backward storage of an edge -/

theorem pairTerms_swap (src tgt : PointCloud K) (c : Correspondence) :
    pairTerms tgt src (swapCorrespondence c) = negateTerms (pairTerms src tgt c) := by
  simp only [pairTerms, swapCorrespondence, negateTerms, neg_sub]
  rw [add_comm (pointAt tgt c.index_match).x, add_comm (pointAt tgt c.index_match).y,
    add_comm (pointAt tgt c.index_match).z]

theorem accumulate_negateTerms (acc : Matrix6f K × Vector6f K) (t : PairTerms K) :
    accumulate (acc.1, -acc.2) (negateTerms t)
      = ((accumulate acc t).1, -(accumulate acc t).2) := by
  refine Prod.ext rfl ?_
  funext r
  fin_cases r <;> simp [accumulate, setElem, negateTerms] <;> ring

theorem foldl_accumulate_negateTerms (terms : List (PairTerms K))
    (acc : Matrix6f K × Vector6f K) :
    (terms.map negateTerms).foldl accumulate (acc.1, -acc.2)
      = ((terms.foldl accumulate acc).1, -(terms.foldl accumulate acc).2) := by
  induction terms generalizing acc with
  | nil => rfl
  | cons t ts ih =>
    rw [List.map_cons, List.foldl_cons, List.foldl_cons, accumulate_negateTerms, ih]

theorem edgeMM_negateTerms (terms : List (PairTerms K)) :
    edgeMM (terms.map negateTerms) = edgeMM terms := by
  have h := foldl_accumulate_negateTerms terms ((1 : Matrix6f K), (0 : Vector6f K))
  rw [neg_zero] at h
  unfold edgeMM
  rw [h, List.length_map]

theorem edgeMZ_negateTerms (terms : List (PairTerms K)) :
    edgeMZ (terms.map negateTerms) = -edgeMZ terms := by
  have h := foldl_accumulate_negateTerms terms ((1 : Matrix6f K), (0 : Vector6f K))
  rw [neg_zero] at h
  unfold edgeMZ
  rw [h]

theorem residual_negateTerms (D : Vector6f K) (t : PairTerms K) :
    residual (-D) (negateTerms t) = residual D t := by
  simp only [residual, negateTerms, Pi.neg_apply]
  ring

theorem edgeSS_foldl_negateTerms (D : Vector6f K) (terms : List (PairTerms K)) (ss : K) :
    (terms.map negateTerms).foldl (fun ss t => ss + residual (-D) t) ss
      = terms.foldl (fun ss t => ss + residual D t) ss := by
  induction terms generalizing ss with
  | nil => rfl
  | cons t ts ih =>
    rw [List.map_cons, List.foldl_cons, List.foldl_cons, residual_negateTerms, ih]

theorem edgeD_negateTerms (N : Numerics K) (terms : List (PairTerms K)) :
    edgeD N (terms.map negateTerms) = -edgeD N terms := by
  unfold edgeD
  rw [edgeMM_negateTerms, edgeMZ_negateTerms, Matrix.mulVec_neg]

theorem freshCinv_negateTerms (N : Numerics K) (terms : List (PairTerms K)) :
    freshCinv N (terms.map negateTerms) = freshCinv N terms := by
  unfold freshCinv edgeSS
  rw [edgeD_negateTerms, edgeSS_foldl_negateTerms, edgeMM_negateTerms]

theorem freshCinvd_negateTerms (N : Numerics K) (terms : List (PairTerms K)) :
    freshCinvd N (terms.map negateTerms) = -freshCinvd N terms := by
  unfold freshCinvd edgeSS
  rw [edgeD_negateTerms, edgeSS_foldl_negateTerms, edgeMZ_negateTerms, smul_neg]

theorem edgeTerms_mirror (N : Numerics K) (vs : List (VertexProperties K))
    (e e' : Edge K) (hs : e'.source = e.target) (ht : e'.target = e.source)
    (hc : e'.corrs_ = e.corrs_.map swapCorrespondence) :
    edgeTerms N vs e' = (edgeTerms N vs e).map negateTerms := by
  unfold edgeTerms
  simp only [hs, ht, hc, List.map_map]
  apply List.map_congr_left
  intro c _
  exact pairTerms_swap _ _ c

theorem computeEdge_computed (N : Numerics K) (vs : List (VertexProperties K))
    (e : Edge K) : (computeEdge N vs e).computed_ = true := by
  unfold computeEdge
  split
  · assumption
  · rfl

theorem computeEdge_of_computed (N : Numerics K) (vs : List (VertexProperties K))
    (e : Edge K) (h : e.computed_ = true) : computeEdge N vs e = e := by
  unfold computeEdge
  rw [if_pos h]

theorem computeEdge_mirrorRel (N : Numerics K) (vs : List (VertexProperties K))
    (i j : Nat) (e e' : Edge K) (h : MirrorRel i j e e') :
    MirrorRel i j (computeEdge N vs e) (computeEdge N vs e') := by
  obtain ⟨hno, h⟩ := h
  obtain ⟨f1, f2, f3⟩ := computeEdge_fields N vs e
  obtain ⟨f1', f2', f3'⟩ := computeEdge_fields N vs e'
  refine ⟨by rw [f1, f2]; exact hno, ?_⟩
  rcases h with ⟨hne, rfl⟩ | ⟨h1, h2, h3, h4, h5, h6, h7⟩
  · exact Or.inl ⟨by rw [f1, f2]; exact hne, rfl⟩
  · refine Or.inr ⟨by rw [f1]; exact h1, by rw [f2]; exact h2, by rw [f1']; exact h3,
      by rw [f2']; exact h4, by rw [f3', f3]; exact h5, ?_, ?_⟩
    · rw [computeEdge_computed, computeEdge_computed]
    · intro _
      cases hc : e.computed_ with
      | true =>
        rw [computeEdge_of_computed N vs e hc,
          computeEdge_of_computed N vs e' (by rw [h6]; exact hc)]
        exact h7 hc
      | false =>
        rw [computeEdge_eq_relinearize N vs e hc,
          computeEdge_eq_relinearize N vs e' (by rw [h6]; exact hc),
          (relinearize_cache N vs e).1, (relinearize_cache N vs e).2,
          (relinearize_cache N vs e').1, (relinearize_cache N vs e').2,
          edgeTerms_mirror N vs e e' (by rw [h3, h2]) (by rw [h4, h1]) h5,
          freshCinv_negateTerms, freshCinvd_negateTerms]
        exact ⟨rfl, rfl⟩

theorem invalidate_mirrorRel (v i j : Nat) (e e' : Edge K) (h : MirrorRel i j e e') :
    MirrorRel i j (invalidate v e) (invalidate v e') := by
  obtain ⟨hno, h⟩ := h
  obtain ⟨f1, f2, f3, -, -⟩ := invalidate_fields v e
  obtain ⟨f1', f2', f3', -, -⟩ := invalidate_fields v e'
  refine ⟨by rw [f1, f2]; exact hno, ?_⟩
  rcases h with ⟨hne, rfl⟩ | ⟨h1, h2, h3, h4, h5, h6, h7⟩
  · exact Or.inl ⟨by rw [f1, f2]; exact hne, rfl⟩
  · refine Or.inr ⟨by rw [f1]; exact h1, by rw [f2]; exact h2, by rw [f1']; exact h3,
      by rw [f2']; exact h4, by rw [f3', f3]; exact h5, ?_⟩
    unfold invalidate
    by_cases hinc : e.source = v ∨ e.target = v
    · have hinc' : e'.source = v ∨ e'.target = v := by
        rw [h3, h4]
        rw [h1, h2] at hinc
        exact hinc.symm
      rw [if_pos hinc, if_pos hinc']
      exact ⟨rfl, fun hf => absurd hf (by simp)⟩
    · have hinc' : ¬ (e'.source = v ∨ e'.target = v) := by
        rw [h3, h4]
        rw [h1, h2] at hinc
        exact fun hf => hinc hf.symm
      rw [if_neg hinc, if_neg hinc']
      exact ⟨h6, h7⟩

theorem forall₂_map_of_rel {R : Edge K → Edge K → Prop} (f : Edge K → Edge K)
    (hf : ∀ e e', R e e' → R (f e) (f e')) {es es' : List (Edge K)}
    (h : List.Forall₂ R es es') : List.Forall₂ R (es.map f) (es'.map f) := by
  induction h with
  | nil => exact List.Forall₂.nil
  | cons hr _ ih => exact List.Forall₂.cons (hf _ _ hr) ih

theorem edge_mirror_other (i j s t : Nat) {es es' : List (Edge K)}
    (h : List.Forall₂ (MirrorRel i j) es es') (h1 : ¬ (s = i ∧ t = j))
    (h2 : ¬ (s = j ∧ t = i)) : edge s t es' = edge s t es := by
  induction h with
  | nil => rfl
  | @cons e e' l l' hr _ ih =>
    rw [edge_cons, edge_cons, ih]
    rcases hr.2 with ⟨_, rfl⟩ | ⟨k1, k2, k3, k4, _⟩
    · rfl
    · have n1 : ¬ (e.source = s ∧ e.target = t) := by
        rintro ⟨a, b⟩
        exact h1 ⟨by rw [← a, k1], by rw [← b, k2]⟩
      have n2 : ¬ (e'.source = s ∧ e'.target = t) := by
        rintro ⟨a, b⟩
        exact h2 ⟨by rw [← a, k3], by rw [← b, k4]⟩
      rw [if_neg n1, if_neg n2]

theorem edge_mirror_reverse_none (i j : Nat) {es es' : List (Edge K)}
    (h : List.Forall₂ (MirrorRel i j) es es') : edge j i es = none := by
  induction h with
  | nil => rfl
  | @cons e e' l l' hr _ ih => rw [edge_cons, if_neg hr.1, ih]

theorem edge_mirror_forward_none (i j : Nat) {es es' : List (Edge K)}
    (h : List.Forall₂ (MirrorRel i j) es es') : edge i j es' = none := by
  induction h with
  | nil => rfl
  | @cons e e' l l' hr _ ih =>
    rw [edge_cons, ih]
    rcases hr.2 with ⟨hne, rfl⟩ | ⟨k1, k2, k3, k4, _⟩
    · rw [if_neg hne]
    · have n2 : ¬ (e'.source = i ∧ e'.target = j) := by
        rintro ⟨a, b⟩
        apply hr.1
        rw [k1, k2]
        rw [k3] at a
        exact ⟨a.symm, a⟩
      rw [if_neg n2]

theorem edge_mirror_found (i j : Nat) {es es' : List (Edge K)}
    (h : List.Forall₂ (MirrorRel i j) es es') :
    (edge i j es = none ∧ edge j i es' = none)
    ∨ ∃ e e', edge i j es = some e ∧ edge j i es' = some e'
        ∧ (e.computed_ = true → e'.cinv_ = e.cinv_ ∧ e'.cinvd_ = -e.cinvd_) := by
  induction h with
  | nil => exact Or.inl ⟨rfl, rfl⟩
  | @cons e e' l l' hr _ ih =>
    rw [edge_cons, edge_cons]
    rcases hr.2 with ⟨hne, rfl⟩ | ⟨k1, k2, k3, k4, _, _, k7⟩
    · rw [if_neg hne, if_neg hr.1]
      exact ih
    · rw [if_pos ⟨k1, k2⟩, if_pos ⟨k3, k4⟩]
      exact Or.inr ⟨e, e', rfl, rfl, k7⟩

theorem fill_mirror {m : Nat} (acc : SystemMatrix K m × SystemVector K m) (a : Fin m)
    (vj : Fin (m + 1)) (e e' : Edge K) (b : Bool) (h1 : e'.cinv_ = e.cinv_)
    (h2 : e'.cinvd_ = -e.cinvd_) : fill acc a vj e' (!b) = fill acc a vj e b := by
  unfold fill
  rw [h1, h2]
  cases b <;> simp

theorem visit_mirror {m : Nat} (i j : Nat) {es es' : List (Edge K)}
    (h : List.Forall₂ (MirrorRel i j) es es') (hall : ∀ e ∈ es, e.computed_ = true)
    (a : Fin m) (acc : SystemMatrix K m × SystemVector K m) (vj : Fin (m + 1)) :
    visit es' a acc vj = visit es a acc vj := by
  have hrev := edge_mirror_reverse_none i j h
  have hfwd := edge_mirror_forward_none i j h
  unfold visit
  by_cases c1 : a.val + 1 = i ∧ vj.val = j
  · rw [c1.1, c1.2]
    rcases edge_mirror_found i j h with ⟨k1, k2⟩ | ⟨e, e', k1, k2, k3⟩
    · simp only [hfwd, hrev, k1, k2]
    · simp only [hfwd, k1, k2]
      exact fill_mirror acc a vj e e' true (k3 (hall e (edge_eq_some_fields k1).2.2)).1
        (k3 (hall e (edge_eq_some_fields k1).2.2)).2
  · by_cases c2 : a.val + 1 = j ∧ vj.val = i
    · rw [c2.1, c2.2]
      rcases edge_mirror_found i j h with ⟨k1, k2⟩ | ⟨e, e', k1, k2, k3⟩
      · simp only [hfwd, hrev, k1, k2]
      · simp only [hrev, k1, k2]
        exact fill_mirror acc a vj e e' false (k3 (hall e (edge_eq_some_fields k1).2.2)).1
          (k3 (hall e (edge_eq_some_fields k1).2.2)).2
    · rw [edge_mirror_other i j _ _ h c1 c2,
        edge_mirror_other i j _ _ h (fun hh => c2 ⟨hh.2, hh.1⟩) (fun hh => c1 ⟨hh.2, hh.1⟩)]

theorem assemble_mirror (m i j : Nat) {es es' : List (Edge K)}
    (h : List.Forall₂ (MirrorRel i j) es es') (hall : ∀ e ∈ es, e.computed_ = true) :
    assemble m es' = assemble m es := by
  have hv : ∀ a : Fin m, (visit es' a : _ → Fin (m + 1) → _) = visit es a :=
    fun a => funext fun acc => funext fun vj => visit_mirror i j h hall a acc vj
  unfold assemble
  simp only [hv]

theorem computeEdges_mirror (N : Numerics K) (i j : Nat) (g g' : SLAMGraph K)
    (hv : g'.vertices = g.vertices)
    (he : List.Forall₂ (MirrorRel i j) g.edges g'.edges) :
    (computeEdges N g').vertices = (computeEdges N g).vertices
    ∧ List.Forall₂ (MirrorRel i j) (computeEdges N g).edges (computeEdges N g').edges
    ∧ ∀ e ∈ (computeEdges N g).edges, e.computed_ = true := by
  refine ⟨hv, ?_, ?_⟩
  · show List.Forall₂ (MirrorRel i j) (g.edges.map (computeEdge N g.vertices))
      (g'.edges.map (computeEdge N g'.vertices))
    rw [hv]
    exact forall₂_map_of_rel _ (computeEdge_mirrorRel N g.vertices i j) he
  · intro e hmem
    have hmem' : e ∈ g.edges.map (computeEdge N g.vertices) := hmem
    rw [List.mem_map] at hmem'
    obtain ⟨e0, _, rfl⟩ := hmem'
    exact computeEdge_computed N g.vertices e0

theorem setPose_mirror (i j : Nat) (g g' : SLAMGraph K) (v : Nat) (p : Vector6f K)
    (hv : g'.vertices = g.vertices)
    (he : List.Forall₂ (MirrorRel i j) g.edges g'.edges) :
    (setPose g' v p).vertices = (setPose g v p).vertices
    ∧ List.Forall₂ (MirrorRel i j) (setPose g v p).edges (setPose g' v p).edges := by
  have hn : num_vertices g' = num_vertices g := by
    unfold num_vertices
    rw [hv]
  by_cases h : v = 0 ∨ v ≥ num_vertices g
  · rw [setPose_of_invalid g v p h, setPose_of_invalid g' v p (hn ▸ h)]
    exact ⟨hv, he⟩
  · push_neg at h
    rw [setPose_of_valid g v p h.1 h.2, setPose_of_valid g' v p h.1 (hn ▸ h.2)]
    simp only
    rw [hv]
    exact ⟨rfl, forall₂_map_of_rel _ (invalidate_mirrorRel v i j) he⟩

theorem getPose_congr (g g' : SLAMGraph K) (hv : g'.vertices = g.vertices) (v : Nat) :
    getPose g' v = getPose g v := by
  unfold getPose num_vertices
  rw [hv]

theorem foldl_updatePose_mirror (N : Numerics K) (i j : Nat) {m : Nat}
    (X : SystemVector K m) (l : List (Fin m)) (g g' : SLAMGraph K)
    (hv : g'.vertices = g.vertices)
    (he : List.Forall₂ (MirrorRel i j) g.edges g'.edges) :
    (l.foldl (updatePose N X) g').vertices = (l.foldl (updatePose N X) g).vertices
    ∧ List.Forall₂ (MirrorRel i j) (l.foldl (updatePose N X) g).edges
        (l.foldl (updatePose N X) g').edges := by
  induction l generalizing g g' with
  | nil => exact ⟨hv, he⟩
  | cons a l ih =>
    rw [List.foldl_cons, List.foldl_cons]
    have hstep : (updatePose N X g' a).vertices = (updatePose N X g a).vertices
        ∧ List.Forall₂ (MirrorRel i j) (updatePose N X g a).edges
          (updatePose N X g' a).edges := by
      unfold updatePose
      simp only
      rw [getPose_congr g g' hv]
      exact setPose_mirror i j g g' _ _ hv he
    exact ih _ _ hstep.1 hstep.2

theorem computePass_mirror (N : Numerics K) (n i j : Nat) (g g' : SLAMGraph K)
    (hv : g'.vertices = g.vertices)
    (he : List.Forall₂ (MirrorRel i j) g.edges g'.edges) :
    (computePass N n g').vertices = (computePass N n g).vertices
    ∧ List.Forall₂ (MirrorRel i j) (computePass N n g).edges (computePass N n g').edges
    ∧ assemble (n - 1) (computeEdges N g').edges
        = assemble (n - 1) (computeEdges N g).edges := by
  obtain ⟨k1, k2, k3⟩ := computeEdges_mirror N i j g g' hv he
  have hGB := assemble_mirror (n - 1) i j k2 k3
  unfold computePass solveAndUpdate
  simp only
  rw [hGB]
  obtain ⟨r1, r2⟩ := foldl_updatePose_mirror N i j
    (N.solve (n - 1) (assemble (n - 1) (computeEdges N g).edges).1
      (assemble (n - 1) (computeEdges N g).edges).2)
    (List.finRange (n - 1)) _ _ k1 k2
  exact ⟨r1, r2, rfl⟩

theorem iteratePasses_mirror (N : Numerics K) (n i j k : Nat) (g g' : SLAMGraph K)
    (hv : g'.vertices = g.vertices)
    (he : List.Forall₂ (MirrorRel i j) g.edges g'.edges) :
    (iteratePasses N n k g').vertices = (iteratePasses N n k g).vertices
    ∧ List.Forall₂ (MirrorRel i j) (iteratePasses N n k g).edges
        (iteratePasses N n k g').edges := by
  induction k generalizing g g' with
  | zero => exact ⟨hv, he⟩
  | succ k ih =>
    unfold iteratePasses
    obtain ⟨k1, k2, _⟩ := computePass_mirror N n i j g g' hv he
    exact ih _ _ k1 k2

theorem mirrorGraph_rel (i j : Nat) (g : SLAMGraph K) (hno : edge j i g.edges = none)
    (huncomp : ∀ e ∈ g.edges, e.source = i → e.target = j → e.computed_ = false) :
    List.Forall₂ (MirrorRel i j) g.edges (mirrorGraph i j g).edges := by
  show List.Forall₂ (MirrorRel i j) g.edges (g.edges.map (mirrorEdge i j))
  rw [List.forall₂_map_right_iff, List.forall₂_same]
  intro e he
  refine ⟨edge_eq_none_iff.mp hno e he, ?_⟩
  unfold mirrorEdge
  by_cases hij : e.source = i ∧ e.target = j
  · rw [if_pos hij]
    refine Or.inr ⟨hij.1, hij.2, rfl, rfl, rfl, rfl, fun hc => ?_⟩
    rw [huncomp e he hij.1 hij.2] at hc
    exact absurd hc (by simp)
  · rw [if_neg hij]
    exact Or.inl ⟨hij, rfl⟩

theorem getConcatenatedCloud_congr (N : Numerics K) (g g' : SLAMGraph K)
    (hv : g'.vertices = g.vertices) :
    getConcatenatedCloud N g' = getConcatenatedCloud N g := by
  unfold getConcatenatedCloud
  rw [hv]

/-- C2. Forward/backward edge equivalence. Let `g` be a graph with no edge `(j, i)` that
the public operations return (or, more generally, any graph in which the stored edge
`(i, j)` is not flagged `computed_`), and take its mirror graph, identical except that
this edge is stored as `(j, i)` with every correspondence `(q, r)` exchanged to `(r, q)`.
Then the linearization of the mirrored edge yields the same `cinv` and the negated
`cinvd`; the `G` and `B` assembled in every pass of `compute` are equal in the two
graphs; and after `compute ()` with equal `max_iterations` all vertex data, all poses and
the concatenated cloud are equal. -/
theorem forward_backward_edge_equivalence (N : Numerics K) (g : SLAMGraph K) (i j : Nat)
    (hno : edge j i g.edges = none)
    (hflag : ClientReachable N g
      ∨ ∀ e ∈ g.edges, e.source = i → e.target = j → e.computed_ = false) :
    (∀ e ∈ g.edges, e.source = i → e.target = j →
      (mirrorEdge i j e).source = j ∧ (mirrorEdge i j e).target = i
      ∧ (relinearize N g.vertices (mirrorEdge i j e)).cinv_
          = (relinearize N g.vertices e).cinv_
      ∧ (relinearize N g.vertices (mirrorEdge i j e)).cinvd_
          = -(relinearize N g.vertices e).cinvd_)
    ∧ (∀ k, assemble (num_vertices g - 1)
          (computeEdges N (iteratePasses N (num_vertices g) k (mirrorGraph i j g))).edges
        = assemble (num_vertices g - 1)
          (computeEdges N (iteratePasses N (num_vertices g) k g)).edges)
    ∧ (∀ max_iterations,
        (compute N max_iterations (mirrorGraph i j g)).vertices
          = (compute N max_iterations g).vertices
        ∧ (∀ v, getPose (compute N max_iterations (mirrorGraph i j g)) v
          = getPose (compute N max_iterations g) v)
        ∧ getConcatenatedCloud N (compute N max_iterations (mirrorGraph i j g))
          = getConcatenatedCloud N (compute N max_iterations g)) := by
  have huncomp : ∀ e ∈ g.edges, e.source = i → e.target = j → e.computed_ = false := by
    rcases hflag with h | h
    · exact fun e he _ _ => clientReachable_flags N g h e he
    · exact h
  have hrel := mirrorGraph_rel i j g hno huncomp
  have hv : (mirrorGraph i j g).vertices = g.vertices := rfl
  refine ⟨?_, ?_, ?_⟩
  · intro e _ hs ht
    have hm : mirrorEdge i j e
        = { e with source := j, target := i, corrs_ := e.corrs_.map swapCorrespondence } := by
      unfold mirrorEdge
      rw [if_pos ⟨hs, ht⟩]
    rw [hm, (relinearize_cache N g.vertices e).1, (relinearize_cache N g.vertices e).2,
      (relinearize_cache N g.vertices _).1, (relinearize_cache N g.vertices _).2,
      edgeTerms_mirror N g.vertices e _ ht.symm hs.symm rfl, freshCinv_negateTerms,
      freshCinvd_negateTerms]
    exact ⟨rfl, rfl, rfl, rfl⟩
  · intro k
    obtain ⟨k1, k2⟩ := iteratePasses_mirror N (num_vertices g) i j k g _ hv hrel
    exact (computePass_mirror N (num_vertices g) i j _ _ k1 k2).2.2
  · intro k
    have hvert : (compute N k (mirrorGraph i j g)).vertices = (compute N k g).vertices := by
      unfold compute
      have hn : num_vertices (mirrorGraph i j g) = num_vertices g := rfl
      simp only [hn]
      split
      · rfl
      · exact (iteratePasses_mirror N (num_vertices g) i j k g _ hv hrel).1
    exact ⟨hvert, fun v => getPose_congr _ _ hvert v, getConcatenatedCloud_congr N _ _ hvert⟩

/-- Witness for C2: the translation scenario with its edge stored as `(0, 1)`, a graph
returned by the public operations, mirrored for the pair `(0, 1)`, after three passes. -/
theorem forward_backward_edge_equivalence_witness :
    getConcatenatedCloud (exactNumerics Real.cos Real.sin)
        (compute (exactNumerics Real.cos Real.sin) 3
          (mirrorGraph 0 1 (translationSession true : SLAMGraph ℝ)))
      = getConcatenatedCloud (exactNumerics Real.cos Real.sin)
        (compute (exactNumerics Real.cos Real.sin) 3
          (translationSession true : SLAMGraph ℝ)) :=
  ((forward_backward_edge_equivalence (exactNumerics Real.cos Real.sin)
    (translationSession true : SLAMGraph ℝ) 0 1 rfl
    (Or.inl (ClientReachable.setCorrespondences 0 1 identityCorrespondences4
      (ClientReachable.addPointCloud cloudB
        (ClientReachable.addPointCloud cloudA ClientReachable.empty))))).2.2 3).2.2

/-! ## Exactly satisfied correspondences: the residual variance is zero -/

theorem accumulate_snd_of_satisfied (acc : Matrix6f K × Vector6f K) (t : PairTerms K)
    (hacc : acc.2 = 0) (ht : t.dx = 0 ∧ t.dy = 0 ∧ t.dz = 0) :
    (accumulate acc t).2 = 0 := by
  funext r
  fin_cases r <;> simp [accumulate, setElem, hacc, ht.1, ht.2.1, ht.2.2]

theorem foldl_accumulate_snd_of_satisfied (terms : List (PairTerms K))
    (h : ∀ t ∈ terms, t.dx = 0 ∧ t.dy = 0 ∧ t.dz = 0) (acc : Matrix6f K × Vector6f K)
    (hacc : acc.2 = 0) : (terms.foldl accumulate acc).2 = 0 := by
  induction terms generalizing acc with
  | nil => exact hacc
  | cons t ts ih =>
    rw [List.foldl_cons]
    exact ih (fun t' ht' => h t' (List.mem_cons_of_mem _ ht')) _
      (accumulate_snd_of_satisfied acc t hacc (h t (List.mem_cons_self _ _)))

theorem foldl_residual_of_satisfied (terms : List (PairTerms K))
    (h : ∀ t ∈ terms, t.dx = 0 ∧ t.dy = 0 ∧ t.dz = 0) :
    terms.foldl (fun ss t => ss + residual 0 t) 0 = 0 := by
  induction terms with
  | nil => rfl
  | cons t ts ih =>
    rw [List.foldl_cons]
    have ht := h t (List.mem_cons_self _ _)
    have hr : (0 : K) + residual 0 t = 0 := by
      simp [residual, ht.1, ht.2.1, ht.2.2]
    rw [hr]
    exact ih (fun t' ht' => h t' (List.mem_cons_of_mem _ ht'))

theorem edgeSS_of_satisfied (N : Numerics K) (terms : List (PairTerms K))
    (h : ∀ t ∈ terms, t.dx = 0 ∧ t.dy = 0 ∧ t.dz = 0) :
    edgeMZ terms = 0 ∧ edgeD N terms = 0 ∧ edgeSS (edgeD N terms) terms = 0 := by
  have hMZ : edgeMZ terms = 0 := foldl_accumulate_snd_of_satisfied terms h _ rfl
  have hD : edgeD N terms = 0 := by
    unfold edgeD
    rw [hMZ, Matrix.mulVec_zero]
  refine ⟨hMZ, hD, ?_⟩
  rw [hD]
  exact foldl_residual_of_satisfied terms h

theorem satisfiedSession_eq :
    (satisfiedSession : SLAMGraph K)
      = { vertices :=
            [{ cloud_ := [{ x := 0, y := 0, z := 0 }, { x := 1, y := 0, z := 0 },
                          { x := 0, y := 1, z := 0 }], pose_ := 0 },
             { cloud_ := [{ x := 0, y := 0, z := 0 }, { x := 1, y := 0, z := 0 },
                          { x := 0, y := 1, z := 0 }], pose_ := 0 }]
          edges := [{ source := 0, target := 1, corrs_ := identityCorrespondences3,
                      cinv_ := 0, cinvd_ := 0, computed_ := false }] } := by
  rfl

theorem pairTerms_same_cloud (cloud : PointCloud K) (c : Correspondence)
    (h : c.index_query = c.index_match) :
    (pairTerms cloud cloud c).dx = 0 ∧ (pairTerms cloud cloud c).dy = 0
      ∧ (pairTerms cloud cloud c).dz = 0 := by
  simp [pairTerms, h]

theorem satisfiedSession_terms (N : Numerics K) (e : Edge K)
    (he : e ∈ (satisfiedSession : SLAMGraph K).edges) :
    ∀ t ∈ edgeTerms N (satisfiedSession : SLAMGraph K).vertices e,
      t.dx = 0 ∧ t.dy = 0 ∧ t.dz = 0 := by
  rw [satisfiedSession_eq] at he ⊢
  simp only [List.mem_singleton] at he
  subst he
  intro t ht
  simp only [edgeTerms, vertexAt, List.getD_cons_zero, List.getD_cons_succ, List.mem_map]
    at ht
  obtain ⟨c, hc, rfl⟩ := ht
  apply pairTerms_same_cloud
  simp only [identityCorrespondences3, List.mem_cons, List.mem_singleton,
    List.not_mem_nil, or_false] at hc
  rcases hc with rfl | rfl | rfl <;> rfl

/-- C3, evaluated on a session in which every correspondence is exactly satisfied (two
copies of one cloud at the zero pose, edge `(0, 1)` pairing identical indices): the
residual variance `ss` of the edge is exactly `0`, so the pass of `compute` stores
`cinv_ = MM * (1 / 0)` and `cinvd_ = MZ * (1 / 0)` with `MZ = 0`; the pose update is
computed from a division by zero. -/
theorem identity_fixed_point_divides_by_zero (N : Numerics K) :
    num_vertices (satisfiedSession : SLAMGraph K) = 2
    ∧ (∀ e ∈ (satisfiedSession : SLAMGraph K).edges,
        ∀ t ∈ edgeTerms N (satisfiedSession : SLAMGraph K).vertices e,
          t.dx = 0 ∧ t.dy = 0 ∧ t.dz = 0)
    ∧ (∀ e ∈ (satisfiedSession : SLAMGraph K).edges,
        edgeSS (edgeD N (edgeTerms N (satisfiedSession : SLAMGraph K).vertices e))
          (edgeTerms N (satisfiedSession : SLAMGraph K).vertices e) = 0)
    ∧ (∀ e ∈ (satisfiedSession : SLAMGraph K).edges,
        (computeEdge N (satisfiedSession : SLAMGraph K).vertices e).cinv_
          = N.recip 0 • edgeMM (edgeTerms N (satisfiedSession : SLAMGraph K).vertices e)
        ∧ (computeEdge N (satisfiedSession : SLAMGraph K).vertices e).cinvd_
          = N.recip 0 • (0 : Vector6f K)) := by
  refine ⟨rfl, satisfiedSession_terms N, ?_, ?_⟩
  · intro e he
    exact (edgeSS_of_satisfied N _ (satisfiedSession_terms N e he)).2.2
  · intro e he
    obtain ⟨h1, _, h3⟩ := edgeSS_of_satisfied N _ (satisfiedSession_terms N e he)
    have hc : e.computed_ = false := by
      rw [satisfiedSession_eq] at he
      simp only [List.mem_singleton] at he
      rw [he]
    rw [computeEdge_eq_relinearize N _ e hc, (relinearize_cache N _ e).1,
      (relinearize_cache N _ e).2]
    unfold freshCinv freshCinvd
    rw [h3, h1]
    exact ⟨rfl, rfl⟩

/-! ## The two-cloud pure translation scenario -/

theorem exactNumerics_exact (cos sin : K → K) : (exactNumerics cos sin).Exact where
  inverse_eq := by
    intro A _
    show A.det⁻¹ • A.adjugate = A⁻¹
    rw [Matrix.inv_def, Ring.inverse_eq_inv']
  recip_eq := fun _ _ => rfl
  solve_eq := by
    intro m G B _
    show (G.det⁻¹ • G.adjugate).mulVec B = G⁻¹.mulVec B
    rw [Matrix.inv_def, Ring.inverse_eq_inv']

theorem edgeD_of_solution (N : Numerics K) (hN : N.Exact) (terms : List (PairTerms K))
    (d : Vector6f K) (hunit : IsUnit (edgeMM terms).det)
    (hsol : (edgeMM terms).mulVec d = edgeMZ terms) : edgeD N terms = d := by
  unfold edgeD
  rw [hN.inverse_eq _ hunit, ← hsol, Matrix.mulVec_mulVec, Matrix.nonsing_inv_mul _ hunit,
    Matrix.one_mulVec]

theorem translationSession_forward_eq :
    (translationSession true : SLAMGraph K)
      = { vertices := [{ cloud_ := cloudA, pose_ := 0 }, { cloud_ := cloudB, pose_ := 0 }]
          edges := [{ source := 0, target := 1, corrs_ := identityCorrespondences4,
                      cinv_ := 0, cinvd_ := 0, computed_ := false }] } := by
  rfl

theorem translationSession_backward_eq :
    (translationSession false : SLAMGraph K)
      = { vertices := [{ cloud_ := cloudA, pose_ := 0 }, { cloud_ := cloudB, pose_ := 0 }]
          edges := [{ source := 1, target := 0, corrs_ := identityCorrespondences4,
                      cinv_ := 0, cinvd_ := 0, computed_ := false }] } := by
  rfl

theorem poseToTransform_zero (N : Numerics K) (hc : N.cos 0 = 1) (hs : N.sin 0 = 0) :
    poseToTransform N 0 = 1 := by
  ext r c
  fin_cases r <;> fin_cases c <;>
    simp [poseToTransform, hc, hs, Matrix.vecHead, Matrix.vecTail]

theorem transformPointCloud_one (cloud : PointCloud K) :
    transformPointCloud cloud 1 = cloud := by
  unfold transformPointCloud
  conv_rhs => rw [← List.map_id cloud]
  apply List.map_congr_left
  intro p _
  simp [Matrix.one_apply]

theorem translationSession_forward_terms [CharZero K] (N : Numerics K)
    (hc : N.cos 0 = 1) (hs : N.sin 0 = 0) :
    edgeTerms N
      [{ cloud_ := cloudA, pose_ := 0 }, { cloud_ := cloudB, pose_ := 0 }]
      { source := 0, target := 1, corrs_ := identityCorrespondences4,
        cinv_ := 0, cinvd_ := 0, computed_ := false }
      = (translationTerms : List (PairTerms K)) := by
  simp only [edgeTerms, vertexAt, List.getD_cons_zero, List.getD_cons_succ,
    poseToTransform_zero N hc hs, transformPointCloud_one]
  simp [identityCorrespondences4, pairTerms, pointAt, cloudA, cloudB, translationTerms]
  norm_num

theorem translationSession_backward_terms [CharZero K] (N : Numerics K)
    (hc : N.cos 0 = 1) (hs : N.sin 0 = 0) :
    edgeTerms N
      [{ cloud_ := cloudA, pose_ := 0 }, { cloud_ := cloudB, pose_ := 0 }]
      { source := 1, target := 0, corrs_ := identityCorrespondences4,
        cinv_ := 0, cinvd_ := 0, computed_ := false }
      = (translationTerms : List (PairTerms K)).map negateTerms := by
  rw [← translationSession_forward_terms N hc hs]
  exact edgeTerms_mirror _ _ _ _ rfl rfl rfl

theorem edgeMZ_translationTerms [CharZero K] (r : Fin 6) :
    edgeMZ (translationTerms : List (PairTerms K)) r
      = match r.val with
        | 0 => -4
        | 4 => 1
        | 5 => -1
        | _ => 0 := by
  unfold edgeMZ
  rw [foldl_accumulate_eq_add]
  fin_cases r <;> simp [translationTerms, stepMZ]
  norm_num

theorem edgeMM_translationTerms_mulVec [CharZero K] (v : Vector6f K) (r : Fin 6) :
    (edgeMM (translationTerms : List (PairTerms K))).mulVec v r
      = match r.val with
        | 0 => 4 * v 0 - v 4 + v 5
        | 1 => 4 * v 1 - v 3 + 3 * v 4
        | 2 => 4 * v 2 + v 3 - 3 * v 5
        | 3 => -v 1 + v 2 + 3 * v 3 - v 4 / 2 - v 5 / 2
        | 4 => -v 0 + 3 * v 1 - v 3 / 2 + 5 * v 4
        | _ => v 0 - 3 * v 2 - v 3 / 2 + 5 * v 5 := by
  unfold edgeMM
  rw [foldl_accumulate_eq_add, Matrix.mulVec, Matrix.dotProduct, Fin.sum_univ_six]
  simp only [remaining_apply]
  fin_cases r <;> simp [translationTerms, stepMM] <;> ring

theorem isUnit_det_edgeMM_translationTerms [CharZero K] :
    IsUnit (edgeMM (translationTerms : List (PairTerms K))).det := by
  rw [isUnit_iff_ne_zero]
  intro hdet
  obtain ⟨v, hv, hzero⟩ := Matrix.exists_mulVec_eq_zero_iff.mpr hdet
  apply hv
  have h0 := congrFun hzero 0
  have h1 := congrFun hzero 1
  have h2 := congrFun hzero 2
  have h3 := congrFun hzero 3
  have h4 := congrFun hzero 4
  have h5 := congrFun hzero 5
  rw [edgeMM_translationTerms_mulVec] at h0 h1 h2 h3 h4 h5
  simp only [Pi.zero_apply] at h0 h1 h2 h3 h4 h5
  change 4 * v 0 - v 4 + v 5 = 0 at h0
  change 4 * v 1 - v 3 + 3 * v 4 = 0 at h1
  change 4 * v 2 + v 3 - 3 * v 5 = 0 at h2
  change -v 1 + v 2 + 3 * v 3 - v 4 / 2 - v 5 / 2 = 0 at h3
  change -v 0 + 3 * v 1 - v 3 / 2 + 5 * v 4 = 0 at h4
  change v 0 - 3 * v 2 - v 3 / 2 + 5 * v 5 = 0 at h5
  funext r
  fin_cases r
  · show v 0 = 0
    linear_combination (11/36) * h0 + (-1/12) * h1 + (-1/12) * h2
      + (1/9) * h4 + (-1/9) * h5
  · show v 1 = 0
    linear_combination (-1/12) * h0 + (14/27) * h1 + (-1/54) * h2
      + (7/54) * h3 + (-17/54) * h4 + (1/54) * h5
  · show v 2 = 0
    linear_combination (-1/12) * h0 + (-1/54) * h1 + (14/27) * h2
      + (-7/54) * h3 + (-1/54) * h4 + (17/54) * h5
  · show v 3 = 0
    linear_combination (7/54) * h1 + (-7/54) * h2 + (11/27) * h3
      + (-1/27) * h4 + (-1/27) * h5
  · show v 4 = 0
    linear_combination (1/9) * h0 + (-17/54) * h1 + (-1/54) * h2
      + (-1/27) * h3 + (11/27) * h4 + (-1/27) * h5
  · show v 5 = 0
    linear_combination (-1/9) * h0 + (1/54) * h1 + (17/54) * h2
      + (-1/27) * h3 + (-1/27) * h4 + (11/27) * h5

theorem edgeD_translationTerms [CharZero K] (N : Numerics K) (hN : N.Exact) :
    edgeD N (translationTerms : List (PairTerms K)) = ![-1, 0, 0, 0, 0, 0] := by
  refine edgeD_of_solution N hN translationTerms ![-1, 0, 0, 0, 0, 0]
    isUnit_det_edgeMM_translationTerms ?_
  funext r
  rw [edgeMM_translationTerms_mulVec, edgeMZ_translationTerms]
  fin_cases r <;> simp [vector6_apply_three, vector6_apply_four, vector6_apply_five]

theorem edgeSS_translationTerms [CharZero K] :
    edgeSS ![-1, 0, 0, 0, 0, 0] (translationTerms : List (PairTerms K)) = 0 := by
  simp only [edgeSS, translationTerms, List.foldl_cons, List.foldl_nil, residual,
    Matrix.cons_val_zero, Matrix.cons_val_one, Matrix.cons_val_two, Matrix.head_cons,
    Matrix.tail_cons, vector6_apply_three, vector6_apply_four, vector6_apply_five]
  norm_num

/-- The first pass of `compute` on the translation scenario, for exact primitives over a
field of characteristic zero: `D = ∓(1, 0, 0, 0, 0, 0)` and `ss = 0` on the single edge,
so `computeEdge` stores `MM * (1 / 0)` and `MZ * (1 / 0)`. -/
theorem translationSession_first_pass [CharZero K] (N : Numerics K) (hN : N.Exact)
    (hc : N.cos 0 = 1) (hs : N.sin 0 = 0) (forward : Bool) (e : Edge K)
    (he : e ∈ (translationSession forward : SLAMGraph K).edges) :
    edgeD N (edgeTerms N (translationSession forward : SLAMGraph K).vertices e)
        = (if forward then ![-1, 0, 0, 0, 0, 0] else -![-1, 0, 0, 0, 0, 0])
    ∧ edgeSS (edgeD N (edgeTerms N (translationSession forward : SLAMGraph K).vertices e))
        (edgeTerms N (translationSession forward : SLAMGraph K).vertices e) = 0
    ∧ (computeEdge N (translationSession forward : SLAMGraph K).vertices e).cinv_
        = N.recip 0
          • edgeMM (edgeTerms N (translationSession forward : SLAMGraph K).vertices e)
    ∧ (computeEdge N (translationSession forward : SLAMGraph K).vertices e).cinvd_
        = N.recip 0
          • edgeMZ (edgeTerms N (translationSession forward : SLAMGraph K).vertices e) := by
  cases forward with
  | true =>
    rw [translationSession_forward_eq] at he ⊢
    simp only [List.mem_singleton] at he
    subst he
    rw [computeEdge_eq_relinearize _ _ _ rfl, (relinearize_cache _ _ _).1,
      (relinearize_cache _ _ _).2]
    unfold freshCinv freshCinvd
    simp only [translationSession_forward_terms N hc hs, edgeD_translationTerms N hN,
      edgeSS_translationTerms, if_true]
    exact ⟨trivial, trivial, trivial, trivial⟩
  | false =>
    rw [translationSession_backward_eq] at he ⊢
    simp only [List.mem_singleton] at he
    subst he
    have hss : edgeSS (-![-1, 0, 0, 0, 0, 0])
        ((translationTerms : List (PairTerms K)).map negateTerms) = 0 := by
      unfold edgeSS
      rw [edgeSS_foldl_negateTerms]
      exact edgeSS_translationTerms
    rw [computeEdge_eq_relinearize _ _ _ rfl, (relinearize_cache _ _ _).1,
      (relinearize_cache _ _ _).2]
    unfold freshCinv freshCinvd
    simp only [translationSession_backward_terms N hc hs, edgeD_negateTerms,
      edgeD_translationTerms N hN, hss, Bool.false_eq_true, if_false]
    exact ⟨trivial, trivial, trivial, trivial⟩

/-- The first pass of `compute` on the two-cloud pure translation scenario in exact
arithmetic over the reals, with the edge stored in either direction: the pose-difference
estimate of the edge is exactly `D = ∓(1, 0, 0, 0, 0, 0)` and its residual variance is
exactly `ss = 0`, so the edge gets `cinv_ = MM * (1 / 0)` and `cinvd_ = MZ * (1 / 0)`. -/
theorem translation_scenario_divides_by_zero (forward : Bool) :
    num_vertices (translationSession forward : SLAMGraph ℝ) = 2
    ∧ (translationSession forward : SLAMGraph ℝ).edges.length = 1
    ∧ ∀ e ∈ (translationSession forward : SLAMGraph ℝ).edges,
      edgeD (exactNumerics Real.cos Real.sin)
          (edgeTerms (exactNumerics Real.cos Real.sin)
            (translationSession forward : SLAMGraph ℝ).vertices e)
        = (if forward then ![-1, 0, 0, 0, 0, 0] else -![-1, 0, 0, 0, 0, 0])
      ∧ edgeSS
          (edgeD (exactNumerics Real.cos Real.sin)
            (edgeTerms (exactNumerics Real.cos Real.sin)
              (translationSession forward : SLAMGraph ℝ).vertices e))
          (edgeTerms (exactNumerics Real.cos Real.sin)
            (translationSession forward : SLAMGraph ℝ).vertices e) = 0
      ∧ (computeEdge (exactNumerics Real.cos Real.sin)
            (translationSession forward : SLAMGraph ℝ).vertices e).cinv_
          = (exactNumerics Real.cos Real.sin).recip 0
            • edgeMM (edgeTerms (exactNumerics Real.cos Real.sin)
                (translationSession forward : SLAMGraph ℝ).vertices e)
      ∧ (computeEdge (exactNumerics Real.cos Real.sin)
            (translationSession forward : SLAMGraph ℝ).vertices e).cinvd_
          = (exactNumerics Real.cos Real.sin).recip 0
            • edgeMZ (edgeTerms (exactNumerics Real.cos Real.sin)
                (translationSession forward : SLAMGraph ℝ).vertices e) := by
  refine ⟨by cases forward <;> rfl, by cases forward <;> rfl, fun e he => ?_⟩
  exact translationSession_first_pass (exactNumerics Real.cos Real.sin)
    (exactNumerics_exact Real.cos Real.sin) Real.cos_zero Real.sin_zero forward e he

/-! ## Transform convention, aggregator and the vertex-count guard -/

/-- C11. The transform of a pose is the ZYX Euler composition: for every pose
`(tx, ty, tz, roll, pitch, yaw)` the 3×3 rotation block of `poseToTransform` equals
`Rz (yaw) · Ry (pitch) · Rx (roll)`, the translation column is `(tx, ty, tz)` and the last
row is `(0, 0, 0, 1)`; hence, with `cos 0 = 1` and `sin 0 = 0`, the transform of the zero
pose is the identity. -/
theorem poseToTransform_zyx_euler (N : Numerics K) (pose : Vector6f K) :
    (poseToTransform N pose).submatrix Fin.castSucc Fin.castSucc
      = rotZ N (pose 5) * rotY N (pose 4) * rotX N (pose 3)
    ∧ (poseToTransform N pose 0 3 = pose 0 ∧ poseToTransform N pose 1 3 = pose 1
      ∧ poseToTransform N pose 2 3 = pose 2)
    ∧ (poseToTransform N pose 3 0 = 0 ∧ poseToTransform N pose 3 1 = 0
      ∧ poseToTransform N pose 3 2 = 0 ∧ poseToTransform N pose 3 3 = 1)
    ∧ (N.cos 0 = 1 → N.sin 0 = 0 → poseToTransform N 0 = 1) := by
  refine ⟨?_, ⟨rfl, rfl, rfl⟩, ⟨rfl, rfl, rfl, rfl⟩, poseToTransform_zero N⟩
  have h2 : Fin.castSucc (2 : Fin 3) = (2 : Fin 4) := rfl
  ext r c
  fin_cases r <;> fin_cases c <;>
    simp [poseToTransform, rotZ, rotY, rotX, Matrix.mul_apply, Fin.sum_univ_three, h2,
      Matrix.vecHead, Matrix.vecTail] <;>
    ring

/-- Witness for C11: over the reals the transform of the zero pose is the identity. -/
theorem poseToTransform_zyx_euler_witness :
    poseToTransform (exactNumerics Real.cos Real.sin) 0 = 1 :=
  (poseToTransform_zyx_euler (exactNumerics Real.cos Real.sin) 0).2.2.2
    Real.cos_zero Real.sin_zero

theorem foldl_append_eq_flatten {α β : Type} (f : α → List β) (l : List α) (acc : List β) :
    l.foldl (fun out v => out ++ f v) acc = acc ++ (l.map f).flatten := by
  induction l generalizing acc with
  | nil => simp
  | cons a l ih => simp [ih]

theorem transformPointCloud_eq_map (cloud : PointCloud K) (t : Affine3f K) :
    transformPointCloud cloud t = cloud.map (transformPoint t) := rfl

/-- C12. Aggregator result: `getConcatenatedCloud` returns the concatenation, for the
vertices `0, 1, …, n - 1` in that order, of the points of `cloud_v` in their stored order,
each mapped by `poseToTransform (pose_v)`; its length is the sum of the cloud sizes. The
function only reads the graph: it yields the cloud and writes no vertex or edge. -/
theorem getConcatenatedCloud_result (N : Numerics K) (g : SLAMGraph K) :
    getConcatenatedCloud N g
      = (g.vertices.map fun v =>
          v.cloud_.map (transformPoint (poseToTransform N v.pose_))).flatten
    ∧ (getConcatenatedCloud N g).length = (g.vertices.map fun v => v.cloud_.length).sum
    ∧ (∀ i (h : i < g.vertices.length),
        ∀ k (hk : k < (g.vertices.get ⟨i, h⟩).cloud_.length),
          transformPoint (poseToTransform N (g.vertices.get ⟨i, h⟩).pose_)
              ((g.vertices.get ⟨i, h⟩).cloud_.get ⟨k, hk⟩)
            ∈ getConcatenatedCloud N g) := by
  have h1 : getConcatenatedCloud N g
      = (g.vertices.map fun v =>
          v.cloud_.map (transformPoint (poseToTransform N v.pose_))).flatten := by
    unfold getConcatenatedCloud
    rw [foldl_append_eq_flatten (fun v : VertexProperties K =>
      transformPointCloud v.cloud_ (poseToTransform N v.pose_))]
    rfl
  refine ⟨h1, ?_, ?_⟩
  · rw [h1, List.length_flatten, List.map_map]
    congr 1
    apply List.map_congr_left
    intro v _
    simp
  · intro i h k hk
    rw [h1, List.mem_flatten]
    exact ⟨_, List.mem_map.mpr ⟨_, List.get_mem _ _ _, rfl⟩,
      List.mem_map.mpr ⟨_, List.get_mem _ _ _, rfl⟩⟩

/-- C13. Insufficient graph: on a graph with 0 or 1 vertices `compute` returns the whole
state (poses, edges, correspondences, cached linearizations, flags) unchanged, for any
`max_iterations`. -/
theorem compute_insufficient_graph (N : Numerics K) (max_iterations : Nat)
    (g : SLAMGraph K) (h : num_vertices g < 2) : compute N max_iterations g = g := by
  unfold compute
  simp only
  rw [if_pos h]

/-- Witness for C13: the graph holding cloud A alone, `max_iterations = 10`. -/
theorem compute_insufficient_graph_witness :
    compute (exactNumerics Real.cos Real.sin) 10
        (addPointCloud (SLAMGraph.empty : SLAMGraph ℝ) cloudA).1
      = (addPointCloud (SLAMGraph.empty : SLAMGraph ℝ) cloudA).1 :=
  compute_insufficient_graph (exactNumerics Real.cos Real.sin) 10 _ (Nat.lt.base 1)

/-! ## Normal equations of the edge linearization -/

theorem modelMatrix_apply (t : PairTerms K) (r : Fin 3) (c : Fin 6) :
    modelMatrix t r c =
      match r.val, c.val with
      | 0, 0 => 1
      | 0, 4 => -t.y
      | 0, 5 => t.z
      | 1, 1 => 1
      | 1, 3 => -t.z
      | 1, 4 => t.x
      | 2, 2 => 1
      | 2, 3 => t.y
      | 2, 5 => -t.x
      | _, _ => 0 := by
  fin_cases r <;> fin_cases c <;> rfl

theorem matrix_list_sum_apply (l : List (Matrix6f K)) (r c : Fin 6) :
    l.sum r c = (l.map fun M => M r c).sum := by
  induction l with
  | nil => rfl
  | cons M l ih => simp [ih]

theorem vector_list_sum_apply (l : List (Vector6f K)) (r : Fin 6) :
    l.sum r = (l.map fun V => V r).sum := by
  induction l with
  | nil => rfl
  | cons V l ih => simp [ih]

theorem normal_term (t : PairTerms K) :
    (modelMatrix t).transpose * modelMatrix t = remaining 1 (stepMM t) := by
  ext r c
  rw [remaining_apply, Matrix.mul_apply, Fin.sum_univ_three]
  simp only [Matrix.transpose_apply, modelMatrix_apply]
  fin_cases r <;> fin_cases c <;> simp [stepMM] <;> ring

theorem normal_term_vec (t : PairTerms K) :
    (modelMatrix t).transpose.mulVec ![t.dx, t.dy, t.dz] = stepMZ t := by
  funext r
  rw [Matrix.mulVec, Matrix.dotProduct, Fin.sum_univ_three]
  simp only [Matrix.transpose_apply, modelMatrix_apply]
  fin_cases r <;> simp [stepMZ] <;> ring

theorem remaining_add (n : Nat) (A B : Matrix6f K) :
    remaining (n + 1) (A + B) = remaining n A + remaining 1 B := by
  ext r c
  rw [Matrix.add_apply, remaining_apply, remaining_apply, remaining_apply]
  split
  · push_cast
    ring
  · split <;> rfl

theorem remaining_zero_one : remaining 0 (1 : Matrix6f K) = identityRest := by
  ext r c
  rw [remaining_apply]
  fin_cases r <;> fin_cases c <;> simp [identityRest]

theorem remaining_list_sum (terms : List (PairTerms K)) (A : Matrix6f K) :
    remaining terms.length (A + (terms.map stepMM).sum)
      = remaining 0 A + normalMM terms := by
  unfold normalMM
  induction terms generalizing A with
  | nil => simp
  | cons t ts ih =>
    rw [List.map_cons, List.sum_cons, List.map_cons, List.sum_cons, List.length_cons,
      add_comm (stepMM t), ← add_assoc, remaining_add, ih, normal_term]
    abel

/-- The matrix `MM` of `computeEdge` is the normal-equation sum plus
`diag (0, 0, 0, 1, 1, 1)`. -/
theorem edgeMM_eq_normalMM_add (terms : List (PairTerms K)) :
    edgeMM terms = identityRest + normalMM terms := by
  unfold edgeMM
  rw [foldl_accumulate_eq_add, remaining_list_sum, remaining_zero_one]

/-- The vector `MZ` of `computeEdge` is the normal-equation sum. -/
theorem edgeMZ_eq_normalMZ (terms : List (PairTerms K)) :
    edgeMZ terms = normalMZ terms := by
  unfold edgeMZ normalMZ
  rw [foldl_accumulate_eq_add]
  simp only [zero_add]
  congr 1
  apply List.map_congr_left
  intro t _
  exact (normal_term_vec t).symm

theorem edgeMM_diag_apply (terms : List (PairTerms K)) :
    edgeMM terms 0 0 = (terms.length : K) ∧ edgeMM terms 1 1 = (terms.length : K)
    ∧ edgeMM terms 2 2 = (terms.length : K)
    ∧ edgeMM terms 3 3 = 1 + (terms.map fun t => t.y * t.y + t.z * t.z).sum
    ∧ edgeMM terms 4 4 = 1 + (terms.map fun t => t.x * t.x + t.y * t.y).sum
    ∧ edgeMM terms 5 5 = 1 + (terms.map fun t => t.x * t.x + t.z * t.z).sum := by
  have v3 : ((3 : Fin 6) : ℕ) = 3 := rfl
  have v4 : ((4 : Fin 6) : ℕ) = 4 := rfl
  have v5 : ((5 : Fin 6) : ℕ) = 5 := rfl
  have h3 : ∀ t : PairTerms K, stepMM t 3 3 = t.y * t.y + t.z * t.z := fun _ => rfl
  have h4 : ∀ t : PairTerms K, stepMM t 4 4 = t.x * t.x + t.y * t.y := fun _ => rfl
  have h5 : ∀ t : PairTerms K, stepMM t 5 5 = t.x * t.x + t.z * t.z := fun _ => rfl
  unfold edgeMM
  rw [foldl_accumulate_eq_add]
  simp only [remaining_apply, Matrix.add_apply, matrix_list_sum_apply, List.map_map,
    Function.comp_def, h3, h4, h5]
  refine ⟨by simp, by simp, by simp, ?_, ?_, ?_⟩
  · simp [v3]
  · simp [v4]
  · simp [v5]

/-- C15, evaluated for every edge and every vertex data: `MZ` is the normal-equation sum
of the `M_kᵀ · d_k`, but `MM` is the normal-equation sum of the `M_kᵀ · M_k` plus
`diag (0, 0, 0, 1, 1, 1)`, left over from the initial value `Matrix6f::Identity ()`; so
`MM (0, 0) = MM (1, 1) = MM (2, 2) = m`, while `MM (3, 3) = 1 + Σ (y² + z²)`,
`MM (4, 4) = 1 + Σ (x² + y²)` and `MM (5, 5) = 1 + Σ (x² + z²)`, each one more than the
entry of the normal-equation sum. -/
theorem edgeMM_normal_equations_offset (N : Numerics K)
    (vertices : List (VertexProperties K)) (e : Edge K) :
    edgeMZ (edgeTerms N vertices e) = normalMZ (edgeTerms N vertices e)
    ∧ edgeMM (edgeTerms N vertices e) = identityRest + normalMM (edgeTerms N vertices e)
    ∧ edgeMM (edgeTerms N vertices e) 0 0 = (e.corrs_.length : K)
    ∧ edgeMM (edgeTerms N vertices e) 1 1 = (e.corrs_.length : K)
    ∧ edgeMM (edgeTerms N vertices e) 2 2 = (e.corrs_.length : K)
    ∧ edgeMM (edgeTerms N vertices e) 3 3
        = 1 + ((edgeTerms N vertices e).map fun t => t.y * t.y + t.z * t.z).sum
    ∧ edgeMM (edgeTerms N vertices e) 4 4
        = 1 + ((edgeTerms N vertices e).map fun t => t.x * t.x + t.y * t.y).sum
    ∧ edgeMM (edgeTerms N vertices e) 5 5
        = 1 + ((edgeTerms N vertices e).map fun t => t.x * t.x + t.z * t.z).sum
    ∧ edgeMM (edgeTerms N vertices e) 3 3 ≠ normalMM (edgeTerms N vertices e) 3 3
    ∧ edgeMM (edgeTerms N vertices e) 4 4 ≠ normalMM (edgeTerms N vertices e) 4 4
    ∧ edgeMM (edgeTerms N vertices e) 5 5 ≠ normalMM (edgeTerms N vertices e) 5 5 := by
  have hlen : (edgeTerms N vertices e).length = e.corrs_.length := by
    simp [edgeTerms]
  obtain ⟨d0, d1, d2, d3, d4, d5⟩ := edgeMM_diag_apply (edgeTerms N vertices e)
  rw [hlen] at d0 d1 d2
  have hdec := edgeMM_eq_normalMM_add (edgeTerms N vertices e)
  have hne : ∀ r : Fin 6, 3 ≤ r.val →
      edgeMM (edgeTerms N vertices e) r r ≠ normalMM (edgeTerms N vertices e) r r := by
    intro r hr h
    have h1 := congrFun (congrFun hdec r) r
    rw [Matrix.add_apply, h] at h1
    have h2 : (identityRest : Matrix6f K) r r = 1 := by
      simp [identityRest, hr]
    rw [h2] at h1
    exact one_ne_zero (self_eq_add_left.mp h1)
  exact ⟨edgeMZ_eq_normalMZ _, hdec, d0, d1, d2, d3, d4, d5, hne 3 (by decide),
    hne 4 (by decide), hne 5 (by decide)⟩

/-! ## The per-edge matrix is positive definite -/

theorem identityRest_symm (r c : Fin 6) :
    (identityRest : Matrix6f K) r c = identityRest c r := by
  unfold identityRest
  by_cases h : r = c
  · rw [h]
  · rw [if_neg (fun hh => h hh.1), if_neg (fun hh => h hh.1.symm)]

theorem normalMM_symm (terms : List (PairTerms K)) (r c : Fin 6) :
    normalMM terms r c = normalMM terms c r := by
  unfold normalMM
  rw [matrix_list_sum_apply, matrix_list_sum_apply, List.map_map, List.map_map]
  congr 1
  apply List.map_congr_left
  intro t _
  simp only [Function.comp, Matrix.mul_apply, Matrix.transpose_apply]
  exact Finset.sum_congr rfl fun i _ => mul_comm _ _

theorem edgeMM_symm (terms : List (PairTerms K)) (r c : Fin 6) :
    edgeMM terms r c = edgeMM terms c r := by
  rw [edgeMM_eq_normalMM_add, Matrix.add_apply, Matrix.add_apply, identityRest_symm,
    normalMM_symm]

section Ordered

variable {F : Type} [LinearOrderedField F]

theorem quad_transpose_mul (M : Matrix (Fin 3) (Fin 6) F) (x : Vector6f F) :
    Matrix.dotProduct x ((M.transpose * M).mulVec x)
      = Matrix.dotProduct (M.mulVec x) (M.mulVec x) := by
  rw [← Matrix.mulVec_mulVec, Matrix.dotProduct_mulVec, Matrix.vecMul_transpose]

theorem dotProduct_self_nonneg3 (v : Fin 3 → F) : 0 ≤ Matrix.dotProduct v v := by
  unfold Matrix.dotProduct
  exact Finset.sum_nonneg fun i _ => mul_self_nonneg (v i)

theorem quad_list_sum (l : List (Matrix6f F)) (x : Vector6f F) :
    Matrix.dotProduct x (l.sum.mulVec x)
      = (l.map fun M => Matrix.dotProduct x (M.mulVec x)).sum := by
  induction l with
  | nil => simp
  | cons M l ih => simp [Matrix.add_mulVec, Matrix.dotProduct_add, ih]

theorem quad_normalMM (terms : List (PairTerms F)) (x : Vector6f F) :
    Matrix.dotProduct x ((normalMM terms).mulVec x)
      = (terms.map fun t =>
          Matrix.dotProduct ((modelMatrix t).mulVec x) ((modelMatrix t).mulVec x)).sum := by
  unfold normalMM
  rw [quad_list_sum, List.map_map]
  congr 1
  apply List.map_congr_left
  intro t _
  exact quad_transpose_mul (modelMatrix t) x

theorem quad_normalMM_nonneg (terms : List (PairTerms F)) (x : Vector6f F) :
    0 ≤ Matrix.dotProduct x ((normalMM terms).mulVec x) := by
  rw [quad_normalMM]
  apply List.sum_nonneg
  intro a ha
  rw [List.mem_map] at ha
  obtain ⟨t, _, rfl⟩ := ha
  exact dotProduct_self_nonneg3 _

theorem quad_identityRest (x : Vector6f F) :
    Matrix.dotProduct x ((identityRest : Matrix6f F).mulVec x)
      = x 3 * x 3 + x 4 * x 4 + x 5 * x 5 := by
  have v3 : ((3 : Fin 6) : ℕ) = 3 := rfl
  have v4 : ((4 : Fin 6) : ℕ) = 4 := rfl
  have v5 : ((5 : Fin 6) : ℕ) = 5 := rfl
  simp [Matrix.dotProduct, Matrix.mulVec, Fin.sum_univ_six, identityRest, v3, v4, v5]

theorem modelMatrix_mulVec_of_rotation_zero (t : PairTerms F) (x : Vector6f F)
    (h3 : x 3 = 0) (h4 : x 4 = 0) (h5 : x 5 = 0) :
    Matrix.dotProduct ((modelMatrix t).mulVec x) ((modelMatrix t).mulVec x)
      = x 0 * x 0 + x 1 * x 1 + x 2 * x 2 := by
  simp only [Matrix.dotProduct, Matrix.mulVec, Fin.sum_univ_three, Fin.sum_univ_six,
    modelMatrix_apply, h3, h4, h5]
  simp

theorem quad_edgeMM_pos (terms : List (PairTerms F)) (hm : terms ≠ []) (x : Vector6f F)
    (hx : x ≠ 0) : 0 < Matrix.dotProduct x ((edgeMM terms).mulVec x) := by
  rw [edgeMM_eq_normalMM_add, Matrix.add_mulVec, Matrix.dotProduct_add, quad_identityRest]
  have hn := quad_normalMM_nonneg terms x
  by_cases hrot : x 3 = 0 ∧ x 4 = 0 ∧ x 5 = 0
  · obtain ⟨h3, h4, h5⟩ := hrot
    rw [h3, h4, h5]
    obtain ⟨t, ts, rfl⟩ := List.exists_cons_of_ne_nil hm
    rw [quad_normalMM, List.map_cons, List.sum_cons,
      modelMatrix_mulVec_of_rotation_zero t x h3 h4 h5, ← quad_normalMM]
    have hts := quad_normalMM_nonneg ts x
    have hpos : 0 < x 0 * x 0 + x 1 * x 1 + x 2 * x 2 := by
      by_contra hcon
      apply hx
      have e0 := mul_self_nonneg (x 0)
      have e1 := mul_self_nonneg (x 1)
      have e2 := mul_self_nonneg (x 2)
      have z0 : x 0 = 0 := mul_self_eq_zero.mp (by linarith)
      have z1 : x 1 = 0 := mul_self_eq_zero.mp (by linarith)
      have z2 : x 2 = 0 := mul_self_eq_zero.mp (by linarith)
      funext r
      fin_cases r
      · exact z0
      · exact z1
      · exact z2
      · exact h3
      · exact h4
      · exact h5
    linarith
  · have e3 := mul_self_nonneg (x 3)
    have e4 := mul_self_nonneg (x 4)
    have e5 := mul_self_nonneg (x 5)
    have hpos : 0 < x 3 * x 3 + x 4 * x 4 + x 5 * x 5 := by
      by_contra hcon
      apply hrot
      exact ⟨mul_self_eq_zero.mp (by linarith), mul_self_eq_zero.mp (by linarith),
        mul_self_eq_zero.mp (by linarith)⟩
    linarith

theorem nonSingular_of_quad_pos (M : Matrix6f F)
    (h : ∀ x : Vector6f F, x ≠ 0 → 0 < Matrix.dotProduct x (M.mulVec x)) :
    NonSingular M := by
  unfold NonSingular
  rw [isUnit_iff_ne_zero]
  intro hdet
  obtain ⟨v, hv, hzero⟩ := Matrix.exists_mulVec_eq_zero_iff.mpr hdet
  have := h v hv
  rw [hzero, Matrix.dotProduct_zero] at this
  exact lt_irrefl _ this

theorem nonSingular_edgeMM (terms : List (PairTerms F)) (hm : terms ≠ []) :
    NonSingular (edgeMM terms) :=
  nonSingular_of_quad_pos _ (quad_edgeMM_pos terms hm)

theorem edgeTerms_ne_nil (N : Numerics K) (vertices : List (VertexProperties K))
    (e : Edge K) (h : 1 ≤ e.corrs_.length) : edgeTerms N vertices e ≠ [] := by
  intro hnil
  have hlen : (edgeTerms N vertices e).length = e.corrs_.length := by
    simp [edgeTerms]
  rw [hnil] at hlen
  simp at hlen
  omega

/-- C18 (amended). In exact arithmetic the per-edge matrix is invertible: for every edge
with at least one correspondence, whatever the point coordinates and the poses (coincident
or collinear midpoints included), the matrix `MM` that the loop of `computeEdge` defines
when its sums are read exactly, over an ordered field such as the reals, is symmetric
positive definite and nonsingular, so `D = MM⁻¹ · MZ` is well defined there; this holds
for every edge of a reachable graph. The binary32 sums of the program do not inherit this
for arbitrary coordinates (`edgeMM32`). -/
theorem edgeMM_positive_definite (N : Numerics F) :
    (∀ (vertices : List (VertexProperties F)) (e : Edge F), 1 ≤ e.corrs_.length →
      SymPosDef (edgeMM (edgeTerms N vertices e))
        ∧ NonSingular (edgeMM (edgeTerms N vertices e)))
    ∧ (∀ g : SLAMGraph F, Reachable N g → ∀ e ∈ g.edges,
      SymPosDef (edgeMM (edgeTerms N g.vertices e))
        ∧ NonSingular (edgeMM (edgeTerms N g.vertices e))) := by
  have key : ∀ (vertices : List (VertexProperties F)) (e : Edge F), 1 ≤ e.corrs_.length →
      SymPosDef (edgeMM (edgeTerms N vertices e))
        ∧ NonSingular (edgeMM (edgeTerms N vertices e)) := by
    intro vertices e h
    have hne := edgeTerms_ne_nil N vertices e h
    exact ⟨⟨edgeMM_symm _, quad_edgeMM_pos _ hne⟩, nonSingular_edgeMM _ hne⟩
  refine ⟨key, fun g hg e he => key g.vertices e ?_⟩
  have := (edgesWellFormed_reachable N g hg e he).2.2.2
  omega

/-- Witness for C18: the edge `(0, 1)` of the translation scenario over the reals. -/
theorem edgeMM_positive_definite_witness :
    SymPosDef (edgeMM (edgeTerms (exactNumerics Real.cos Real.sin)
      (translationSession true : SLAMGraph ℝ).vertices
      { source := 0, target := 1, corrs_ := identityCorrespondences4, cinv_ := 0,
        cinvd_ := 0, computed_ := false })) :=
  ((edgeMM_positive_definite (exactNumerics Real.cos Real.sin)).1 _ _ (by decide)).1

end Ordered

/-! ## The incidence correction -/

theorem incidenceCorrection_leading_columns (N : Numerics K) (pose : Vector6f K)
    (r c : Fin 6) (hc : c.val < 3) :
    incidenceCorrection N pose r c = if r = c then 1 else 0 := by
  fin_cases c
  · fin_cases r <;> simp [incidenceCorrection, setCoeff]
  · fin_cases r <;> simp [incidenceCorrection, setCoeff]
  · fin_cases r <;> simp [incidenceCorrection, setCoeff]
  · simp at hc
  · simp at hc
  · simp at hc

theorem incidenceCorrection_rotation_block (N : Numerics K) (pose : Vector6f K) :
    (incidenceCorrection N pose 3 3 = 1 ∧ incidenceCorrection N pose 3 4 = 0
      ∧ incidenceCorrection N pose 3 5 = N.sin (pose 4))
    ∧ (incidenceCorrection N pose 4 3 = 0 ∧ incidenceCorrection N pose 4 4 = N.sin (pose 3)
      ∧ incidenceCorrection N pose 4 5 = N.cos (pose 3) * N.cos (pose 4))
    ∧ (incidenceCorrection N pose 5 3 = 0 ∧ incidenceCorrection N pose 5 4 = N.cos (pose 3)
      ∧ incidenceCorrection N pose 5 5 = -N.sin (pose 3) * N.cos (pose 4)) := by
  refine ⟨⟨?_, ?_, ?_⟩, ⟨?_, ?_, ?_⟩, ⟨?_, ?_, ?_⟩⟩ <;>
    simp [incidenceCorrection, setCoeff]

theorem det_of_first_column {n : Nat} (A : Matrix (Fin (n + 1)) (Fin (n + 1)) K)
    (h : ∀ i : Fin n, A i.succ 0 = 0) :
    A.det = A 0 0 * (A.submatrix Fin.succ Fin.succ).det := by
  rw [Matrix.det_succ_column_zero, Fin.sum_univ_succ]
  simp [h]

theorem det_incidenceCorrection (N : Numerics K) (pose : Vector6f K) :
    (incidenceCorrection N pose).det
      = -N.cos (pose 4) * (N.cos (pose 3) ^ 2 + N.sin (pose 3) ^ 2) := by
  obtain ⟨⟨e33, e34, e35⟩, ⟨e43, e44, e45⟩, ⟨e53, e54, e55⟩⟩ :=
    incidenceCorrection_rotation_block N pose
  have s3 : Fin.succ (Fin.succ (Fin.succ (0 : Fin 3))) = (3 : Fin 6) := rfl
  have s4 : Fin.succ (Fin.succ (Fin.succ (1 : Fin 3))) = (4 : Fin 6) := rfl
  have s5 : Fin.succ (Fin.succ (Fin.succ (2 : Fin 3))) = (5 : Fin 6) := rfl
  have c0 : incidenceCorrection N pose 0 0 = 1 := by
    rw [incidenceCorrection_leading_columns N pose 0 0 (by decide), if_pos rfl]
  have c1 : incidenceCorrection N pose (Fin.succ 0) (Fin.succ 0) = 1 := by
    rw [incidenceCorrection_leading_columns N pose _ _ (by decide), if_pos rfl]
  have c2 : incidenceCorrection N pose (Fin.succ (Fin.succ 0)) (Fin.succ (Fin.succ 0)) = 1 := by
    rw [incidenceCorrection_leading_columns N pose _ _ (by decide), if_pos rfl]
  rw [det_of_first_column, det_of_first_column, det_of_first_column, Matrix.det_fin_three]
  · simp only [Matrix.submatrix_apply, s3, s4, s5, c0, c1, c2, e33, e34, e35, e43, e44, e45,
      e53, e54, e55]
    ring
  · intro i
    simp only [Matrix.submatrix_apply]
    rw [incidenceCorrection_leading_columns N pose _ _ (by decide), if_neg]
    intro h
    have := congrArg Fin.val h
    simp at this
  · intro i
    simp only [Matrix.submatrix_apply]
    rw [incidenceCorrection_leading_columns N pose _ _ (by decide), if_neg]
    intro h
    have := congrArg Fin.val h
    simp at this
  · intro i
    rw [incidenceCorrection_leading_columns N pose _ _ (by decide), if_neg]
    intro h
    have := congrArg Fin.val h
    simp at this

theorem incidenceCorrection_zero (N : Numerics K) (hc : N.cos 0 = 1) (hs : N.sin 0 = 0) :
    incidenceCorrection N 0 = swapLastTwo := by
  ext r c
  fin_cases r <;> fin_cases c <;> simp [incidenceCorrection, setCoeff, swapLastTwo, hc, hs]

/-- C17. Euler singularity of the incidence correction: for every pose the determinant of
`incidenceCorrection` is `-cos (pitch) · (cos² (roll) + sin² (roll))`, that is
`-cos (pitch)` for a cosine and sine of the roll on the unit circle, whatever the
translation, roll and yaw; hence the matrix is singular if and only if
`cos (pitch) = 0`, and the inverse used in the pose update exists for every pose with
`cos (pitch) ≠ 0`. At the zero pose the matrix is the permutation exchanging components
4 and 5, not the identity. -/
theorem incidenceCorrection_singularity (N : Numerics K) (pose : Vector6f K) :
    (incidenceCorrection N pose).det
      = -N.cos (pose 4) * (N.cos (pose 3) ^ 2 + N.sin (pose 3) ^ 2)
    ∧ (N.cos (pose 3) ^ 2 + N.sin (pose 3) ^ 2 = 1 →
        (incidenceCorrection N pose).det = -N.cos (pose 4)
        ∧ ((incidenceCorrection N pose).det = 0 ↔ N.cos (pose 4) = 0)
        ∧ (NonSingular (incidenceCorrection N pose) ↔ N.cos (pose 4) ≠ 0))
    ∧ (N.cos 0 = 1 → N.sin 0 = 0 →
        incidenceCorrection N 0 = swapLastTwo
        ∧ incidenceCorrection N 0 ≠ 1
        ∧ (incidenceCorrection N 0).det = -1) := by
  refine ⟨det_incidenceCorrection N pose, fun h => ?_, fun hc hs => ?_⟩
  · have hdet : (incidenceCorrection N pose).det = -N.cos (pose 4) := by
      rw [det_incidenceCorrection, h, mul_one]
    refine ⟨hdet, ?_, ?_⟩
    · rw [hdet, neg_eq_zero]
    · unfold NonSingular
      rw [isUnit_iff_ne_zero, hdet, neg_ne_zero]
  · refine ⟨incidenceCorrection_zero N hc hs, ?_, ?_⟩
    · intro h
      have h44 := congrFun (congrFun h 4) 4
      have v4 : ((4 : Fin 6) : ℕ) = 4 := rfl
      rw [incidenceCorrection_zero N hc hs] at h44
      simp [swapLastTwo, v4] at h44
    · rw [det_incidenceCorrection]
      simp [hc, hs]

/-- Witness for C17: over the reals, at the zero pose, the incidence correction is
invertible. -/
theorem incidenceCorrection_singularity_witness :
    NonSingular (incidenceCorrection (exactNumerics Real.cos Real.sin) 0) :=
  ((incidenceCorrection_singularity (exactNumerics Real.cos Real.sin) 0).2.1
    (Real.cos_sq_add_sin_sq _)).2.2.mpr (by simp [exactNumerics])

/-! ## Structure of the assembled system -/

theorem visit_snd {m : Nat} (es : List (Edge K)) (a : Fin m)
    (acc : SystemMatrix K m × SystemVector K m) (vj : Fin (m + 1)) (i : Fin m × Fin 6) :
    (visit es a acc vj).2 i
      = acc.2 i + if i.1 = a then signedCinvd es (a.val + 1) vj.val i.2 else 0 := by
  unfold visit signedCinvd
  cases h1 : edge (a.val + 1) vj.val es with
  | some e =>
    simp only [fill, addSegment]
    split <;> simp
  | none =>
    cases h2 : edge vj.val (a.val + 1) es with
    | some e =>
      simp only [fill, addSegment]
      split <;> simp
    | none => simp

theorem setBlock_apply {m : Nat} (G : SystemMatrix K m) (a b : Fin m) (M : Matrix6f K)
    (i j : Fin m × Fin 6) :
    setBlock G a b M i j = if i.1 = a ∧ j.1 = b then M i.2 j.2 else G i j := rfl

theorem fill_fst_other_row {m : Nat} (acc : SystemMatrix K m × SystemVector K m) (a : Fin m)
    (vj : Fin (m + 1)) (e : Edge K) (p : Bool) (i j : Fin m × Fin 6) (hi : i.1 ≠ a) :
    (fill acc a vj e p).1 i j = acc.1 i j := by
  simp only [fill, addBlock, setBlock]
  rw [if_neg (fun h => hi h.1)]
  by_cases h0 : 0 < vj.val
  · rw [dif_pos h0, setBlock_apply, if_neg (fun h => hi h.1)]
  · rw [dif_neg h0]

theorem visit_fst_other_row {m : Nat} (es : List (Edge K)) (a : Fin m)
    (acc : SystemMatrix K m × SystemVector K m) (vj : Fin (m + 1)) (i j : Fin m × Fin 6)
    (hi : i.1 ≠ a) : (visit es a acc vj).1 i j = acc.1 i j := by
  unfold visit
  cases h1 : edge (a.val + 1) vj.val es with
  | some e => simp only [fill_fst_other_row acc a vj e _ i j hi]
  | none =>
    cases h2 : edge vj.val (a.val + 1) es with
    | some e => simp only [fill_fst_other_row acc a vj e _ i j hi]
    | none => rfl

theorem fill_fst_offdiag {m : Nat} (acc : SystemMatrix K m × SystemVector K m) (a : Fin m)
    (vj : Fin (m + 1)) (e : Edge K) (p : Bool) (i j : Fin m × Fin 6) (hi : i.1 = a)
    (hj : j.1 ≠ a) :
    (fill acc a vj e p).1 i j
      = if vj.val = j.1.val + 1 then -e.cinv_ i.2 j.2 else acc.1 i j := by
  simp only [fill, addBlock, setBlock]
  rw [if_neg (fun h => hj h.2)]
  by_cases hv : 0 < vj.val
  · rw [dif_pos hv]
    by_cases hjv : vj.val = j.1.val + 1
    · have : i.1 = a ∧ j.1 = ⟨vj.val - 1, by omega⟩ := ⟨hi, Fin.ext (by simp; omega)⟩
      rw [setBlock_apply, if_pos this, if_pos hjv]
      rfl
    · have : ¬ (i.1 = a ∧ j.1 = ⟨vj.val - 1, by omega⟩) := by
        rintro ⟨_, h⟩
        apply hjv
        have := congrArg Fin.val h
        simp at this
        omega
      rw [setBlock_apply, if_neg this, if_neg hjv]
  · rw [dif_neg hv, if_neg (by omega)]

theorem visit_fst_offdiag {m : Nat} (es : List (Edge K)) (a : Fin m)
    (acc : SystemMatrix K m × SystemVector K m) (vj : Fin (m + 1)) (i j : Fin m × Fin 6)
    (hi : i.1 = a) (hj : j.1 ≠ a) :
    (visit es a acc vj).1 i j
      = if vj.val = j.1.val + 1 then
          (match edge (a.val + 1) vj.val es with
            | some e => -e.cinv_ i.2 j.2
            | none =>
              match edge vj.val (a.val + 1) es with
              | some e => -e.cinv_ i.2 j.2
              | none => acc.1 i j)
        else acc.1 i j := by
  unfold visit
  cases h1 : edge (a.val + 1) vj.val es with
  | some e => simp only [fill_fst_offdiag acc a vj e _ i j hi hj]
  | none =>
    cases h2 : edge vj.val (a.val + 1) es with
    | some e => simp only [fill_fst_offdiag acc a vj e _ i j hi hj]
    | none => simp

theorem fill_fst_diag {m : Nat} (acc : SystemMatrix K m × SystemVector K m) (a : Fin m)
    (vj : Fin (m + 1)) (e : Edge K) (p : Bool) (i j : Fin m × Fin 6) (hi : i.1 = a)
    (hj : j.1 = a) (hv : vj.val ≠ a.val + 1) :
    (fill acc a vj e p).1 i j = acc.1 i j + e.cinv_ i.2 j.2 := by
  simp only [fill, addBlock, setBlock]
  rw [if_pos ⟨hi, hj⟩]
  by_cases h0 : 0 < vj.val
  · rw [dif_pos h0]
    have : ¬ (i.1 = a ∧ j.1 = ⟨vj.val - 1, by omega⟩) := by
      rintro ⟨_, h⟩
      apply hv
      rw [hj] at h
      have := congrArg Fin.val h
      simp at this
      omega
    rw [setBlock_apply, if_neg this]
  · rw [dif_neg h0]

theorem visit_fst_diag {m : Nat} (es : List (Edge K)) (a : Fin m)
    (hloop : edge (a.val + 1) (a.val + 1) es = none)
    (acc : SystemMatrix K m × SystemVector K m) (vj : Fin (m + 1)) (i j : Fin m × Fin 6)
    (hi : i.1 = a) (hj : j.1 = a) :
    (visit es a acc vj).1 i j = acc.1 i j + relatedCinv es (a.val + 1) vj.val i.2 j.2 := by
  unfold visit relatedCinv
  by_cases hv : vj.val = a.val + 1
  · rw [hv, hloop]
    simp
  · cases h1 : edge (a.val + 1) vj.val es with
    | some e => simp only [fill_fst_diag acc a vj e _ i j hi hj hv]
    | none =>
      cases h2 : edge vj.val (a.val + 1) es with
      | some e => simp only [fill_fst_diag acc a vj e _ i j hi hj hv]
      | none => simp

theorem visit_fst_offdiag_of_clean {m : Nat} (es : List (Edge K)) (a : Fin m)
    (acc : SystemMatrix K m × SystemVector K m) (vj : Fin (m + 1)) (i j : Fin m × Fin 6)
    (hi : i.1 = a) (hj : j.1 ≠ a)
    (hacc : acc.1 i j = 0 ∨ acc.1 i j = -relatedCinv es (a.val + 1) (j.1.val + 1) i.2 j.2) :
    (visit es a acc vj).1 i j
      = if vj.val = j.1.val + 1 then -relatedCinv es (a.val + 1) (j.1.val + 1) i.2 j.2
        else acc.1 i j := by
  rw [visit_fst_offdiag es a acc vj i j hi hj]
  by_cases hv : vj.val = j.1.val + 1
  · rw [if_pos hv, if_pos hv]
    unfold relatedCinv at hacc ⊢
    rw [hv]
    cases h1 : edge (a.val + 1) (j.1.val + 1) es with
    | some e => rfl
    | none =>
      cases h2 : edge (j.1.val + 1) (a.val + 1) es with
      | some e => rfl
      | none =>
        rw [h1, h2] at hacc
        simpa using hacc
  · rw [if_neg hv, if_neg hv]

theorem foldl_visit_snd {m : Nat} (es : List (Edge K)) (a : Fin m) (l : List (Fin (m + 1)))
    (acc : SystemMatrix K m × SystemVector K m) (i : Fin m × Fin 6) :
    (l.foldl (visit es a) acc).2 i
      = acc.2 i + if i.1 = a then
          (l.map fun vj => signedCinvd es (a.val + 1) vj.val i.2).sum else 0 := by
  induction l generalizing acc with
  | nil => simp
  | cons vj l ih =>
    rw [List.foldl_cons, ih, visit_snd]
    by_cases h : i.1 = a
    · simp only [if_pos h, List.map_cons, List.sum_cons]
      ring
    · simp [if_neg h]

theorem foldl_visit_fst_other_row {m : Nat} (es : List (Edge K)) (a : Fin m)
    (l : List (Fin (m + 1))) (acc : SystemMatrix K m × SystemVector K m)
    (i j : Fin m × Fin 6) (hi : i.1 ≠ a) :
    (l.foldl (visit es a) acc).1 i j = acc.1 i j := by
  induction l generalizing acc with
  | nil => rfl
  | cons vj l ih => rw [List.foldl_cons, ih, visit_fst_other_row es a acc vj i j hi]

theorem foldl_visit_fst_diag {m : Nat} (es : List (Edge K)) (a : Fin m)
    (hloop : edge (a.val + 1) (a.val + 1) es = none) (l : List (Fin (m + 1)))
    (acc : SystemMatrix K m × SystemVector K m) (i j : Fin m × Fin 6)
    (hi : i.1 = a) (hj : j.1 = a) :
    (l.foldl (visit es a) acc).1 i j
      = acc.1 i j + (l.map fun vj => relatedCinv es (a.val + 1) vj.val i.2 j.2).sum := by
  induction l generalizing acc with
  | nil => simp
  | cons vj l ih =>
    rw [List.foldl_cons, ih, visit_fst_diag es a hloop acc vj i j hi hj]
    simp only [List.map_cons, List.sum_cons]
    ring

theorem foldl_visit_fst_offdiag {m : Nat} (es : List (Edge K)) (a : Fin m)
    (l : List (Fin (m + 1))) (acc : SystemMatrix K m × SystemVector K m)
    (i j : Fin m × Fin 6) (hi : i.1 = a) (hj : j.1 ≠ a)
    (hacc : acc.1 i j = 0 ∨ acc.1 i j = -relatedCinv es (a.val + 1) (j.1.val + 1) i.2 j.2) :
    (l.foldl (visit es a) acc).1 i j
      = if ∃ vj ∈ l, vj.val = j.1.val + 1 then
          -relatedCinv es (a.val + 1) (j.1.val + 1) i.2 j.2
        else acc.1 i j := by
  induction l generalizing acc with
  | nil => simp
  | cons vj l ih =>
    have hstep := visit_fst_offdiag_of_clean es a acc vj i j hi hj hacc
    by_cases hv : vj.val = j.1.val + 1
    · rw [if_pos hv] at hstep
      have hex : ∃ v ∈ vj :: l, v.val = j.1.val + 1 := ⟨vj, List.mem_cons_self _ _, hv⟩
      rw [List.foldl_cons, ih _ (Or.inr hstep), hstep, if_pos hex, ite_self]
    · rw [if_neg hv] at hstep
      rw [List.foldl_cons, ih _ (by rw [hstep]; exact hacc), hstep]
      have : (∃ v ∈ vj :: l, v.val = j.1.val + 1) ↔ ∃ v ∈ l, v.val = j.1.val + 1 := by
        simp [hv]
      simp only [this]

theorem foldl_row_untouched {A X ι : Type} (F : A → ι → A) (π : A → X) (a : ι)
    (hother : ∀ acc a', a' ≠ a → π (F acc a') = π acc) (L : List ι) (hL : a ∉ L)
    (acc : A) :
    π (L.foldl F acc) = π acc := by
  induction L generalizing acc with
  | nil => rfl
  | cons a0 L ih =>
    rw [List.mem_cons, not_or] at hL
    rw [List.foldl_cons, ih hL.2, hother acc a0 (fun h => hL.1 h.symm)]

theorem foldl_row_local {A X ι : Type} (F : A → ι → A) (π : A → X) (a : ι) (φ : X → X)
    (Q : X → Prop) (hother : ∀ acc a', a' ≠ a → π (F acc a') = π acc)
    (hself : ∀ acc, Q (π acc) → π (F acc a) = φ (π acc)) (L : List ι) (hL : L.Nodup)
    (ha : a ∈ L) (acc : A) (hQ : Q (π acc)) :
    π (L.foldl F acc) = φ (π acc) := by
  induction L generalizing acc with
  | nil => simp at ha
  | cons a0 L ih =>
    rw [List.nodup_cons] at hL
    rw [List.foldl_cons]
    by_cases h0 : a0 = a
    · subst h0
      rw [foldl_row_untouched F π a0 hother L hL.1, hself acc hQ]
    · have haL : a ∈ L := by
        rcases List.mem_cons.mp ha with h | h
        · exact absurd h.symm h0
        · exact h
      rw [ih hL.2 haL _ (by rw [hother acc a0 h0]; exact hQ), hother acc a0 h0]

/-- The right-hand side assembled by a pass: the segment of the vertex `a + 1` is the sum,
over all vertices `vj`, of the signed information vector that `vj` contributes. -/
theorem assemble_snd (m : Nat) (es : List (Edge K)) (a : Fin m) (r : Fin 6) :
    (assemble m es).2 (a, r) = ∑ vj : Fin (m + 1), signedCinvd es (a.val + 1) vj.val r := by
  unfold assemble
  rw [foldl_row_local (fun acc a => (List.finRange (m + 1)).foldl (visit es a) acc)
    (fun acc => acc.2 (a, r)) a
    (fun x => x + ((List.finRange (m + 1)).map fun vj =>
      signedCinvd es (a.val + 1) vj.val r).sum)
    (fun _ => True)
    (fun acc a' h => by
      show ((List.finRange (m + 1)).foldl (visit es a') acc).2 (a, r) = acc.2 (a, r)
      rw [foldl_visit_snd, if_neg (fun h' => h h'.symm), add_zero])
    (fun acc _ => by
      show ((List.finRange (m + 1)).foldl (visit es a) acc).2 (a, r) = _
      rw [foldl_visit_snd, if_pos rfl])
    (List.finRange m) (List.nodup_finRange m) (List.mem_finRange a) _ trivial]
  rw [Fin.sum_univ_def]
  simp

/-- An off-diagonal block of the matrix assembled by a pass. -/
theorem assemble_fst_offdiag (m : Nat) (es : List (Edge K)) (a b : Fin m) (hab : a ≠ b)
    (r c : Fin 6) :
    (assemble m es).1 (a, r) (b, c) = -relatedCinv es (a.val + 1) (b.val + 1) r c := by
  unfold assemble
  rw [foldl_row_local (fun acc a => (List.finRange (m + 1)).foldl (visit es a) acc)
    (fun acc => acc.1 (a, r) (b, c)) a
    (fun _ => -relatedCinv es (a.val + 1) (b.val + 1) r c)
    (fun x => x = 0 ∨ x = -relatedCinv es (a.val + 1) (b.val + 1) r c)
    (fun acc a' h => by
      show ((List.finRange (m + 1)).foldl (visit es a') acc).1 (a, r) (b, c) = _
      rw [foldl_visit_fst_other_row es a' _ acc (a, r) (b, c) (fun h' => h h'.symm)])
    (fun acc hQ => by
      show ((List.finRange (m + 1)).foldl (visit es a) acc).1 (a, r) (b, c) = _
      rw [foldl_visit_fst_offdiag es a _ acc (a, r) (b, c) rfl (fun h => hab h.symm) hQ,
        if_pos ⟨b.succ, List.mem_finRange _, by simp⟩])
    (List.finRange m) (List.nodup_finRange m) (List.mem_finRange a) _ (Or.inl rfl)]

/-- A diagonal block of the matrix assembled by a pass, when the vertex has no self-loop. -/
theorem assemble_fst_diag (m : Nat) (es : List (Edge K)) (a : Fin m)
    (hloop : edge (a.val + 1) (a.val + 1) es = none) (r c : Fin 6) :
    (assemble m es).1 (a, r) (a, c)
      = ∑ vj : Fin (m + 1), relatedCinv es (a.val + 1) vj.val r c := by
  unfold assemble
  rw [foldl_row_local (fun acc a => (List.finRange (m + 1)).foldl (visit es a) acc)
    (fun acc => acc.1 (a, r) (a, c)) a
    (fun x => x + ((List.finRange (m + 1)).map fun vj =>
      relatedCinv es (a.val + 1) vj.val r c).sum)
    (fun _ => True)
    (fun acc a' h => by
      show ((List.finRange (m + 1)).foldl (visit es a') acc).1 (a, r) (a, c) = _
      rw [foldl_visit_fst_other_row es a' _ acc (a, r) (a, c) (fun h' => h h'.symm)])
    (fun acc _ => by
      show ((List.finRange (m + 1)).foldl (visit es a) acc).1 (a, r) (a, c) = _
      rw [foldl_visit_fst_diag es a hloop _ acc (a, r) (a, c) rfl rfl])
    (List.finRange m) (List.nodup_finRange m) (List.mem_finRange a) _ trivial]
  rw [Fin.sum_univ_def]
  simp

theorem relatedCinv_of_forward (es : List (Edge K)) (s t : Nat) (e : Edge K)
    (h : edge s t es = some e) : relatedCinv es s t = e.cinv_ := by
  unfold relatedCinv
  rw [h]

theorem relatedCinv_of_backward (es : List (Edge K)) (s t : Nat) (e : Edge K)
    (h1 : edge s t es = none) (h2 : edge t s es = some e) :
    relatedCinv es s t = e.cinv_ := by
  unfold relatedCinv
  rw [h1, h2]

theorem relatedCinv_of_none (es : List (Edge K)) (s t : Nat)
    (h1 : edge s t es = none) (h2 : edge t s es = none) : relatedCinv es s t = 0 := by
  unfold relatedCinv
  rw [h1, h2]

theorem edge_self_eq_none (g : SLAMGraph K) (hwf : EdgesWellFormed g) (v : Nat) :
    edge v v g.edges = none := by
  cases h : edge v v g.edges with
  | none => rfl
  | some e =>
    obtain ⟨hs, ht, hmem⟩ := edge_eq_some_fields h
    exact absurd (hs.trans ht.symm) (hwf e hmem).2.2.1

/-- C14. In a pass of `compute` over a reachable graph with `n >= 2` vertices the pass
solves the system assembled from the freshly linearized edge table, and in that system,
for non-reference vertices `i = a + 1` and `j = b + 1`: an off-diagonal block `(i, j)` is
zero when neither the edge `(i, j)` nor the edge `(j, i)` exists, equals `-cinv_` of the
edge `(i, j)` when that edge exists, and equals `-cinv_` of the edge `(j, i)` when only
that one exists; the diagonal block `(i, i)` is the sum, over all vertices `vj` in
`[0, n)`, of `cinv_` of the edge relating `i` and `vj` (zero when there is none). -/
theorem assembled_block_structure (N : Numerics K) (g : SLAMGraph K) (hr : Reachable N g)
    (hn : 2 ≤ num_vertices g) :
    computePass N (num_vertices g) g
        = (List.finRange (num_vertices g - 1)).foldl
            (updatePose N (N.solve (num_vertices g - 1)
              (assemble (num_vertices g - 1) (computeEdges N g).edges).1
              (assemble (num_vertices g - 1) (computeEdges N g).edges).2))
            (computeEdges N g)
    ∧ ∀ (a b : Fin (num_vertices g - 1)) (r c : Fin 6),
        (a ≠ b →
          (edge (a.val + 1) (b.val + 1) (computeEdges N g).edges = none →
            edge (b.val + 1) (a.val + 1) (computeEdges N g).edges = none →
            (assemble (num_vertices g - 1) (computeEdges N g).edges).1 (a, r) (b, c) = 0)
          ∧ (∀ e, edge (a.val + 1) (b.val + 1) (computeEdges N g).edges = some e →
            (assemble (num_vertices g - 1) (computeEdges N g).edges).1 (a, r) (b, c)
              = -e.cinv_ r c)
          ∧ (∀ e, edge (a.val + 1) (b.val + 1) (computeEdges N g).edges = none →
            edge (b.val + 1) (a.val + 1) (computeEdges N g).edges = some e →
            (assemble (num_vertices g - 1) (computeEdges N g).edges).1 (a, r) (b, c)
              = -e.cinv_ r c))
        ∧ (assemble (num_vertices g - 1) (computeEdges N g).edges).1 (a, r) (a, c)
            = ∑ vj in Finset.range (num_vertices g),
                relatedCinv (computeEdges N g).edges (a.val + 1) vj r c := by
  refine ⟨rfl, fun a b r c =>
    ⟨fun hab => ⟨fun h1 h2 => ?_, fun e h => ?_, fun e h1 h2 => ?_⟩, ?_⟩⟩
  · rw [assemble_fst_offdiag _ _ a b hab, relatedCinv_of_none _ _ _ h1 h2]
    simp
  · rw [assemble_fst_offdiag _ _ a b hab, relatedCinv_of_forward _ _ _ e h]
  · rw [assemble_fst_offdiag _ _ a b hab, relatedCinv_of_backward _ _ _ e h1 h2]
  · have hwf := edgesWellFormed_computeEdges N g (edgesWellFormed_reachable N g hr)
    rw [assemble_fst_diag _ _ a (edge_self_eq_none _ hwf _),
      Fin.sum_univ_eq_sum_range
        (fun vj => relatedCinv (computeEdges N g).edges (a.val + 1) vj r c)
        (num_vertices g - 1 + 1)]
    congr 2
    omega

theorem assembled_block_structure_witness :
    (assemble 1 (computeEdges (exactNumerics Real.cos Real.sin)
        (translationSession true : SLAMGraph ℝ)).edges).1 (0, 0) (0, 0)
      = ∑ vj in Finset.range 2,
          relatedCinv (computeEdges (exactNumerics Real.cos Real.sin)
            (translationSession true : SLAMGraph ℝ)).edges 1 vj 0 0 :=
  ((assembled_block_structure (exactNumerics Real.cos Real.sin)
    (translationSession true : SLAMGraph ℝ)
    (Reachable.setCorrespondences 0 1 identityCorrespondences4
      (Reachable.addPointCloud cloudB (Reachable.addPointCloud cloudA Reachable.empty)))
    (Nat.le_refl 2)).2 (0 : Fin 1) (0 : Fin 1) 0 0).2

/-! ## The right-hand side of the assembled system -/

theorem offsetSession_eq :
    (offsetSession : SLAMGraph K)
      = { vertices := [{ cloud_ := cloudP, pose_ := 0 }, { cloud_ := cloudR, pose_ := 0 }]
          edges := [{ source := 0, target := 1, corrs_ := identityCorrespondences3,
                      cinv_ := 0, cinvd_ := 0, computed_ := false }] } := by
  rfl

theorem opposedSession_eq :
    (opposedSession : SLAMGraph K)
      = { vertices := [{ cloud_ := cloudP, pose_ := 0 }, { cloud_ := cloudR, pose_ := 0 }]
          edges := [{ source := 0, target := 1, corrs_ := identityCorrespondences3,
                      cinv_ := 0, cinvd_ := 0, computed_ := false },
                    { source := 1, target := 0, corrs_ := identityCorrespondences3,
                      cinv_ := 0, cinvd_ := 0, computed_ := false }] } := by
  rfl

theorem offset_forward_terms [CharZero K] (N : Numerics K)
    (hc : N.cos 0 = 1) (hs : N.sin 0 = 0) :
    edgeTerms N
      [{ cloud_ := cloudP, pose_ := 0 }, { cloud_ := cloudR, pose_ := 0 }]
      { source := 0, target := 1, corrs_ := identityCorrespondences3,
        cinv_ := 0, cinvd_ := 0, computed_ := false }
      = (offsetTerms : List (PairTerms K)) := by
  simp only [edgeTerms, vertexAt, List.getD_cons_zero, List.getD_cons_succ,
    poseToTransform_zero N hc hs, transformPointCloud_one]
  simp [identityCorrespondences3, pairTerms, pointAt, cloudP, cloudR, offsetTerms]
  norm_num

theorem offset_backward_terms [CharZero K] (N : Numerics K)
    (hc : N.cos 0 = 1) (hs : N.sin 0 = 0) :
    edgeTerms N
      [{ cloud_ := cloudP, pose_ := 0 }, { cloud_ := cloudR, pose_ := 0 }]
      { source := 1, target := 0, corrs_ := identityCorrespondences3,
        cinv_ := 0, cinvd_ := 0, computed_ := false }
      = (offsetTerms : List (PairTerms K)).map negateTerms := by
  rw [← offset_forward_terms N hc hs]
  exact edgeTerms_mirror _ _ _ _ rfl rfl rfl

theorem edgeMZ_offsetTerms [CharZero K] (r : Fin 6) :
    edgeMZ (offsetTerms : List (PairTerms K)) r = if r = 0 then 2 else 0 := by
  unfold edgeMZ
  rw [foldl_accumulate_eq_add]
  fin_cases r <;> simp [offsetTerms, stepMZ]

theorem edgeMM_offsetTerms_mulVec [CharZero K] (v : Vector6f K) (r : Fin 6) :
    (edgeMM (offsetTerms : List (PairTerms K))).mulVec v r
      = if r.val < 3 then 3 * v r else v r := by
  unfold edgeMM
  rw [foldl_accumulate_eq_add, Matrix.mulVec, Matrix.dotProduct, Fin.sum_univ_six]
  simp only [remaining_apply]
  fin_cases r <;> simp [offsetTerms, stepMM]

theorem isUnit_det_edgeMM_offsetTerms [CharZero K] :
    IsUnit (edgeMM (offsetTerms : List (PairTerms K))).det := by
  rw [isUnit_iff_ne_zero]
  intro hdet
  obtain ⟨v, hv, hzero⟩ := Matrix.exists_mulVec_eq_zero_iff.mpr hdet
  apply hv
  funext r
  have h := congrFun hzero r
  rw [edgeMM_offsetTerms_mulVec] at h
  by_cases hr : r.val < 3
  · rw [if_pos hr] at h
    simpa using h
  · rw [if_neg hr] at h
    exact h

theorem edgeD_offsetTerms [CharZero K] (N : Numerics K) (hN : N.Exact) :
    edgeD N (offsetTerms : List (PairTerms K)) = ![2 / 3, 0, 0, 0, 0, 0] := by
  refine edgeD_of_solution N hN offsetTerms ![2 / 3, 0, 0, 0, 0, 0]
    isUnit_det_edgeMM_offsetTerms ?_
  funext r
  rw [edgeMM_offsetTerms_mulVec, edgeMZ_offsetTerms]
  fin_cases r <;> simp [vector6_apply_three, vector6_apply_four, vector6_apply_five]
  norm_num

theorem edgeSS_offsetTerms [CharZero K] :
    edgeSS ![2 / 3, 0, 0, 0, 0, 0] (offsetTerms : List (PairTerms K)) = 8 / 3 := by
  simp only [edgeSS, offsetTerms, List.foldl_cons, List.foldl_nil, residual,
    Matrix.cons_val_zero, Matrix.cons_val_one, Matrix.cons_val_two, Matrix.head_cons,
    Matrix.tail_cons, vector6_apply_three, vector6_apply_four, vector6_apply_five]
  norm_num

theorem freshCinvd_offsetTerms [CharZero K] (N : Numerics K) (hN : N.Exact) (r : Fin 6) :
    freshCinvd N (offsetTerms : List (PairTerms K)) r = if r = 0 then 3 / 4 else 0 := by
  unfold freshCinvd
  rw [edgeD_offsetTerms N hN, edgeSS_offsetTerms, hN.recip_eq _ (by norm_num),
    Pi.smul_apply, edgeMZ_offsetTerms]
  split
  · rw [smul_eq_mul]
    norm_num
  · simp

theorem computeEdges_opposedSession [CharZero K] (N : Numerics K)
    (hc : N.cos 0 = 1) (hs : N.sin 0 = 0) :
    (computeEdges N (opposedSession : SLAMGraph K)).edges
      = [{ source := 0, target := 1, corrs_ := identityCorrespondences3,
           cinv_ := freshCinv N offsetTerms, cinvd_ := freshCinvd N offsetTerms,
           computed_ := true },
         { source := 1, target := 0, corrs_ := identityCorrespondences3,
           cinv_ := freshCinv N offsetTerms, cinvd_ := -freshCinvd N offsetTerms,
           computed_ := true }] := by
  rw [opposedSession_eq]
  simp only [computeEdges, List.map_cons, List.map_nil, computeEdge, Bool.false_eq_true,
    if_false, offset_forward_terms N hc hs, offset_backward_terms N hc hs,
    freshCinv_negateTerms, freshCinvd_negateTerms]

/-- The right-hand side of the first pass on `opposedSession`, row of vertex 1, first
component: the code adds only the out-edge `(1, 0)`, the specification's formula also
subtracts the in-edge `(0, 1)`. -/
theorem opposedSession_rhs [CharZero K] (N : Numerics K) (hN : N.Exact)
    (hc : N.cos 0 = 1) (hs : N.sin 0 = 0) :
    (assemble 1 (computeEdges N (opposedSession : SLAMGraph K)).edges).2 (0, 0) = -(3 / 4)
    ∧ specSignedSum (computeEdges N (opposedSession : SLAMGraph K)).edges 1 0
        = -(3 / 2) := by
  rw [computeEdges_opposedSession N hc hs]
  constructor
  · rw [assemble_snd, Fin.sum_univ_two]
    simp [signedCinvd, edge, List.find?, freshCinvd_offsetTerms N hN]
  · simp [specSignedSum, List.filter, freshCinvd_offsetTerms N hN]
    norm_num

/-- C16 (counterexample). On the client-reachable session `opposedSession` over the
reals, which stores both the edge `(0, 1)` and the edge `(1, 0)`, the first pass of
`compute` assembles `-3/4` as first component of the right-hand side row of vertex 1,
while the sum of `cinvd_` over the out-edges of vertex 1 minus the sum over its in-edges
is `-3/2`: the in-edge `(0, 1)` is not subtracted. -/
theorem signed_sum_both_directions_counterexample :
    ClientReachable (exactNumerics Real.cos Real.sin) (opposedSession : SLAMGraph ℝ)
    ∧ (assemble 1 (computeEdges (exactNumerics Real.cos Real.sin)
        (opposedSession : SLAMGraph ℝ)).edges).2 (0, 0) = -(3 / 4)
    ∧ specSignedSum (computeEdges (exactNumerics Real.cos Real.sin)
        (opposedSession : SLAMGraph ℝ)).edges 1 0 = -(3 / 2)
    ∧ (assemble 1 (computeEdges (exactNumerics Real.cos Real.sin)
        (opposedSession : SLAMGraph ℝ)).edges).2 (0, 0)
      ≠ specSignedSum (computeEdges (exactNumerics Real.cos Real.sin)
        (opposedSession : SLAMGraph ℝ)).edges 1 0 := by
  have h := opposedSession_rhs (exactNumerics Real.cos Real.sin)
    (exactNumerics_exact Real.cos Real.sin) Real.cos_zero Real.sin_zero
  refine ⟨?_, h.1, h.2, ?_⟩
  · exact ClientReachable.setCorrespondences 1 0 identityCorrespondences3
      (ClientReachable.setCorrespondences 0 1 identityCorrespondences3
        (ClientReachable.addPointCloud cloudR
          (ClientReachable.addPointCloud cloudP ClientReachable.empty)))
  · rw [h.1, h.2]
    norm_num

/-- C16 (amended). In each pass of `compute`, for every graph, the pass solves the system
assembled from the freshly linearized edge table, and the segment of the right-hand side
for the row of a non-reference vertex `i = a + 1` is the sum over all vertices `vj` of
one signed term: `+cinvd_` of the edge `(i, vj)` when that edge exists, whether or not
the edge `(vj, i)` exists as well; `-cinvd_` of the edge `(vj, i)` when only that one
exists; zero when neither exists. -/
theorem assembled_rhs_forward_preferred (N : Numerics K) (g : SLAMGraph K) :
    computePass N (num_vertices g) g
        = (List.finRange (num_vertices g - 1)).foldl
            (updatePose N (N.solve (num_vertices g - 1)
              (assemble (num_vertices g - 1) (computeEdges N g).edges).1
              (assemble (num_vertices g - 1) (computeEdges N g).edges).2))
            (computeEdges N g)
    ∧ (∀ (a : Fin (num_vertices g - 1)) (r : Fin 6),
        (assemble (num_vertices g - 1) (computeEdges N g).edges).2 (a, r)
          = ∑ vj : Fin (num_vertices g - 1 + 1),
              signedCinvd (computeEdges N g).edges (a.val + 1) vj.val r)
    ∧ ∀ i vj : Nat,
        (∀ e, edge i vj (computeEdges N g).edges = some e →
          signedCinvd (computeEdges N g).edges i vj = e.cinvd_)
        ∧ (∀ e, edge i vj (computeEdges N g).edges = none →
          edge vj i (computeEdges N g).edges = some e →
          signedCinvd (computeEdges N g).edges i vj = -e.cinvd_)
        ∧ (edge i vj (computeEdges N g).edges = none →
          edge vj i (computeEdges N g).edges = none →
          signedCinvd (computeEdges N g).edges i vj = 0) := by
  refine ⟨rfl, fun a r => assemble_snd _ _ a r, fun i vj => ⟨fun e h => ?_, fun e h1 h2 => ?_,
    fun h1 h2 => ?_⟩⟩
  · unfold signedCinvd
    rw [h]
  · unfold signedCinvd
    rw [h1, h2]
  · unfold signedCinvd
    rw [h1, h2]

/-! ## The linearization cache after compute -/

/-- C20. For a reachable graph with `n >= 2` vertices and `max_iterations >= 1`: every
edge has a non-reference endpoint; after `compute` returns every edge of the graph has
`computed_ = false`, so a later linearization loop recomputes each of them from scratch;
and when the graph is one a client can observe, every pass of the outer loop starts with
all flags cleared, so every pass re-linearizes every edge. -/
theorem cache_never_survives_compute (N : Numerics K) (g : SLAMGraph K)
    (hr : Reachable N g) (hn : 2 ≤ num_vertices g) (max_iterations : Nat)
    (hk : 1 ≤ max_iterations) :
    (∀ e ∈ g.edges, e.source ≠ 0 ∨ e.target ≠ 0)
    ∧ (∀ e ∈ (compute N max_iterations g).edges, e.computed_ = false)
    ∧ (∀ e ∈ (compute N max_iterations g).edges, ∀ vs,
        computeEdge N vs e = relinearize N vs e)
    ∧ (ClientReachable N g → ∀ j, ∀ e ∈ (iteratePasses N (num_vertices g) j g).edges,
        e.computed_ = false
        ∧ computeEdge N (iteratePasses N (num_vertices g) j g).vertices e
          = relinearize N (iteratePasses N (num_vertices g) j g).vertices e) := by
  have hwf := edgesWellFormed_reachable N g hr
  have hflags : ∀ e ∈ (compute N max_iterations g).edges, e.computed_ = false := by
    obtain ⟨k, rfl⟩ : ∃ k, max_iterations = k + 1 := ⟨max_iterations - 1, by omega⟩
    unfold compute
    simp only
    rw [if_neg (by omega)]
    exact iteratePasses_flags N k g hwf hn
  refine ⟨fun e he => ?_, hflags, fun e he vs => ?_, fun hc j e he => ?_⟩
  · have h := (hwf e he).2.2.1
    by_contra hcon
    rw [not_or, not_not, not_not] at hcon
    exact h (hcon.1.trans hcon.2.symm)
  · exact computeEdge_eq_relinearize N vs e (hflags e he)
  · have hf : e.computed_ = false := by
      cases j with
      | zero => exact clientReachable_flags N g hc e he
      | succ j => exact iteratePasses_flags N j g hwf hn e he
    exact ⟨hf, computeEdge_eq_relinearize N _ e hf⟩

theorem cache_never_survives_compute_witness :
    2 ≤ num_vertices (translationSession true : SLAMGraph ℝ)
    ∧ ∀ e ∈ (compute (exactNumerics Real.cos Real.sin) 3
        (translationSession true : SLAMGraph ℝ)).edges, e.computed_ = false :=
  ⟨Nat.le_refl 2,
    (cache_never_survives_compute (exactNumerics Real.cos Real.sin)
      (translationSession true : SLAMGraph ℝ)
      (Reachable.setCorrespondences 0 1 identityCorrespondences4
        (Reachable.addPointCloud cloudB (Reachable.addPointCloud cloudA Reachable.empty)))
      (Nat.le_refl 2) 3 (by decide)).2.1⟩

/-! ## The two-vertex closed form -/

theorem computeEdge_cache (N : Numerics K) (g : SLAMGraph K) (hcv : CacheValid N g)
    (e : Edge K) (he : e ∈ g.edges) :
    (computeEdge N g.vertices e).cinv_ = freshCinv N (edgeTerms N g.vertices e)
    ∧ (computeEdge N g.vertices e).cinvd_ = freshCinvd N (edgeTerms N g.vertices e) := by
  cases hc : e.computed_ with
  | true =>
    rw [computeEdge_of_computed N _ e hc]
    obtain ⟨h1, h2⟩ := hcv e he hc
    rw [h1, h2]
    exact relinearize_cache N _ e
  | false =>
    rw [computeEdge_eq_relinearize N _ e hc]
    exact relinearize_cache N _ e

/-- The system assembled for two vertices joined by one edge, stored in either
direction. -/
theorem assemble_single_edge (e : Edge K)
    (hdir : (e.source = 1 ∧ e.target = 0) ∨ (e.source = 0 ∧ e.target = 1)) (r c : Fin 6) :
    (assemble 1 [e]).1 (0, r) (0, c) = e.cinv_ r c
    ∧ (assemble 1 [e]).2 (0, r) = (if e.source = 1 then 1 else -1) * e.cinvd_ r := by
  have hloop : edge ((0 : Fin 1).val + 1) ((0 : Fin 1).val + 1) [e] = none := by
    rw [edge_cons]
    rcases hdir with h | h <;> simp [h, edge]
  constructor
  · rw [assemble_fst_diag 1 [e] 0 hloop, Fin.sum_univ_two]
    rcases hdir with h | h <;> simp [relatedCinv, edge_cons, h, edge]
  · rw [assemble_snd, Fin.sum_univ_two]
    rcases hdir with h | h <;> simp [signedCinvd, edge_cons, h, edge]

/-- The solution of a one-block system `(s M) X = σ s z` with `s ≠ 0` and `M`
nonsingular is `σ M⁻¹ z`, whatever `s` is. -/
theorem solve_single_block (N : Numerics K) (hN : N.Exact) (G : SystemMatrix K 1)
    (B : SystemVector K 1) (M : Matrix6f K) (z : Vector6f K) (s σ : K) (hs : s ≠ 0)
    (hM : NonSingular M) (hG : ∀ r c, G (0, r) (0, c) = s * M r c)
    (hB : ∀ r, B (0, r) = σ * (s * z r)) (r : Fin 6) :
    N.solve 1 G B (0, r) = σ * (M⁻¹.mulVec z) r := by
  have hmul : ∀ (v : SystemVector K 1) (r : Fin 6),
      G.mulVec v (0, r) = s * M.mulVec (fun c => v (0, c)) r := by
    intro v r
    simp only [Matrix.mulVec, Matrix.dotProduct, Fintype.sum_prod_type, Fin.sum_univ_one]
    rw [Finset.mul_sum]
    apply Finset.sum_congr rfl
    intro c _
    rw [hG]
    ring
  have hdet : IsUnit G.det := by
    rw [isUnit_iff_ne_zero]
    intro hdet
    obtain ⟨v, hv, hzero⟩ := Matrix.exists_mulVec_eq_zero_iff.mpr hdet
    apply hv
    have hw : M.mulVec (fun c => v (0, c)) = 0 := by
      funext r
      have h := congrFun hzero (0, r)
      rw [hmul] at h
      simpa [hs] using h
    have hw0 := Matrix.eq_zero_of_mulVec_eq_zero (isUnit_iff_ne_zero.mp hM) hw
    funext ⟨a, c⟩
    have ha : a = 0 := Subsingleton.elim _ _
    subst ha
    exact congrFun hw0 c
  rw [hN.solve_eq 1 G B hdet]
  have hX : B = G.mulVec (fun i => σ * (M⁻¹.mulVec z) i.2) := by
    funext ⟨a, r⟩
    have ha : a = 0 := Subsingleton.elim _ _
    subst ha
    rw [hmul, hB]
    have h1 : (fun c => σ * (M⁻¹.mulVec z) c) = σ • (M⁻¹.mulVec z) := rfl
    have h2 : M.mulVec (fun c => σ * (M⁻¹.mulVec z) c) = σ • z := by
      rw [h1, Matrix.mulVec_smul, Matrix.mulVec_mulVec, Matrix.mul_nonsing_inv _ hM,
        Matrix.one_mulVec]
    rw [h2, Pi.smul_apply, smul_eq_mul]
    ring
  rw [hX, Matrix.mulVec_mulVec, Matrix.nonsing_inv_mul _ hdet, Matrix.one_mulVec]

theorem offsetSession_ss_ne_zero [CharZero K] (N : Numerics K) (hN : N.Exact)
    (hc : N.cos 0 = 1) (hs : N.sin 0 = 0) :
    edgeSS
        (edgeD N (edgeTerms N (offsetSession : SLAMGraph K).vertices
          { source := 0, target := 1, corrs_ := identityCorrespondences3,
            cinv_ := 0, cinvd_ := 0, computed_ := false }))
        (edgeTerms N (offsetSession : SLAMGraph K).vertices
          { source := 0, target := 1, corrs_ := identityCorrespondences3,
            cinv_ := 0, cinvd_ := 0, computed_ := false }) ≠ 0 := by
  rw [offsetSession_eq]
  simp only [offset_forward_terms N hc hs, edgeD_offsetTerms N hN, edgeSS_offsetTerms]
  norm_num

section TwoVertex

variable {F : Type} [LinearOrderedField F]

/-- C19. For a reachable graph with exactly two vertices and a single edge `e` whose
residual variance `ss` is nonzero, with exact primitives: the edge is stored as `(1, 0)`
or as `(0, 1)`; its pose-difference estimate is `D = MM⁻¹ MZ`; a pass of `compute`
writes to vertex 1 the pose corrected by the solution `X` of the assembled system; that
solution is `+D` when the edge is stored as `(1, 0)` and `-D` when it is stored as
`(0, 1)`; so the pass leaves `pose_1 - incidenceCorrection (pose_1)⁻¹ (±D)` as pose of
vertex 1, an expression in which `ss` does not occur. -/
theorem two_vertex_closed_form (N : Numerics F) (hN : N.Exact) (g : SLAMGraph F)
    (hr : Reachable N g) (hv : num_vertices g = 2) (e : Edge F) (he : g.edges = [e])
    (hss : edgeSS (edgeD N (edgeTerms N g.vertices e)) (edgeTerms N g.vertices e) ≠ 0) :
    ((e.source = 1 ∧ e.target = 0) ∨ (e.source = 0 ∧ e.target = 1))
    ∧ edgeD N (edgeTerms N g.vertices e)
        = (edgeMM (edgeTerms N g.vertices e))⁻¹.mulVec (edgeMZ (edgeTerms N g.vertices e))
    ∧ computePass N 2 g
        = setPose (computeEdges N g) 1 (correctedPose N (getPose g 1)
            (fun r => solveSystem N 1 (computeEdges N g).edges (0, r)))
    ∧ (∀ r, solveSystem N 1 (computeEdges N g).edges (0, r)
        = (if e.source = 1 then 1 else -1) * edgeD N (edgeTerms N g.vertices e) r)
    ∧ getPose (computePass N 2 g) 1
        = correctedPose N (getPose g 1)
            (fun r => (if e.source = 1 then 1 else -1)
              * edgeD N (edgeTerms N g.vertices e) r) := by
  have hmem : e ∈ g.edges := by
    rw [he]
    exact List.mem_singleton.mpr rfl
  obtain ⟨hs2, ht2, hne, hlen⟩ := edgesWellFormed_reachable N g hr e hmem
  rw [hv] at hs2 ht2
  have hdir : (e.source = 1 ∧ e.target = 0) ∨ (e.source = 0 ∧ e.target = 1) := by omega
  have hM : NonSingular (edgeMM (edgeTerms N g.vertices e)) :=
    nonSingular_edgeMM _ (edgeTerms_ne_nil N g.vertices e (by omega))
  have hD : edgeD N (edgeTerms N g.vertices e)
      = (edgeMM (edgeTerms N g.vertices e))⁻¹.mulVec (edgeMZ (edgeTerms N g.vertices e)) := by
    unfold edgeD
    rw [hN.inverse_eq _ hM]
  have hes : (computeEdges N g).edges = [computeEdge N g.vertices e] := by
    simp [computeEdges, he]
  obtain ⟨hf1, hf2, _⟩ := computeEdge_fields N g.vertices e
  obtain ⟨hc1, hc2⟩ := computeEdge_cache N g (cacheValid_reachable N g hr).2 e hmem
  have hdir' : ((computeEdge N g.vertices e).source = 1
        ∧ (computeEdge N g.vertices e).target = 0)
      ∨ ((computeEdge N g.vertices e).source = 0
        ∧ (computeEdge N g.vertices e).target = 1) := by
    rw [hf1, hf2]
    exact hdir
  have hrecip : N.recip (edgeSS (edgeD N (edgeTerms N g.vertices e))
      (edgeTerms N g.vertices e)) ≠ 0 := by
    rw [hN.recip_eq _ hss]
    exact inv_ne_zero hss
  have hsolve : ∀ r, solveSystem N 1 (computeEdges N g).edges (0, r)
      = (if e.source = 1 then 1 else -1) * edgeD N (edgeTerms N g.vertices e) r := by
    intro r
    unfold solveSystem
    rw [hes, hD]
    refine solve_single_block N hN _ _ (edgeMM (edgeTerms N g.vertices e))
      (edgeMZ (edgeTerms N g.vertices e)) _ _ hrecip hM (fun r c => ?_) (fun r => ?_) r
    · rw [(assemble_single_edge _ hdir' r c).1, hc1]
      rfl
    · rw [(assemble_single_edge _ hdir' r 0).2, hc2, hf1]
      rfl
  have hpass : computePass N 2 g
      = setPose (computeEdges N g) 1 (correctedPose N (getPose g 1)
          (fun r => solveSystem N 1 (computeEdges N g).edges (0, r))) := rfl
  refine ⟨hdir, hD, hpass, hsolve, ?_⟩
  rw [hpass, getPose_setPose_self _ _ _ (by decide) (by
    show 1 < num_vertices g
    rw [hv]
    decide)]
  have hX : (fun r => solveSystem N 1 (computeEdges N g).edges (0, r))
      = fun r => (if e.source = 1 then 1 else -1)
          * edgeD N (edgeTerms N g.vertices e) r := funext hsolve
  rw [hX]

theorem two_vertex_closed_form_witness :
    getPose (computePass (exactNumerics Real.cos Real.sin) 2
        (offsetSession : SLAMGraph ℝ)) 1
      = correctedPose (exactNumerics Real.cos Real.sin)
          (getPose (offsetSession : SLAMGraph ℝ) 1)
          (fun r => (if (0 : Nat) = 1 then 1 else -1)
            * edgeD (exactNumerics Real.cos Real.sin)
                (edgeTerms (exactNumerics Real.cos Real.sin)
                  (offsetSession : SLAMGraph ℝ).vertices
                  { source := 0, target := 1, corrs_ := identityCorrespondences3,
                    cinv_ := 0, cinvd_ := 0, computed_ := false }) r) :=
  (two_vertex_closed_form (exactNumerics Real.cos Real.sin)
    (exactNumerics_exact Real.cos Real.sin) (offsetSession : SLAMGraph ℝ)
    (Reachable.setCorrespondences 0 1 identityCorrespondences3
      (Reachable.addPointCloud cloudR (Reachable.addPointCloud cloudP Reachable.empty)))
    rfl
    { source := 0, target := 1, corrs_ := identityCorrespondences3,
      cinv_ := 0, cinvd_ := 0, computed_ := false }
    rfl
    (offsetSession_ss_ne_zero (exactNumerics Real.cos Real.sin)
      (exactNumerics_exact Real.cos Real.sin) Real.cos_zero Real.sin_zero)).2.2.2.2

end TwoVertex

/-! ## The per-edge matrix in binary32 -/

theorem edgeMM32_coincidentTerms_columns :
    ∀ r : Fin 6, edgeMM32 coincidentTerms r 4 + edgeMM32 coincidentTerms r 5 = 0 := by
  decide

/-- C18 (counterexample). In binary32 the `1` that `Matrix6f::Identity ()` leaves on
`MM (3, 3)`, `MM (4, 4)`, `MM (5, 5)` is absorbed by rounding: `1 + 2 ^ 24` and
`1 + 2 ^ 25` round to `2 ^ 24` and `2 ^ 25`. For three correspondences whose midpoints
coincide at `(0, 4096, 4096)` the matrix `MM` that the loop builds in binary32 has
`MM (4, 4) = MM (5, 5) = 3 · 2 ^ 24` and `MM (4, 5) = -3 · 2 ^ 24`, its rows 4 and 5 are
opposite, and its determinant is zero: the inversion `MM.inverse ()` meets a singular
matrix. -/
theorem edgeMM_binary32_singular_counterexample :
    coincidentTerms.length = 3
    ∧ roundBinary32 (1 + 2 ^ 24) = 2 ^ 24
    ∧ roundBinary32 (1 + 2 ^ 25) = 2 ^ 25
    ∧ edgeMM32 coincidentTerms 4 4 = 3 * 2 ^ 24
    ∧ edgeMM32 coincidentTerms 5 5 = 3 * 2 ^ 24
    ∧ edgeMM32 coincidentTerms 4 5 = -(3 * 2 ^ 24)
    ∧ (∀ c : Fin 6, edgeMM32 coincidentTerms 4 c = -edgeMM32 coincidentTerms 5 c)
    ∧ (edgeMM32 coincidentTerms).det = 0 := by
  refine ⟨rfl, by decide, by decide, by decide, by decide, by decide, by decide, ?_⟩
  apply Matrix.exists_mulVec_eq_zero_iff.mp
  refine ⟨fun c => if c = 4 ∨ c = 5 then 1 else 0, ?_, ?_⟩
  · intro h
    have h4 := congrFun h 4
    simp at h4
  · funext r
    have hcol := edgeMM32_coincidentTerms_columns r
    simp only [Matrix.mulVec, Matrix.dotProduct, Fin.sum_univ_six, Pi.zero_apply]
    simpa using hcol

/-! ## The translation scenario and the value of `1 / ss` -/

section TranslationPasses

variable {F : Type} [LinearOrderedField F]

end TranslationPasses

end LUM
